import Mathlib

/-!
# Spatio-temporal event index: KD-tree with a Fenwick tree per node

A shallow embedding of `src/cpp/fenwick.h` and `src/cpp/kdtree.h`.

Modelling conventions.

* C++ `int` is 32 bits wide.  A value of type `int` is an `Int`, and `InInt` says
  that it is representable.  The arithmetic on data, that is on the counters of
  `bit`, on the running `result` of `sum`, on the difference formed by
  `range_sum` and on the running `result` of `queryRange`, is two's-complement:
  every such `+` and `-` is followed by `wrapInt`, the reduction into
  `[-2^31, 2^31)`, which is what the usual targets compute where ISO C++ leaves
  signed overflow undefined.
* The arithmetic on indices (`idx += idx & -idx`, `idx -= idx & -idx`, `n + 1`,
  `l - 1`, `mid`, `depth + 1`) is written on `Int` without reduction: the loop
  variable of `add` stays in `[1, n + n]` and that of `sum` in `[0, n]`, so for a
  capacity `n` with `n + n` representable no index computation overflows.
* C++ `double` coordinates are only ever compared (`<`, `<=`, `>=`, `std::min`,
  `std::max`); they are modelled by an arbitrary linearly ordered type `α`
  (finite, non-NaN doubles are such a type).
* `std::vector<int>` and `std::vector<Event>` are `List`s; `std::unique_ptr<KDNode>`
  is the inductive type `KDNode`, whose constructor `null` is `nullptr`.
* `std::sort` is a parameter `sort` constrained by its library contract `IsStdSort`.
* Loops and the recursion of `buildTree` are written with a fuel argument; loops
  return their full exit state so that their termination by the loop condition
  can be stated, and `buildTree` reports `Err.outOfFuel`.
* An access `bit[idx]` outside the vector is undefined behaviour in C++ (the model
  reads `0` and writes nothing there); the positions a loop accesses are listed
  by `Fenwick.addTrace` and `Fenwick.sumTrace`, which repeat the control flow of
  the loops, so that the safety of the accesses can be stated.
* A thrown C++ exception is an `Except.error` result.
-/

namespace SpatioTemporal

/-- Ways in which a run can fail to produce a value. -/
inductive Err where
  | lengthError
  | outOfRange
  | outOfFuel
  deriving DecidableEq, Repr

/-! ## The type `int` -/

/-- The value is representable in the 32-bit type `int`. -/
def InInt (x : Int) : Prop := -2147483648 ≤ x ∧ x ≤ 2147483647

/-- The 32-bit two's-complement value of an `int` result: `x` reduced modulo
`2^32` into `[-2^31, 2^31)`. -/
def wrapInt (x : Int) : Int := (x + 2147483648) % 4294967296 - 2147483648

/-! ## fenwick.h -/

/-- The expression `idx & -idx` on two's-complement integers. -/
def lowbit (idx : Int) : Int := Int.land idx (-idx)

/-- The class `Fenwick`: the size `n` and the 1-indexed counter vector `bit`. -/
structure Fenwick where
  n : Int
  bit : List Int
  deriving DecidableEq, Repr

namespace Fenwick

/-- Default constructor `Fenwick() : n(0) {}`. -/
def ctor : Fenwick := ⟨0, []⟩

/-- Method `init(size)`: `n = size; bit.assign(n + 1, 0)`.  The count `n + 1` is
converted to the unsigned `size_type`; a negative count becomes a value above
`max_size()` and `assign` throws `std::length_error`. -/
def init (_self : Fenwick) (size : Int) : Except Err Fenwick :=
  if size + 1 < 0 then .error .lengthError
  else .ok ⟨size, List.replicate (size + 1).toNat 0⟩

/-- The statement `bit[idx] += val` on the `int` counter `bit[idx]`. -/
def bump (bit : List Int) (idx val : Int) : List Int :=
  bit.set idx.toNat (wrapInt (bit.getD idx.toNat 0 + val))

/-- The loop `for (; idx <= n; idx += idx & -idx) bit[idx] += val;` of `add`.
Returns the exit state `(bit, idx)`. -/
def addLoop : Nat → Int → List Int → Int → Int → List Int × Int
  | 0, _, bit, idx, _ => (bit, idx)
  | fuel + 1, n, bit, idx, val =>
    if idx ≤ n then addLoop fuel n (bump bit idx val) (idx + lowbit idx) val
    else (bit, idx)

/-- Method `add(idx, val)`. -/
def add (f : Fenwick) (idx val : Int) : Fenwick :=
  if idx ≤ 0 ∨ idx > f.n then f
  else ⟨f.n, (addLoop f.n.toNat f.n f.bit idx val).1⟩

/-- The loop `for (; idx > 0; idx -= idx & -idx) result += bit[idx];` of `sum`, on
the `int` variable `result`.  Returns the exit state `(result, idx)`. -/
def sumLoop : Nat → List Int → Int → Int → Int × Int
  | 0, _, idx, result => (result, idx)
  | fuel + 1, bit, idx, result =>
    if idx > 0 then
      sumLoop fuel bit (idx - lowbit idx) (wrapInt (result + bit.getD idx.toNat 0))
    else (result, idx)

/-- Method `sum(idx)`. -/
def sum (f : Fenwick) (idx : Int) : Int :=
  if idx ≤ 0 then 0
  else
    let idx := if idx > f.n then f.n else idx
    (sumLoop idx.toNat f.bit idx 0).1

/-- Method `range_sum(l, r)`; the difference it returns is an `int`. -/
def range_sum (f : Fenwick) (l r : Int) : Int :=
  if l > r then 0
  else
    let l := if l ≤ 0 then 1 else l
    let r := if r > f.n then f.n else r
    wrapInt (f.sum r - f.sum (l - 1))

/-- Method `size()`. -/
def size (f : Fenwick) : Int := f.n

/-- Method `clear()`: `std::fill(bit.begin(), bit.end(), 0)`. -/
def clear (f : Fenwick) : Fenwick := ⟨f.n, f.bit.map (fun _ => 0)⟩

/-- A sequence of `add(idx, val)` calls, applied from left to right. -/
def addAll (f : Fenwick) (calls : List (Int × Int)) : Fenwick :=
  calls.foldl (fun g c => g.add c.1 c.2) f

end Fenwick

/-- Sum of `val` over the calls `(idx, val)` whose `idx` satisfies `p`. -/
def callTotal (p : Int → Bool) (calls : List (Int × Int)) : Int :=
  ((calls.filter (fun c => p c.1)).map Prod.snd).sum

/-! ## kdtree.h -/

/-- The struct `Event`. -/
structure Event (α : Type) where
  x : α
  y : α
  time : Int
  weight : Int
  deriving DecidableEq, Repr

/-- A `std::unique_ptr<KDNode>`: either `nullptr` or an owned node with the
fields of the class `KDNode` in declaration order. -/
inductive KDNode (α : Type) where
  | null : KDNode α
  | node (x y minX maxX minY maxY : α) (splitByX : Bool)
      (left right : KDNode α) (fenwick : Fenwick) : KDNode α
  deriving DecidableEq, Repr

namespace KDNode

variable {α : Type} [LinearOrder α]

/-- Constructor `KDNode(_x, _y, _splitX, timeSize)`: the box is the point itself,
both children are `nullptr`, and the default-constructed member `fenwick`
receives `init(timeSize)`. -/
def ctor (x y : α) (splitX : Bool) (timeSize : Int) : Except Err (KDNode α) :=
  match Fenwick.ctor.init timeSize with
  | .error e => .error e
  | .ok fw => .ok (.node x y x x y y splitX .null .null fw)

/-- Method `updateBounds(px, py)` (only ever called through a non-null pointer). -/
def updateBounds : KDNode α → α → α → KDNode α
  | .null, _, _ => .null
  | .node x y minX maxX minY maxY s l r fw, px, py =>
    .node x y (min minX px) (max maxX px) (min minY py) (max maxY py) s l r fw

/-- Method `intersects(qx1, qy1, qx2, qy2)` (only ever called through a non-null pointer). -/
def intersects : KDNode α → α → α → α → α → Bool
  | .null, _, _, _, _ => false
  | .node _ _ minX maxX minY maxY _ _ _ _, qx1, qy1, qx2, qy2 =>
    !(decide (maxX < qx1) || decide (minX > qx2) || decide (maxY < qy1) || decide (minY > qy2))

/-- Method `isInside(qx1, qy1, qx2, qy2)` (only ever called through a non-null pointer). -/
def isInside : KDNode α → α → α → α → α → Bool
  | .null, _, _, _, _ => false
  | .node _ _ minX maxX minY maxY _ _ _ _, qx1, qy1, qx2, qy2 =>
    decide (minX ≥ qx1) && decide (maxX ≤ qx2) && decide (minY ≥ qy1) && decide (maxY ≤ qy2)

/-- The assignment `node->left = l`. -/
def setLeft : KDNode α → KDNode α → KDNode α
  | .null, _ => .null
  | .node x y minX maxX minY maxY s _ r fw, l => .node x y minX maxX minY maxY s l r fw

/-- The assignment `node->right = r`. -/
def setRight : KDNode α → KDNode α → KDNode α
  | .null, _ => .null
  | .node x y minX maxX minY maxY s l _ fw, r => .node x y minX maxX minY maxY s l r fw

/-- The block `if (child) { node->updateBounds(child->minX, child->minY);
node->updateBounds(child->maxX, child->maxY); }` of `buildTree`. -/
def includeChild (node : KDNode α) : KDNode α → KDNode α
  | .null => node
  | .node _ _ cminX cmaxX cminY cmaxY _ _ _ _ =>
    (node.updateBounds cminX cminY).updateBounds cmaxX cmaxY

end KDNode

/-- The class `KDTree`: the root pointer and `maxTime`. -/
structure KDTree (α : Type) where
  root : KDNode α
  maxTime : Int
  deriving DecidableEq, Repr

/-- The call `std::sort(points.begin() + first, points.begin() + last, cmp)`:
the elements at positions `[first, last)` are replaced by `sort cmp` of them. -/
def sortRange {α : Type}
    (sort : (Event α → Event α → Bool) → List (Event α) → List (Event α))
    (cmp : Event α → Event α → Bool) (points : List (Event α)) (first last : Nat) :
    List (Event α) :=
  points.take first ++ sort cmp ((points.drop first).take (last - first)) ++ points.drop last

/-- Library contract of `std::sort` for the comparators `a.key < b.key`: the
result is a permutation of the input in which no later element compares less
than an earlier one.  The order of equal keys is left open. -/
def IsStdSort {α : Type} [LinearOrder α]
    (sort : (Event α → Event α → Bool) → List (Event α) → List (Event α)) : Prop :=
  ∀ (key : Event α → α) (l : List (Event α)),
    (sort (fun a b => decide (key a < key b)) l).Perm l ∧
    (sort (fun a b => decide (key a < key b)) l).Pairwise (fun a b => key a ≤ key b)

/-- Insertion of `a` in front of the first element that `a` compares less than. -/
def insertBy {β : Type} (lt : β → β → Bool) (a : β) : List β → List β
  | [] => [a]
  | b :: l => if lt a b then a :: b :: l else b :: insertBy lt a l

/-- Insertion sort, one admissible implementation of `std::sort`. -/
def insertionSortBy {β : Type} (lt : β → β → Bool) : List β → List β
  | [] => []
  | a :: l => insertBy lt a (insertionSortBy lt l)

namespace KDTree

variable {α : Type} [LinearOrder α]

/-- Constructor `KDTree(_maxTime)` (the C++ default argument is 1440). -/
def ctor (maxTime : Int) : KDTree α := ⟨.null, maxTime⟩

/-- Method `buildTree(points, start, end, depth)`.  The vector `points` is
passed by reference and sorted in place, so it is threaded through and returned
together with the subtree pointer.  A non-empty range `[start, end]` that leaves
the vector makes `std::sort` and `points[mid]` undefined in C++ and is reported
as `Err.outOfRange`; an exception of the node constructor is passed on; the
first argument bounds the recursion depth. -/
def buildTree (sort : (Event α → Event α → Bool) → List (Event α) → List (Event α))
    (maxTime : Int) :
    Nat → List (Event α) → Int → Int → Int → Except Err (KDNode α × List (Event α))
  | 0, _, _, _, _ => .error .outOfFuel
  | fuel + 1, points, start, end_, depth =>
    if start > end_ then .ok (.null, points)
    else if start < 0 ∨ (points.length : Int) ≤ end_ then .error .outOfRange
    else
      let splitByX : Bool := decide (Int.tmod depth 2 = 0)
      let points :=
        if splitByX then
          sortRange sort (fun a b => decide (a.x < b.x)) points start.toNat (end_ + 1).toNat
        else
          sortRange sort (fun a b => decide (a.y < b.y)) points start.toNat (end_ + 1).toNat
      let mid := start + Int.tdiv (end_ - start) 2
      match points[mid.toNat]? with
      | none => .error .outOfRange
      | some p =>
        match KDNode.ctor p.x p.y splitByX maxTime with
        | .error e => .error e
        | .ok node =>
          match buildTree sort maxTime fuel points start (mid - 1) (depth + 1) with
          | .error e => .error e
          | .ok (left, points) =>
            match buildTree sort maxTime fuel points (mid + 1) end_ (depth + 1) with
            | .error e => .error e
            | .ok (right, points) =>
              .ok ((((node.setLeft left).setRight right).includeChild left).includeChild right,
                points)

/-- Method `insertEvent(node, e)`. -/
def insertEvent : KDNode α → Event α → KDNode α
  | .null, _ => .null
  | .node x y minX maxX minY maxY s l r fw, e =>
    let fw := fw.add e.time e.weight
    if s then
      if e.x ≤ x then
        (KDNode.node x y minX maxX minY maxY s (insertEvent l e) r fw).updateBounds e.x e.y
      else
        (KDNode.node x y minX maxX minY maxY s l (insertEvent r e) fw).updateBounds e.x e.y
    else
      if e.y ≤ y then
        (KDNode.node x y minX maxX minY maxY s (insertEvent l e) r fw).updateBounds e.x e.y
      else
        (KDNode.node x y minX maxX minY maxY s l (insertEvent r e) fw).updateBounds e.x e.y

/-- Method `queryRange(node, x1, y1, x2, y2, t1, t2)`; every `result += ...` is on
the `int` variable `result`. -/
def queryRange : KDNode α → α → α → α → α → Int → Int → Int
  | .null, _, _, _, _, _, _ => 0
  | .node x y minX maxX minY maxY s l r fw, x1, y1, x2, y2, t1, t2 =>
    if !(KDNode.node x y minX maxX minY maxY s l r fw).intersects x1 y1 x2 y2 then 0
    else if (KDNode.node x y minX maxX minY maxY s l r fw).isInside x1 y1 x2 y2 then
      fw.range_sum t1 t2
    else
      let result : Int := 0
      let result :=
        if x ≥ x1 ∧ x ≤ x2 ∧ y ≥ y1 ∧ y ≤ y2 then wrapInt (result + fw.range_sum t1 t2)
        else result
      let result := wrapInt (result + queryRange l x1 y1 x2 y2 t1 t2)
      let result := wrapInt (result + queryRange r x1 y1 x2 y2 t1 t2)
      result

/-- Method `build(events)`: `if (events.empty()) return;` and then
`root = buildTree(events, 0, events.size() - 1, 0)`.  Returns the index together
with the caller's vector, which `buildTree` has reordered.  When `buildTree`
throws, the assignment to `root` does not happen and the exception reaches the
caller.  The recursion depth never exceeds the number of events. -/
def build (sort : (Event α → Event α → Bool) → List (Event α) → List (Event α))
    (t : KDTree α) (events : List (Event α)) : Except Err (KDTree α × List (Event α)) :=
  if events.isEmpty then .ok (t, events)
  else
    match buildTree sort t.maxTime (events.length + 1) events 0 ((events.length : Int) - 1) 0 with
    | .error e => .error e
    | .ok (root, events) => .ok (⟨root, t.maxTime⟩, events)

/-- Method `insert(e)`. -/
def insert (t : KDTree α) (e : Event α) : KDTree α :=
  ⟨insertEvent t.root e, t.maxTime⟩

/-- Method `query(x1, y1, x2, y2, t1, t2)`. -/
def query (t : KDTree α) (x1 y1 x2 y2 : α) (t1 t2 : Int) : Int :=
  let (x1, x2) := if x1 > x2 then (x2, x1) else (x1, x2)
  let (y1, y2) := if y1 > y2 then (y2, y1) else (y1, y2)
  let (t1, t2) := if t1 > t2 then (t2, t1) else (t1, t2)
  queryRange t.root x1 y1 x2 y2 t1 t2

/-- Method `empty()`. -/
def empty (t : KDTree α) : Bool :=
  match t.root with
  | .null => true
  | .node _ _ _ _ _ _ _ _ _ _ => false

/-- A sequence of `insert` calls, applied from left to right. -/
def insertAll (t : KDTree α) (events : List (Event α)) : KDTree α :=
  events.foldl insert t

end KDTree

/-- Sum of the weights of the events that satisfy `p`. -/
def weightTotal {α : Type} (p : Event α → Bool) (events : List (Event α)) : Int :=
  ((events.filter p).map Event.weight).sum

/-- Counter `i` of a Fenwick tree accumulates the indices of the block
`(i - lowbit i, i]`. -/
def covers (i j : Int) : Bool := decide (i - lowbit i < j ∧ j ≤ i)

/-- Representation invariant: the vector has `n + 1` entries and counter `i`
holds the `int` value of the total of the calls that fall into its block. -/
def Fenwick.Represents (f : Fenwick) (calls : List (Int × Int)) : Prop :=
  f.bit.length = (f.n + 1).toNat ∧
    ∀ i : Int, 1 ≤ i → i ≤ f.n →
      f.bit.getD i.toNat 0 = wrapInt (callTotal (covers i) calls)

namespace KDNode

variable {α : Type} [LinearOrder α]

/-- The property `P` holds at every node of the subtree. -/
def All (P : KDNode α → Prop) : KDNode α → Prop
  | .null => True
  | .node x y minX maxX minY maxY s l r fw =>
    P (.node x y minX maxX minY maxY s l r fw) ∧ All P l ∧ All P r

/-- The node's Fenwick tree is in the state left by `init(maxTime)`. -/
def FreshFenwick (maxTime : Int) : KDNode α → Prop
  | .null => True
  | .node _ _ _ _ _ _ _ _ _ fw => fw = ⟨maxTime, List.replicate (maxTime + 1).toNat 0⟩

end KDNode

namespace KDTree

variable {α : Type} [LinearOrder α]

/-- The vector `points` after the `std::sort` call of one level of `buildTree`. -/
def sortedPoints (sort : (Event α → Event α → Bool) → List (Event α) → List (Event α))
    (points : List (Event α)) (start end_ depth : Int) : List (Event α) :=
  if decide (Int.tmod depth 2 = 0) = true then
    sortRange sort (fun a b => decide (a.x < b.x)) points start.toNat (end_ + 1).toNat
  else
    sortRange sort (fun a b => decide (a.y < b.y)) points start.toNat (end_ + 1).toNat

/-- The median index `mid = start + (end - start) / 2` of `buildTree`. -/
def midIndex (start end_ : Int) : Int := start + Int.tdiv (end_ - start) 2

end KDTree

/-- The shape of a tree: its nodes with their points, split axes and child
structure, without bounding boxes and temporal counters. -/
inductive Shape (α : Type) where
  | null : Shape α
  | node (x y : α) (splitByX : Bool) (left right : Shape α) : Shape α

namespace KDNode

variable {α : Type} [LinearOrder α]

/-- The test `node == nullptr`. -/
def isNull : KDNode α → Bool
  | .null => true
  | .node _ _ _ _ _ _ _ _ _ _ => false

/-- The child pointer of a node: `left` for `false`, `right` for `true`. -/
def child : KDNode α → Bool → KDNode α
  | .null, _ => .null
  | .node _ _ _ _ _ _ _ l r _, d => if d then r else l

/-- The subtree reached from `t` along the child pointers `p`; a node of the tree
is addressed by the path `p` that leads to it from the root. -/
def subtree (t : KDNode α) (p : List Bool) : KDNode α := p.foldl child t

/-- The branch `insertEvent` takes at a node: `true` when it recurses into
`right`, that is when the event's coordinate on the split axis is not `<=` the
node's own. -/
def goesRight : KDNode α → Event α → Bool
  | .null, _ => false
  | .node x y _ _ _ _ s _ _ _, e => if s then !decide (e.x ≤ x) else !decide (e.y ≤ y)

/-- The descent of `insertEvent(t, e)` reaches the node at path `p`: the tree is
not empty, every step of `p` is the branch taken, and the node exists. -/
def visits (e : Event α) : KDNode α → List Bool → Bool
  | t, [] => !t.isNull
  | t, d :: p => !t.isNull && (goesRight t e == d) && visits e (child t d) p

/-- The bounding box `(minX, maxX, minY, maxY)` of a node. -/
def boxOf : KDNode α → Option (α × α × α × α)
  | .null => none
  | .node _ _ minX maxX minY maxY _ _ _ _ => some (minX, maxX, minY, maxY)

/-- The point `(x, y)` of a node. -/
def pointOf : KDNode α → Option (α × α)
  | .null => none
  | .node x y _ _ _ _ _ _ _ _ => some (x, y)

/-- The field `splitByX` of a node. -/
def axisOf : KDNode α → Option Bool
  | .null => none
  | .node _ _ _ _ _ _ s _ _ _ => some s

/-- The field `fenwick` of a node. -/
def fenwickOf : KDNode α → Option Fenwick
  | .null => none
  | .node _ _ _ _ _ _ _ _ _ fw => some fw

/-- The shape of a tree. -/
def shape : KDNode α → Shape α
  | .null => .null
  | .node x y _ _ _ _ s l r _ => .node x y s (shape l) (shape r)

/-- Number of nodes. -/
def size : KDNode α → Nat
  | .null => 0
  | .node _ _ _ _ _ _ _ l r _ => size l + 1 + size r

/-- Number of nodes on the longest path from the root to a leaf. -/
def height : KDNode α → Nat
  | .null => 0
  | .node _ _ _ _ _ _ _ l r _ => max (height l) (height r) + 1

/-- The points of all nodes of the subtree. -/
def points : KDNode α → List (α × α)
  | .null => []
  | .node x y _ _ _ _ _ l r _ => (x, y) :: (points l ++ points r)

/-- The least rectangle containing the box `b` and the box `c` of a present
child (`none` for an absent child): per-axis min and max. -/
def unionBox (b : α × α × α × α) : Option (α × α × α × α) → α × α × α × α
  | none => b
  | some c => (min b.1 c.1, max b.2.1 c.2.1, min b.2.2.1 c.2.2.1, max b.2.2.2 c.2.2.2)

/-- The rectangle `outer` contains the rectangle `inner`. -/
def BoxContains (outer inner : α × α × α × α) : Prop :=
  outer.1 ≤ inner.1 ∧ inner.2.1 ≤ outer.2.1 ∧ outer.2.2.1 ≤ inner.2.2.1 ∧
    inner.2.2.2 ≤ outer.2.2.2

/-- The box of a node is exactly the least rectangle that contains the node's
own point and the boxes of its present children. -/
def TightBox : KDNode α → Prop
  | .null => True
  | .node x y minX maxX minY maxY _ l r _ =>
    (minX, maxX, minY, maxY) = unionBox (unionBox (x, x, y, y) (boxOf l)) (boxOf r)

/-- The box of a node contains the node's own point and the boxes of both
children. -/
def NestedBox : KDNode α → Prop
  | .null => True
  | .node x y minX maxX minY maxY _ l r _ =>
    (minX ≤ x ∧ x ≤ maxX ∧ minY ≤ y ∧ y ≤ maxY) ∧
    (∀ b, boxOf l = some b → BoxContains (minX, maxX, minY, maxY) b) ∧
    (∀ b, boxOf r = some b → BoxContains (minX, maxX, minY, maxY) b)

/-- The box of a leaf is the zero-size box at the leaf's own point. -/
def LeafBox : KDNode α → Prop
  | .node x y minX maxX minY maxY _ .null .null _ =>
    minX = x ∧ maxX = x ∧ minY = y ∧ maxY = y
  | _ => True

/-- The rectangle `b` is the axis-aligned min/max over the points of `l`: every
point lies inside, and each side is the coordinate of some point. -/
def IsBoxOf (b : α × α × α × α) (l : List (Event α)) : Prop :=
  (∀ p ∈ l, b.1 ≤ p.x ∧ p.x ≤ b.2.1 ∧ b.2.2.1 ≤ p.y ∧ p.y ≤ b.2.2.2) ∧
    (∃ p ∈ l, p.x = b.1) ∧ (∃ p ∈ l, p.x = b.2.1) ∧
    (∃ p ∈ l, p.y = b.2.2.1) ∧ (∃ p ∈ l, p.y = b.2.2.2)

/-- The subtree is empty for an empty `l`, and otherwise the box of its root is
the axis-aligned min/max over the points of `l`. -/
def BoxOfPoints (l : List (Event α)) : KDNode α → Prop
  | .null => l = []
  | .node _ _ minX maxX minY maxY _ _ _ _ => IsBoxOf (minX, maxX, minY, maxY) l

/-- The median split of a node: of the `m` nodes of its subtree, `(m - 1) / 2`
are in the left and the remaining `m / 2` in the right subtree. -/
def MedianSplit : KDNode α → Prop
  | .null => True
  | .node _ _ _ _ _ _ _ l r _ =>
    size l = (size l + 1 + size r - 1) / 2 ∧ size r = (size l + 1 + size r) / 2

/-- Partition order at a node: on the node's split axis no point of the left
subtree exceeds the node's coordinate and no point of the right subtree is
below it. -/
def Partitioned : KDNode α → Prop
  | .null => True
  | .node x y _ _ _ _ s l r _ =>
    if s = true then (∀ q ∈ points l, q.1 ≤ x) ∧ (∀ q ∈ points r, x ≤ q.1)
    else (∀ q ∈ points l, q.2 ≤ y) ∧ (∀ q ∈ points r, y ≤ q.2)

/-- The box `b` after the block `if (child) { updateBounds(child->minX,
child->minY); updateBounds(child->maxX, child->maxY); }` for a child with box `c`
(`none` for an absent child). -/
def joinBox (b : α × α × α × α) : Option (α × α × α × α) → α × α × α × α
  | none => b
  | some c =>
    (min (min b.1 c.1) c.2.1, max (max b.2.1 c.1) c.2.1,
      min (min b.2.2.1 c.2.2.1) c.2.2.2, max (max b.2.2.2 c.2.2.1) c.2.2.2)

/-- The split axis alternates with depth below a node at depth `d`: a node
splits on X exactly when its depth is even. -/
def AxisAlternates : Nat → KDNode α → Prop
  | _, .null => True
  | d, .node _ _ _ _ _ _ s l r _ =>
    (s = true ↔ d % 2 = 0) ∧ AxisAlternates (d + 1) l ∧ AxisAlternates (d + 1) r

end KDNode

namespace KDTree

variable {α : Type} [LinearOrder α]

/-- The sub-range `l` of the vector after the `std::sort` call that a level of
`buildTree` at depth `depth` applies to it. -/
def sortedSlice (sort : (Event α → Event α → Bool) → List (Event α) → List (Event α))
    (l : List (Event α)) (depth : Int) : List (Event α) :=
  if decide (Int.tmod depth 2 = 0) = true then sort (fun a b => decide (a.x < b.x)) l
  else sort (fun a b => decide (a.y < b.y)) l

end KDTree

namespace Fenwick

/-- The positions of `bit` that the loop of `add` accesses, in the order of the
accesses: every iteration executes `bit[idx] += val` once, at the current `idx`. -/
def addTrace : Nat → Int → Int → List Int
  | 0, _, _ => []
  | fuel + 1, n, idx =>
    if idx ≤ n then idx :: addTrace fuel n (idx + lowbit idx)
    else []

/-- The positions of `bit` that a call `add(idx, val)` accesses: none when the
bounds check returns, else those of the loop. -/
def addAccesses (f : Fenwick) (idx : Int) : List Int :=
  if idx ≤ 0 ∨ idx > f.n then []
  else addTrace f.n.toNat f.n idx

/-- The positions of `bit` that the loop of `sum` accesses, in the order of the
accesses: every iteration executes `result += bit[idx]` once, at the current
`idx`. -/
def sumTrace : Nat → Int → List Int
  | 0, _ => []
  | fuel + 1, idx =>
    if idx > 0 then idx :: sumTrace fuel (idx - lowbit idx)
    else []

/-- The positions of `bit` that a call `sum(idx)` accesses: none when `idx <= 0`,
else those of the loop started at the clamped `idx`. -/
def sumAccesses (f : Fenwick) (idx : Int) : List Int :=
  if idx ≤ 0 then []
  else
    let idx := if idx > f.n then f.n else idx
    sumTrace idx.toNat idx

/-- One step of the loop variable of `add`: `idx += idx & -idx`, to a larger
value. -/
def AddStep (a b : Int) : Prop := b = a + lowbit a ∧ a < b

/-- One step of the loop variable of `sum`: `idx -= idx & -idx`, to a smaller
value. -/
def SumStep (a b : Int) : Prop := b = a - lowbit a ∧ b < a

end Fenwick

/-! # Proofs -/

/-! ## Arithmetic of `idx & -idx` -/

theorem ldiff_self (j : Nat) : Nat.ldiff j j = 0 := by
  apply Nat.eq_of_testBit_eq
  intro i
  simp [Nat.testBit_ldiff]

theorem lowbit_succ (m : Nat) : lowbit ((m : Int) + 1) = (Nat.ldiff (m + 1) m : Nat) := by
  have h : -((m : Int) + 1) = Int.negSucc m := by
    rw [Int.negSucc_eq]
  unfold lowbit
  rw [h]
  rfl

theorem lowbit_odd_nat (j : Nat) : lowbit (2 * (j : Int) + 1) = 1 := by
  have h := lowbit_succ (2 * j)
  have e : Nat.ldiff (2 * j + 1) (2 * j) = 1 := by
    have h1 : 2 * j + 1 = Nat.bit true j := by simp [Nat.bit_val]
    have h2 : 2 * j = Nat.bit false j := by simp [Nat.bit_val]
    rw [h1, h2, Nat.ldiff_bit, ldiff_self]
    simp [Nat.bit_val]
  rw [e] at h
  simpa using h

theorem lowbit_even_nat (m : Nat) : lowbit (2 * ((m : Int) + 1)) = 2 * lowbit ((m : Int) + 1) := by
  have h := lowbit_succ (2 * m + 1)
  have h' := lowbit_succ m
  have e : Nat.ldiff (2 * m + 1 + 1) (2 * m + 1) = 2 * Nat.ldiff (m + 1) m := by
    have h1 : 2 * m + 1 + 1 = Nat.bit false (m + 1) := by simp [Nat.bit_val]; ring
    have h2 : 2 * m + 1 = Nat.bit true m := by simp [Nat.bit_val]
    rw [h1, h2, Nat.ldiff_bit]
    simp [Nat.bit_val]
  rw [e] at h
  push_cast at h h'
  have e2 : 2 * ((m : Int) + 1) = 2 * (m : Int) + 1 + 1 := by ring
  rw [e2, h, h']

theorem lowbit_odd (j : Int) (hj : 0 ≤ j) : lowbit (2 * j + 1) = 1 := by
  obtain ⟨m, rfl⟩ := Int.eq_ofNat_of_zero_le hj
  exact lowbit_odd_nat m

theorem lowbit_even (j : Int) (hj : 0 < j) : lowbit (2 * j) = 2 * lowbit j := by
  obtain ⟨m, hm⟩ := Int.eq_ofNat_of_zero_le (show 0 ≤ j - 1 by omega)
  have e : j = (m : Int) + 1 := by omega
  rw [e]
  exact lowbit_even_nat m

theorem lowbit_bounds_aux (n : Nat) : ∀ k : Int, 0 < k → k ≤ n → 0 < lowbit k ∧ lowbit k ≤ k := by
  induction n with
  | zero => intro k h1 h2; omega
  | succ n ih =>
    intro k h1 h2
    rcases Int.emod_two_eq_zero_or_one k with h | h
    · have e : k = 2 * (k / 2) := by omega
      have hj : 0 < k / 2 := by omega
      have := ih (k / 2) hj (by omega)
      rw [e, lowbit_even _ hj]
      omega
    · have e : k = 2 * (k / 2) + 1 := by omega
      rw [e, lowbit_odd _ (by omega)]
      omega

theorem lowbit_pos (k : Int) (h : 0 < k) : 0 < lowbit k :=
  (lowbit_bounds_aux k.toNat k h (by omega)).1

theorem lowbit_le (k : Int) (h : 0 < k) : lowbit k ≤ k :=
  (lowbit_bounds_aux k.toNat k h (by omega)).2

theorem lowbit_next_aux (n : Nat) :
    ∀ k : Int, 0 < k → k ≤ n → 2 * lowbit k ≤ lowbit (k + lowbit k) := by
  induction n with
  | zero => intro k h1 h2; omega
  | succ n ih =>
    intro k h1 h2
    rcases Int.emod_two_eq_zero_or_one k with h | h
    · have e : k = 2 * (k / 2) := by omega
      have hj : 0 < k / 2 := by omega
      have h3 := ih (k / 2) hj (by omega)
      have h4 := lowbit_pos (k / 2) hj
      have h5 : lowbit k = 2 * lowbit (k / 2) := by
        conv_lhs => rw [e]
        exact lowbit_even _ hj
      have h6 : k + lowbit k = 2 * (k / 2 + lowbit (k / 2)) := by omega
      rw [h6, lowbit_even _ (by omega)]
      omega
    · have e : k = 2 * (k / 2) + 1 := by omega
      have h5 : lowbit k = 1 := by
        conv_lhs => rw [e]
        exact lowbit_odd _ (by omega)
      have h6 : k + lowbit k = 2 * (k / 2 + 1) := by omega
      have h4 := lowbit_pos (k / 2 + 1) (by omega)
      rw [h6, lowbit_even _ (by omega), h5]
      omega

/-- The successor in the update chain covers a block at least twice as long. -/
theorem lowbit_next (k : Int) (h : 0 < k) : 2 * lowbit k ≤ lowbit (k + lowbit k) :=
  lowbit_next_aux k.toNat k h (by omega)

theorem lowbit_between_aux (n : Nat) :
    ∀ k : Int, 0 < k → k ≤ n → ∀ r : Int, 0 < r → r < lowbit k → lowbit (k + r) ≤ r := by
  induction n with
  | zero => intro k h1 h2; omega
  | succ n ih =>
    intro k h1 h2 r hr1 hr2
    rcases Int.emod_two_eq_zero_or_one k with h | h
    · have e : k = 2 * (k / 2) := by omega
      have hj : 0 < k / 2 := by omega
      have h5 : lowbit k = 2 * lowbit (k / 2) := by
        conv_lhs => rw [e]
        exact lowbit_even _ hj
      rcases Int.emod_two_eq_zero_or_one r with hr | hr
      · have h3 := ih (k / 2) hj (by omega) (r / 2) (by omega) (by omega)
        have h6 : k + r = 2 * (k / 2 + r / 2) := by omega
        rw [h6, lowbit_even _ (by omega)]
        omega
      · have h6 : k + r = 2 * (k / 2 + r / 2) + 1 := by omega
        rw [h6, lowbit_odd _ (by omega)]
        omega
    · have e : k = 2 * (k / 2) + 1 := by omega
      have h5 : lowbit k = 1 := by
        conv_lhs => rw [e]
        exact lowbit_odd _ (by omega)
      omega

/-- Strictly between `k` and its chain successor every index has a block that
starts at or after `k`. -/
theorem lowbit_between (k r : Int) (h : 0 < k) (hr1 : 0 < r) (hr2 : r < lowbit k) :
    lowbit (k + r) ≤ r :=
  lowbit_between_aux k.toNat k h (by omega) r hr1 hr2

/-! ## Arithmetic of the type `int` -/

theorem wrapInt_of_inInt (x : Int) (h : InInt x) : wrapInt x = x := by
  obtain ⟨h1, h2⟩ := h
  unfold wrapInt
  omega

theorem inInt_wrapInt (x : Int) : InInt (wrapInt x) := by
  unfold InInt wrapInt
  omega

theorem wrapInt_zero : wrapInt 0 = 0 := by decide

theorem wrapInt_wrapInt (x : Int) : wrapInt (wrapInt x) = wrapInt x :=
  wrapInt_of_inInt _ (inInt_wrapInt x)

theorem wrapInt_add_left (a b : Int) : wrapInt (wrapInt a + b) = wrapInt (a + b) := by
  unfold wrapInt
  omega

theorem wrapInt_add_right (a b : Int) : wrapInt (a + wrapInt b) = wrapInt (a + b) := by
  unfold wrapInt
  omega

theorem wrapInt_sub (a b : Int) : wrapInt (wrapInt a - wrapInt b) = wrapInt (a - b) := by
  unfold wrapInt
  omega

/-! ## Totals over call lists -/

theorem callTotal_nil (p : Int → Bool) : callTotal p [] = 0 := rfl

theorem callTotal_cons (p : Int → Bool) (c : Int × Int) (cs : List (Int × Int)) :
    callTotal p (c :: cs) = (if p c.1 then c.2 else 0) + callTotal p cs := by
  unfold callTotal
  by_cases h : p c.1 <;> simp [List.filter_cons, h]

theorem callTotal_append (p : Int → Bool) (as bs : List (Int × Int)) :
    callTotal p (as ++ bs) = callTotal p as + callTotal p bs := by
  unfold callTotal
  simp [List.filter_append]

theorem callTotal_congr (p q : Int → Bool) (h : ∀ j, p j = q j) (cs : List (Int × Int)) :
    callTotal p cs = callTotal q cs := by
  have : p = q := funext h
  rw [this]

theorem callTotal_false (p : Int → Bool) (h : ∀ j, p j = false) (cs : List (Int × Int)) :
    callTotal p cs = 0 := by
  induction cs with
  | nil => rfl
  | cons c cs ih => rw [callTotal_cons, ih, h]; simp

theorem callTotal_split (p q r : Int → Bool) (hr : ∀ j, r j = (p j || q j))
    (hd : ∀ j, p j = true → q j = true → False) (cs : List (Int × Int)) :
    callTotal r cs = callTotal p cs + callTotal q cs := by
  induction cs with
  | nil => rfl
  | cons c cs ih =>
    rw [callTotal_cons, callTotal_cons, callTotal_cons, ih, hr]
    have := hd c.1
    cases hp : p c.1 <;> cases hq : q c.1 <;> simp_all <;> omega

/-! ## The counter vector -/

theorem length_bump (bit : List Int) (c v : Int) :
    (Fenwick.bump bit c v).length = bit.length := by
  simp [Fenwick.bump]

theorem getD_bump (bit : List Int) (c v i : Int) (hc : 0 ≤ c) (hlen : c.toNat < bit.length)
    (hi : 0 ≤ i) :
    (Fenwick.bump bit c v).getD i.toNat 0 =
      if i = c then wrapInt (bit.getD i.toNat 0 + v) else bit.getD i.toNat 0 := by
  unfold Fenwick.bump
  by_cases h : i = c
  · subst h
    simp [List.getD_eq_getElem?_getD, List.getElem?_set, hlen]
  · have h2 : c.toNat ≠ i.toNat := by omega
    simp [List.getD_eq_getElem?_getD, List.getElem?_set, h, h2]

/-! ## The two loops of the Fenwick tree -/

theorem covers_iff (i j : Int) : covers i j = true ↔ i - lowbit i < j ∧ j ≤ i := by
  simp [covers]

theorem covers_self (i : Int) (h : 0 < i) : covers i i = true := by
  have := lowbit_pos i h
  rw [covers_iff]; omega

theorem covers_next (cur idx0 : Int) (h : 0 < cur) (hc : covers cur idx0 = true) :
    covers (cur + lowbit cur) idx0 = true := by
  have h1 := lowbit_pos cur h
  have h2 := lowbit_next cur h
  rw [covers_iff] at hc ⊢
  omega

theorem covers_between (cur idx0 i : Int) (h : 0 < cur) (h0 : idx0 ≤ cur) (h1 : cur < i)
    (h2 : i < cur + lowbit cur) : covers i idx0 = false := by
  have h3 := lowbit_between cur (i - cur) h (by omega) (by omega)
  have e : cur + (i - cur) = i := by omega
  rw [e] at h3
  rw [Bool.eq_false_iff, Ne, covers_iff]
  omega

theorem covers_outside (n i idx : Int) (h1 : 1 ≤ i) (h2 : i ≤ n) (h : idx ≤ 0 ∨ idx > n) :
    covers i idx = false := by
  have h3 := lowbit_le i (by omega)
  rw [Bool.eq_false_iff, Ne, covers_iff]
  omega

theorem addLoop_spec (n idx0 val : Int) (h0 : 0 < idx0) :
    ∀ (fuel : Nat) (bit : List Int) (cur : Int),
      bit.length = (n + 1).toNat → idx0 ≤ cur → covers cur idx0 = true →
      (n + 1 - cur).toNat ≤ fuel →
      n < (Fenwick.addLoop fuel n bit cur val).2 ∧
      (Fenwick.addLoop fuel n bit cur val).1.length = bit.length ∧
      ∀ i : Int, 1 ≤ i → i ≤ n →
        (Fenwick.addLoop fuel n bit cur val).1.getD i.toNat 0 =
          if cur ≤ i ∧ covers i idx0 = true then wrapInt (bit.getD i.toNat 0 + val)
          else bit.getD i.toNat 0 := by
  intro fuel
  induction fuel with
  | zero =>
    intro bit cur hlen hle hcov hfuel
    have hn : n < cur := by omega
    refine ⟨hn, rfl, ?_⟩
    intro i h1 h2
    have : ¬ (cur ≤ i ∧ covers i idx0 = true) := by intro h; omega
    simp [Fenwick.addLoop, this]
  | succ fuel ih =>
    intro bit cur hlen hle hcov hfuel
    have hpos := lowbit_pos cur (by omega)
    by_cases hc : cur ≤ n
    · have hstep : Fenwick.addLoop (fuel + 1) n bit cur val =
          Fenwick.addLoop fuel n (Fenwick.bump bit cur val) (cur + lowbit cur) val := by
        simp [Fenwick.addLoop, hc]
      rw [hstep]
      obtain ⟨g1, g2, g3⟩ := ih (Fenwick.bump bit cur val) (cur + lowbit cur)
        (by rw [length_bump]; exact hlen) (by omega)
        (covers_next cur idx0 (by omega) hcov) (by omega)
      refine ⟨g1, by rw [g2, length_bump], ?_⟩
      intro i h1 h2
      rw [g3 i h1 h2, getD_bump bit cur val i (by omega) (by omega) (by omega)]
      by_cases e : i = cur
      · subst e
        have : ¬ (i + lowbit i ≤ i ∧ covers i idx0 = true) := by intro h; omega
        rw [if_pos rfl, if_neg this, if_pos ⟨le_refl i, hcov⟩]
      · by_cases hlt : cur + lowbit cur ≤ i
        · have hci : cur ≤ i := by omega
          simp [e, hlt, hci]
        · by_cases hlt2 : cur < i
          · have := covers_between cur idx0 i (by omega) hle hlt2 (by omega)
            simp [e, this]
          · have hci : ¬ cur ≤ i := by omega
            simp [e, hlt, hci]
    · have hstep : Fenwick.addLoop (fuel + 1) n bit cur val = (bit, cur) := by
        simp [Fenwick.addLoop, hc]
      rw [hstep]
      refine ⟨by simpa using hc, rfl, ?_⟩
      intro i h1 h2
      have : ¬ (cur ≤ i ∧ covers i idx0 = true) := by intro h; omega
      simp [this]

theorem sumLoop_spec (bit : List Int) (calls : List (Int × Int)) (n : Int)
    (hrep : ∀ i : Int, 1 ≤ i → i ≤ n →
      bit.getD i.toNat 0 = wrapInt (callTotal (covers i) calls)) :
    ∀ (fuel : Nat) (k acc : Int), 0 ≤ k → k ≤ n → k.toNat ≤ fuel → wrapInt acc = acc →
      Fenwick.sumLoop fuel bit k acc =
        (wrapInt (acc + callTotal (fun j => decide (0 < j ∧ j ≤ k)) calls), 0) := by
  intro fuel
  induction fuel with
  | zero =>
    intro k acc h1 h2 h3 hacc
    have hk : k = 0 := by omega
    subst hk
    have : callTotal (fun j => decide (0 < j ∧ j ≤ 0)) calls = 0 := by
      apply callTotal_false
      intro j
      simp
    rw [this, add_zero, hacc]
    simp [Fenwick.sumLoop]
  | succ fuel ih =>
    intro k acc h1 h2 h3 hacc
    by_cases hk : 0 < k
    · have hpos := lowbit_pos k hk
      have hle := lowbit_le k hk
      have hstep : Fenwick.sumLoop (fuel + 1) bit k acc =
          Fenwick.sumLoop fuel bit (k - lowbit k) (wrapInt (acc + bit.getD k.toNat 0)) := by
        simp [Fenwick.sumLoop, hk]
      rw [hstep, ih (k - lowbit k) _ (by omega) (by omega) (by omega) (wrapInt_wrapInt _),
        hrep k (by omega) h2]
      have hs := callTotal_split (covers k) (fun j => decide (0 < j ∧ j ≤ k - lowbit k))
        (fun j => decide (0 < j ∧ j ≤ k))
        (by
          intro j
          rw [Bool.eq_iff_iff]
          simp [covers]
          omega)
        (by
          intro j hp hq
          rw [covers_iff] at hp
          simp at hq
          omega) calls
      rw [hs, wrapInt_add_left]
      congr 1
      unfold wrapInt
      omega
    · have hk0 : k = 0 := by omega
      subst hk0
      have : callTotal (fun j => decide (0 < j ∧ j ≤ 0)) calls = 0 := by
        apply callTotal_false
        intro j
        simp
      rw [this, add_zero, hacc]
      simp [Fenwick.sumLoop]

/-! ## The representation invariant of the Fenwick tree -/

theorem init_ok (self : Fenwick) (n : Int) (hn : -1 ≤ n) :
    self.init n = .ok ⟨n, List.replicate (n + 1).toNat 0⟩ := by
  have : ¬ (n + 1 < 0) := by omega
  simp [Fenwick.init, this]

theorem init_error (self : Fenwick) (n : Int) (hn : n < -1) :
    self.init n = .error .lengthError := by
  have : n + 1 < 0 := by omega
  simp [Fenwick.init, this]

theorem represents_fresh (n : Int) :
    Fenwick.Represents ⟨n, List.replicate (n + 1).toNat 0⟩ [] := by
  refine ⟨by simp, ?_⟩
  intro i h1 h2
  rw [callTotal_nil, wrapInt_zero, List.getD_eq_getElem?_getD, List.getElem?_replicate]
  split <;> rfl

theorem add_n (f : Fenwick) (idx val : Int) : (f.add idx val).n = f.n := by
  unfold Fenwick.add
  split <;> rfl

theorem add_out_of_range (f : Fenwick) (idx val : Int) (h : idx ≤ 0 ∨ idx > f.n) :
    f.add idx val = f := by
  simp [Fenwick.add, h]

theorem represents_add (f : Fenwick) (calls : List (Int × Int)) (idx val : Int)
    (h : f.Represents calls) : (f.add idx val).Represents (calls ++ [(idx, val)]) := by
  obtain ⟨hlen, hbit⟩ := h
  by_cases hg : idx ≤ 0 ∨ idx > f.n
  · rw [add_out_of_range f idx val hg]
    refine ⟨hlen, ?_⟩
    intro i h1 h2
    rw [callTotal_append, callTotal_cons, callTotal_nil, hbit i h1 h2]
    simp [covers_outside f.n i idx h1 h2 hg]
  · have hidx : 0 < idx ∧ idx ≤ f.n := by omega
    obtain ⟨_, g2, g3⟩ := addLoop_spec f.n idx val hidx.1 f.n.toNat f.bit idx hlen (le_refl idx)
      (covers_self idx hidx.1) (by omega)
    have hadd : f.add idx val = ⟨f.n, (Fenwick.addLoop f.n.toNat f.n f.bit idx val).1⟩ := by
      simp [Fenwick.add, hg]
    rw [hadd]
    refine ⟨by simpa [hlen] using g2, ?_⟩
    intro i h1 h2
    show (Fenwick.addLoop f.n.toNat f.n f.bit idx val).1.getD i.toNat 0 = _
    rw [g3 i h1 h2, callTotal_append, callTotal_cons, callTotal_nil, hbit i h1 h2]
    by_cases hc : covers i idx = true
    · have hle : idx ≤ i := by rw [covers_iff] at hc; omega
      rw [if_pos ⟨hle, hc⟩, wrapInt_add_left]
      simp [hc]
    · have hn : ¬ (idx ≤ i ∧ covers i idx = true) := fun h => hc h.2
      rw [if_neg hn]
      simp [hc]

theorem addAll_n (f : Fenwick) (cs : List (Int × Int)) : (f.addAll cs).n = f.n := by
  induction cs generalizing f with
  | nil => rfl
  | cons c cs ih =>
    show ((f.add c.1 c.2).addAll cs).n = f.n
    rw [ih, add_n]

theorem represents_addAll (f : Fenwick) (cs0 cs : List (Int × Int)) (h : f.Represents cs0) :
    (f.addAll cs).Represents (cs0 ++ cs) := by
  induction cs generalizing f cs0 with
  | nil => simpa [Fenwick.addAll] using h
  | cons c cs ih =>
    show ((f.add c.1 c.2).addAll cs).Represents (cs0 ++ c :: cs)
    have := ih (f.add c.1 c.2) (cs0 ++ [c]) (represents_add f cs0 c.1 c.2 h)
    simpa using this

theorem sum_spec (f : Fenwick) (calls : List (Int × Int)) (h : f.Represents calls) (k : Int) :
    f.sum k = wrapInt (callTotal (fun j => decide (1 ≤ j ∧ j ≤ f.n ∧ j ≤ k)) calls) := by
  obtain ⟨_, hbit⟩ := h
  unfold Fenwick.sum
  by_cases hk : k ≤ 0
  · rw [if_pos hk]
    have hz : callTotal (fun j => decide (1 ≤ j ∧ j ≤ f.n ∧ j ≤ k)) calls = 0 := by
      apply callTotal_false
      intro j
      rw [decide_eq_false_iff_not]
      omega
    rw [hz, wrapInt_zero]
  · rw [if_neg hk]
    by_cases hn : 0 ≤ f.n
    · by_cases hkn : k > f.n
      · simp only [if_pos hkn]
        rw [sumLoop_spec f.bit calls f.n hbit f.n.toNat f.n 0 hn (le_refl _) (le_refl _)
          wrapInt_zero]
        simp only [zero_add]
        congr 1
        apply callTotal_congr
        intro j
        rw [Bool.eq_iff_iff, decide_eq_true_iff, decide_eq_true_iff]
        omega
      · simp only [if_neg hkn]
        rw [sumLoop_spec f.bit calls f.n hbit k.toNat k 0 (by omega) (by omega) (le_refl _)
          wrapInt_zero]
        simp only [zero_add]
        congr 1
        apply callTotal_congr
        intro j
        rw [Bool.eq_iff_iff, decide_eq_true_iff, decide_eq_true_iff]
        omega
    · have hkn : k > f.n := by omega
      have hz : f.n.toNat = 0 := by omega
      simp only [if_pos hkn, hz, Fenwick.sumLoop]
      have hz2 : callTotal (fun j => decide (1 ≤ j ∧ j ≤ f.n ∧ j ≤ k)) calls = 0 := by
        apply callTotal_false
        intro j
        rw [decide_eq_false_iff_not]
        omega
      rw [hz2, wrapInt_zero]

theorem range_sum_spec (f : Fenwick) (calls : List (Int × Int)) (h : f.Represents calls)
    (l r : Int) (hlr : l ≤ r) :
    f.range_sum l r =
      wrapInt (callTotal (fun j => decide (1 ≤ j ∧ j ≤ f.n ∧ l ≤ j ∧ j ≤ r)) calls) := by
  unfold Fenwick.range_sum
  rw [if_neg (not_lt.mpr hlr)]
  simp only []
  rw [sum_spec f calls h, sum_spec f calls h]
  have hs := callTotal_split
    (fun j => decide (1 ≤ j ∧ j ≤ f.n ∧ j ≤ (if l ≤ 0 then 1 else l) - 1))
    (fun j => decide (1 ≤ j ∧ j ≤ f.n ∧ l ≤ j ∧ j ≤ r))
    (fun j => decide (1 ≤ j ∧ j ≤ f.n ∧ j ≤ (if r > f.n then f.n else r)))
    (by
      intro j
      rw [Bool.eq_iff_iff, Bool.or_eq_true, decide_eq_true_iff, decide_eq_true_iff,
        decide_eq_true_iff]
      split_ifs <;> omega)
    (by
      intro j hp hq
      rw [decide_eq_true_iff] at hp hq
      split_ifs at hp <;> omega) calls
  rw [hs, wrapInt_sub]
  congr 1
  omega

/-- On an index initialised with size `maxTime`, after the calls `calls`,
`range_sum(l, r)` for `l <= r` is the `int` value of the total added at the
indices of `[1, maxTime]` between `l` and `r`. -/
theorem range_sum_calls (maxTime : Int) (calls : List (Int × Int)) (l r : Int) (hlr : l ≤ r) :
    (Fenwick.addAll ⟨maxTime, List.replicate (maxTime + 1).toNat 0⟩ calls).range_sum l r =
      wrapInt (callTotal (fun j => decide (1 ≤ j ∧ j ≤ maxTime ∧ l ≤ j ∧ j ≤ r)) calls) := by
  have hrep := represents_addAll _ [] calls (represents_fresh maxTime)
  have hn : (Fenwick.addAll ⟨maxTime, List.replicate (maxTime + 1).toNat 0⟩ calls).n = maxTime :=
    addAll_n _ _
  simp only [List.nil_append] at hrep
  rw [range_sum_spec _ calls hrep l r hlr, hn]

/-! ## Construction of the KD-tree -/

theorem ctor_ok_iff {α : Type} (x y : α) (s : Bool) (maxTime : Int) (node : KDNode α) :
    KDNode.ctor x y s maxTime = .ok node ↔
      -1 ≤ maxTime ∧
        node = .node x y x x y y s .null .null ⟨maxTime, List.replicate (maxTime + 1).toNat 0⟩ := by
  unfold KDNode.ctor
  by_cases h : -1 ≤ maxTime
  · rw [init_ok _ maxTime h]
    simp only [Except.ok.injEq, h, true_and]
    exact eq_comm
  · rw [init_error _ maxTime (by omega)]
    simp [h]

theorem sortRange_perm {α : Type}
    (sort : (Event α → Event α → Bool) → List (Event α) → List (Event α))
    (cmp : Event α → Event α → Bool) (points : List (Event α)) (first last : Nat)
    (hfl : first ≤ last)
    (hs : (sort cmp ((points.drop first).take (last - first))).Perm
      ((points.drop first).take (last - first))) :
    (sortRange sort cmp points first last).Perm points := by
  unfold sortRange
  have e : points = points.take first ++ (points.drop first).take (last - first) ++
      points.drop last := by
    have h1 := List.take_append_drop (last - first) (points.drop first)
    rw [List.drop_drop] at h1
    have h2 : first + (last - first) = last := by omega
    rw [h2] at h1
    rw [List.append_assoc, h1, List.take_append_drop]
  conv_rhs => rw [e]
  exact (List.Perm.append (List.Perm.append (List.Perm.refl _) hs) (List.Perm.refl _))

section Build

variable {α : Type} [LinearOrder α]

theorem buildTree_step (sort : (Event α → Event α → Bool) → List (Event α) → List (Event α))
    (maxTime : Int) (fuel : Nat) (points : List (Event α)) (start end_ depth : Int) :
    KDTree.buildTree sort maxTime (fuel + 1) points start end_ depth =
      if start > end_ then .ok (.null, points)
      else if start < 0 ∨ (points.length : Int) ≤ end_ then .error .outOfRange
      else
        match (KDTree.sortedPoints sort points start end_ depth)[(KDTree.midIndex start end_).toNat]? with
        | none => .error .outOfRange
        | some p =>
          match KDNode.ctor p.x p.y (decide (Int.tmod depth 2 = 0)) maxTime with
          | .error e => .error e
          | .ok node =>
            match KDTree.buildTree sort maxTime fuel (KDTree.sortedPoints sort points start end_ depth)
                start (KDTree.midIndex start end_ - 1) (depth + 1) with
            | .error e => .error e
            | .ok (left, points1) =>
              match KDTree.buildTree sort maxTime fuel points1 (KDTree.midIndex start end_ + 1) end_
                  (depth + 1) with
              | .error e => .error e
              | .ok (right, points2) =>
                .ok ((((node.setLeft left).setRight right).includeChild left).includeChild right,
                  points2) := by
  rfl

theorem midIndex_eq (start end_ : Int) (h : start ≤ end_) :
    KDTree.midIndex start end_ = start + (end_ - start) / 2 := by
  unfold KDTree.midIndex
  rw [Int.tdiv_eq_ediv (by omega) (by decide)]

theorem midIndex_bounds (start end_ : Int) (h : start ≤ end_) :
    start ≤ KDTree.midIndex start end_ ∧ KDTree.midIndex start end_ ≤ end_ := by
  rw [midIndex_eq start end_ h]
  omega

theorem sortedPoints_perm (sort : (Event α → Event α → Bool) → List (Event α) → List (Event α))
    (hsort : IsStdSort sort) (points : List (Event α)) (start end_ depth : Int)
    (h0 : 0 ≤ start) (h1 : start ≤ end_) :
    (KDTree.sortedPoints sort points start end_ depth).Perm points := by
  unfold KDTree.sortedPoints
  have hfl : start.toNat ≤ (end_ + 1).toNat := by omega
  split
  · exact sortRange_perm sort _ points _ _ hfl (hsort Event.x _).1
  · exact sortRange_perm sort _ points _ _ hfl (hsort Event.y _).1

theorem buildTree_inv (sort : (Event α → Event α → Bool) → List (Event α) → List (Event α))
    (maxTime : Int) (fuel : Nat) (points : List (Event α)) (start end_ depth : Int)
    (t : KDNode α) (pts : List (Event α))
    (h : KDTree.buildTree sort maxTime (fuel + 1) points start end_ depth = .ok (t, pts)) :
    (end_ < start ∧ t = .null ∧ pts = points) ∨
    (start ≤ end_ ∧ 0 ≤ start ∧ end_ < points.length ∧
      ∃ (p : Event α) (node l r : KDNode α) (pts1 : List (Event α)),
        (KDTree.sortedPoints sort points start end_ depth)[(KDTree.midIndex start end_).toNat]?
          = some p ∧
        KDNode.ctor p.x p.y (decide (Int.tmod depth 2 = 0)) maxTime = .ok node ∧
        KDTree.buildTree sort maxTime fuel (KDTree.sortedPoints sort points start end_ depth)
          start (KDTree.midIndex start end_ - 1) (depth + 1) = .ok (l, pts1) ∧
        KDTree.buildTree sort maxTime fuel pts1 (KDTree.midIndex start end_ + 1) end_ (depth + 1)
          = .ok (r, pts) ∧
        t = (((node.setLeft l).setRight r).includeChild l).includeChild r) := by
  rw [buildTree_step] at h
  split_ifs at h with h1 h2
  · left
    simp only [Except.ok.injEq, Prod.mk.injEq] at h
    exact ⟨h1, h.1.symm, h.2.symm⟩
  · right
    refine ⟨by omega, by omega, by omega, ?_⟩
    split at h
    · cases h
    · rename_i p hp
      split at h
      · cases h
      · rename_i node hnode
        split at h
        · cases h
        · rename_i l pts1 hl
          split at h
          · cases h
          · rename_i r pts2 hr
            simp only [Except.ok.injEq, Prod.mk.injEq] at h
            refine ⟨p, node, l, r, pts1, hp, hnode, hl, ?_, h.1.symm⟩
            rw [hr, h.2]

theorem all_assemble (P : KDNode α → Prop) (x y : α) (s : Bool) (maxTime : Int)
    (node l r : KDNode α) (hnode : KDNode.ctor x y s maxTime = .ok node) :
    KDNode.All P ((((node.setLeft l).setRight r).includeChild l).includeChild r) ↔
      (P ((((node.setLeft l).setRight r).includeChild l).includeChild r) ∧
        KDNode.All P l ∧ KDNode.All P r) := by
  rw [ctor_ok_iff] at hnode
  obtain ⟨_, rfl⟩ := hnode
  cases l <;> cases r <;>
    simp [KDNode.setLeft, KDNode.setRight, KDNode.includeChild, KDNode.updateBounds, KDNode.All]

theorem buildTree_all (sort : (Event α → Event α → Bool) → List (Event α) → List (Event α))
    (hsort : IsStdSort sort) (maxTime : Int) (P : KDNode α → Prop) (Q : Event α → Prop)
    (hstep : ∀ (p : Event α) (s : Bool) (node l r : KDNode α), Q p →
      KDNode.ctor p.x p.y s maxTime = .ok node → KDNode.All P l → KDNode.All P r →
      P ((((node.setLeft l).setRight r).includeChild l).includeChild r)) :
    ∀ (fuel : Nat) (points : List (Event α)) (start end_ depth : Int) (t : KDNode α)
      (pts : List (Event α)), (∀ p ∈ points, Q p) →
      KDTree.buildTree sort maxTime fuel points start end_ depth = .ok (t, pts) →
      pts.Perm points ∧ KDNode.All P t := by
  intro fuel
  induction fuel with
  | zero =>
    intro points start end_ depth t pts _ h
    simp [KDTree.buildTree] at h
  | succ fuel ih =>
    intro points start end_ depth t pts hQ h
    rcases buildTree_inv sort maxTime fuel points start end_ depth t pts h with
      ⟨_, rfl, rfl⟩ | ⟨h1, h0, _, p, node, l, r, pts1, hp, hnode, hl, hr, rfl⟩
    · exact ⟨List.Perm.refl _, trivial⟩
    · have hperm := sortedPoints_perm sort hsort points start end_ depth h0 h1
      have hQ1 : ∀ q ∈ KDTree.sortedPoints sort points start end_ depth, Q q :=
        fun q hq => hQ q (hperm.mem_iff.mp hq)
      obtain ⟨hp1, hAl⟩ := ih _ _ _ _ _ _ hQ1 hl
      have hQ2 : ∀ q ∈ pts1, Q q := fun q hq => hQ1 q (hp1.mem_iff.mp hq)
      obtain ⟨hp2, hAr⟩ := ih _ _ _ _ _ _ hQ2 hr
      refine ⟨hp2.trans (hp1.trans hperm), ?_⟩
      rw [all_assemble P p.x p.y _ maxTime node l r hnode]
      have hpm : p ∈ KDTree.sortedPoints sort points start end_ depth := by
        rw [List.getElem?_eq_some] at hp
        obtain ⟨hlt, rfl⟩ := hp
        exact List.getElem_mem _
      exact ⟨hstep p _ node l r (hQ1 p hpm) hnode hAl hAr, hAl, hAr⟩

theorem buildTree_total (sort : (Event α → Event α → Bool) → List (Event α) → List (Event α))
    (hsort : IsStdSort sort) (maxTime : Int) (hmt : -1 ≤ maxTime) :
    ∀ (fuel : Nat) (points : List (Event α)) (start end_ depth : Int),
      (start ≤ end_ → 0 ≤ start ∧ end_ < points.length) →
      (end_ + 1 - start).toNat < fuel →
      ∃ (t : KDNode α) (pts : List (Event α)),
        KDTree.buildTree sort maxTime fuel points start end_ depth = .ok (t, pts) ∧
          pts.length = points.length := by
  intro fuel
  induction fuel with
  | zero => intro points start end_ depth _ h; omega
  | succ fuel ih =>
    intro points start end_ depth hr hf
    rw [buildTree_step]
    by_cases h1 : start > end_
    · rw [if_pos h1]
      exact ⟨_, _, rfl, rfl⟩
    · obtain ⟨h0, h2⟩ := hr (by omega)
      rw [if_neg h1, if_neg (by omega)]
      have hperm := sortedPoints_perm sort hsort points start end_ depth h0 (by omega)
      have hlen := hperm.length_eq
      have hmid := midIndex_bounds start end_ (by omega)
      have hget : (KDTree.midIndex start end_).toNat <
          (KDTree.sortedPoints sort points start end_ depth).length := by omega
      rw [List.getElem?_eq_getElem hget]
      simp only []
      have hc := (ctor_ok_iff
        ((KDTree.sortedPoints sort points start end_ depth).get ⟨_, hget⟩).x
        ((KDTree.sortedPoints sort points start end_ depth).get ⟨_, hget⟩).y
        (decide (Int.tmod depth 2 = 0)) maxTime _).mpr ⟨hmt, rfl⟩
      simp only [List.get_eq_getElem] at hc
      rw [hc]
      simp only []
      obtain ⟨l, pts1, hl, hlen1⟩ := ih (KDTree.sortedPoints sort points start end_ depth)
        start (KDTree.midIndex start end_ - 1) (depth + 1) (fun _ => ⟨h0, by omega⟩) (by omega)
      rw [hl]
      simp only []
      obtain ⟨r, pts2, hr2, hlen2⟩ := ih pts1 (KDTree.midIndex start end_ + 1) end_ (depth + 1)
        (fun _ => ⟨by omega, by omega⟩) (by omega)
      rw [hr2]
      exact ⟨_, _, rfl, by omega⟩

end Build

/-! ## Insertion and query -/

section Query

variable {α : Type} [LinearOrder α]

theorem swap_norm {β : Type} [LinearOrder β] (a b : β) :
    (if a > b then (b, a) else (a, b)) = (min a b, max a b) := by
  by_cases h : a > b
  · rw [if_pos h, min_eq_right (le_of_lt h), max_eq_left (le_of_lt h)]
  · rw [if_neg h, min_eq_left (not_lt.mp h), max_eq_right (not_lt.mp h)]

theorem query_eq (t : KDTree α) (x1 y1 x2 y2 : α) (t1 t2 : Int) :
    t.query x1 y1 x2 y2 t1 t2 =
      KDTree.queryRange t.root (min x1 x2) (min y1 y2) (max x1 x2) (max y1 y2)
        (min t1 t2) (max t1 t2) := by
  unfold KDTree.query
  rw [swap_norm x1 x2, swap_norm y1 y2, swap_norm t1 t2]

theorem range_sum_fresh (n l r : Int) :
    (Fenwick.mk n (List.replicate (n + 1).toNat 0)).range_sum l r = 0 := by
  by_cases hlr : l ≤ r
  · rw [range_sum_spec _ [] (represents_fresh n) l r hlr, callTotal_nil, wrapInt_zero]
  · have : l > r := by omega
    simp [Fenwick.range_sum, this]

theorem queryRange_fresh (maxTime : Int) (x1 y1 x2 y2 : α) (t1 t2 : Int) :
    ∀ t : KDNode α, KDNode.All (KDNode.FreshFenwick maxTime) t →
      KDTree.queryRange t x1 y1 x2 y2 t1 t2 = 0 := by
  intro t
  induction t with
  | null => intro _; rfl
  | node x y minX maxX minY maxY s l r fw ihl ihr =>
    intro h
    obtain ⟨hfw, hl, hr⟩ := h
    have hfw2 : fw = ⟨maxTime, List.replicate (maxTime + 1).toNat 0⟩ := hfw
    unfold KDTree.queryRange
    rw [ihl hl, ihr hr, hfw2, range_sum_fresh]
    simp [wrapInt_zero]

end Query

section BuildFacts

variable {α : Type} [LinearOrder α]

theorem buildTree_fresh (sort : (Event α → Event α → Bool) → List (Event α) → List (Event α))
    (hsort : IsStdSort sort) (maxTime : Int) (fuel : Nat) (points : List (Event α))
    (start end_ depth : Int) (t : KDNode α) (pts : List (Event α))
    (h : KDTree.buildTree sort maxTime fuel points start end_ depth = .ok (t, pts)) :
    KDNode.All (KDNode.FreshFenwick maxTime) t := by
  refine (buildTree_all sort hsort maxTime (KDNode.FreshFenwick maxTime) (fun _ => True) ?_
    fuel points start end_ depth t pts (fun _ _ => trivial) h).2
  intro p s node l r _ hnode _ _
  rw [ctor_ok_iff] at hnode
  obtain ⟨_, rfl⟩ := hnode
  cases l <;> cases r <;>
    simp [KDNode.setLeft, KDNode.setRight, KDNode.includeChild, KDNode.updateBounds,
      KDNode.FreshFenwick]

theorem buildTree_nonnull (sort : (Event α → Event α → Bool) → List (Event α) → List (Event α))
    (maxTime : Int) (fuel : Nat) (points : List (Event α)) (start end_ depth : Int)
    (t : KDNode α) (pts : List (Event α)) (hse : start ≤ end_)
    (h : KDTree.buildTree sort maxTime fuel points start end_ depth = .ok (t, pts)) :
    ∃ (x y minX maxX minY maxY : α) (s : Bool) (l r : KDNode α) (fw : Fenwick),
      t = .node x y minX maxX minY maxY s l r fw := by
  cases fuel with
  | zero => simp [KDTree.buildTree] at h
  | succ fuel =>
    rcases buildTree_inv sort maxTime fuel points start end_ depth t pts h with
      ⟨h1, _, _⟩ | ⟨_, _, _, p, node, l, r, pts1, _, hnode, _, _, rfl⟩
    · omega
    · rw [ctor_ok_iff] at hnode
      obtain ⟨_, rfl⟩ := hnode
      cases l <;> cases r <;>
        simp [KDNode.setLeft, KDNode.setRight, KDNode.includeChild, KDNode.updateBounds]

/-- The outcome of `build` on a non-empty vector is that of `buildTree` on the
whole index range. -/
theorem build_cons (sort : (Event α → Event α → Bool) → List (Event α) → List (Event α))
    (t : KDTree α) (e : Event α) (es : List (Event α)) :
    KDTree.build sort t (e :: es) =
      match KDTree.buildTree sort t.maxTime ((e :: es).length + 1) (e :: es) 0
          (((e :: es).length : Int) - 1) 0 with
      | .error err => .error err
      | .ok (root, events) => .ok (⟨root, t.maxTime⟩, events) := by
  rfl

theorem build_nil (sort : (Event α → Event α → Bool) → List (Event α) → List (Event α))
    (t : KDTree α) : KDTree.build sort t [] = .ok (t, []) := by
  rfl

theorem build_ok_inv (sort : (Event α → Event α → Bool) → List (Event α) → List (Event α))
    (t t2 : KDTree α) (events ev2 : List (Event α))
    (h : KDTree.build sort t events = .ok (t2, ev2)) :
    (events = [] ∧ t2 = t ∧ ev2 = []) ∨
    (events ≠ [] ∧ t2.maxTime = t.maxTime ∧
      KDTree.buildTree sort t.maxTime (events.length + 1) events 0
        ((events.length : Int) - 1) 0 = .ok (t2.root, ev2)) := by
  cases events with
  | nil =>
    rw [build_nil] at h
    simp only [Except.ok.injEq, Prod.mk.injEq] at h
    exact Or.inl ⟨rfl, h.1.symm, h.2.symm⟩
  | cons e es =>
    rw [build_cons] at h
    right
    split at h
    · cases h
    · rename_i root evs hb
      simp only [Except.ok.injEq, Prod.mk.injEq] at h
      obtain ⟨h1, h2⟩ := h
      subst h1 h2
      exact ⟨by simp, rfl, hb⟩

theorem build_total (sort : (Event α → Event α → Bool) → List (Event α) → List (Event α))
    (hsort : IsStdSort sort) (t : KDTree α) (events : List (Event α))
    (hmt : -1 ≤ t.maxTime ∨ events = []) :
    ∃ (t2 : KDTree α) (ev2 : List (Event α)), KDTree.build sort t events = .ok (t2, ev2) := by
  cases events with
  | nil => exact ⟨t, [], rfl⟩
  | cons e es =>
    have hm : -1 ≤ t.maxTime := by
      rcases hmt with h | h
      · exact h
      · cases h
    obtain ⟨root, pts, hb, _⟩ := buildTree_total sort hsort t.maxTime hm ((e :: es).length + 1)
      (e :: es) 0 (((e :: es).length : Int) - 1) 0
      (fun _ => ⟨le_refl 0, by omega⟩) (by omega)
    rw [build_cons, hb]
    exact ⟨_, _, rfl⟩

end BuildFacts

/-! ## Insertion sort meets the contract of `std::sort` -/

theorem insertBy_perm {β : Type} (lt : β → β → Bool) (a : β) (l : List β) :
    (insertBy lt a l).Perm (a :: l) := by
  induction l with
  | nil => exact List.Perm.refl _
  | cons b l ih =>
    unfold insertBy
    split
    · exact List.Perm.refl _
    · exact (List.Perm.cons b ih).trans (List.Perm.swap a b l)

theorem insertionSortBy_perm {β : Type} (lt : β → β → Bool) (l : List β) :
    (insertionSortBy lt l).Perm l := by
  induction l with
  | nil => exact List.Perm.refl _
  | cons a l ih =>
    unfold insertionSortBy
    exact (insertBy_perm lt a _).trans (List.Perm.cons a ih)

theorem insertBy_pairwise {β γ : Type} [LinearOrder γ] (key : β → γ) (a : β) (l : List β)
    (h : l.Pairwise (fun u v => key u ≤ key v)) :
    (insertBy (fun u v => decide (key u < key v)) a l).Pairwise (fun u v => key u ≤ key v) := by
  induction l with
  | nil => simp [insertBy]
  | cons b l ih =>
    rw [List.pairwise_cons] at h
    obtain ⟨hb, hl⟩ := h
    unfold insertBy
    by_cases hlt : key a < key b
    · simp only [hlt, decide_True, if_true]
      rw [List.pairwise_cons]
      refine ⟨?_, List.pairwise_cons.mpr ⟨hb, hl⟩⟩
      intro c hc
      rcases List.mem_cons.mp hc with rfl | hc
      · exact le_of_lt hlt
      · exact le_trans (le_of_lt hlt) (hb c hc)
    · simp only [hlt, decide_False, Bool.false_eq_true, if_false]
      rw [List.pairwise_cons]
      refine ⟨?_, ih hl⟩
      intro c hc
      have hc2 := (insertBy_perm (fun u v => decide (key u < key v)) a l).mem_iff.mp hc
      rcases List.mem_cons.mp hc2 with rfl | hc3
      · exact not_lt.mp hlt
      · exact hb c hc3

theorem insertionSortBy_pairwise {β γ : Type} [LinearOrder γ] (key : β → γ) (l : List β) :
    (insertionSortBy (fun u v => decide (key u < key v)) l).Pairwise
      (fun u v => key u ≤ key v) := by
  induction l with
  | nil => simp [insertionSortBy]
  | cons a l ih =>
    unfold insertionSortBy
    exact insertBy_pairwise key a _ ih

theorem insertionSortBy_isStdSort {α : Type} [LinearOrder α] :
    IsStdSort (insertionSortBy : (Event α → Event α → Bool) → List (Event α) → List (Event α)) :=
  fun key l => ⟨insertionSortBy_perm _ l, insertionSortBy_pairwise key l⟩

/-! ## Further facts used by the claims -/

theorem insertAll_root_eq {α : Type} [LinearOrder α] (t : KDTree α) (ins : List (Event α)) :
    (t.insertAll ins).root = ins.foldl KDTree.insertEvent t.root ∧
      (t.insertAll ins).maxTime = t.maxTime := by
  induction ins generalizing t with
  | nil => exact ⟨rfl, rfl⟩
  | cons e es ih =>
    have := ih (t.insert e)
    exact this

/-! ## Claims about the Fenwick tree -/

/-- C7: in any state of an index of size `n`, `add(idx, val)` with `idx` outside
`[1, n]` (in particular `idx = 0` and `idx = n + 1`) changes no counter, hence
`sum(k)` is unchanged for every `k`. -/
theorem C7_add_out_of_domain (f : Fenwick) (idx val : Int) (h : idx < 1 ∨ f.n < idx) :
    f.add idx val = f ∧ ∀ k : Int, (f.add idx val).sum k = f.sum k := by
  have e : f.add idx val = f := add_out_of_range f idx val (by omega)
  exact ⟨e, fun k => by rw [e]⟩

theorem C7_add_out_of_domain_witness :
    ((Fenwick.mk 3 [0, 5, 7, 2]).add 0 9 = Fenwick.mk 3 [0, 5, 7, 2] ∧
        ∀ k : Int, ((Fenwick.mk 3 [0, 5, 7, 2]).add 0 9).sum k =
          (Fenwick.mk 3 [0, 5, 7, 2]).sum k) ∧
      ((Fenwick.mk 3 [0, 5, 7, 2]).add 4 9 = Fenwick.mk 3 [0, 5, 7, 2] ∧
        ∀ k : Int, ((Fenwick.mk 3 [0, 5, 7, 2]).add 4 9).sum k =
          (Fenwick.mk 3 [0, 5, 7, 2]).sum k) :=
  ⟨C7_add_out_of_domain (Fenwick.mk 3 [0, 5, 7, 2]) 0 9 (Or.inl (by decide)),
    C7_add_out_of_domain (Fenwick.mk 3 [0, 5, 7, 2]) 4 9 (Or.inr (by decide))⟩

/-! ## Claims about the KD-tree -/

section KDClaims

variable {α : Type} [LinearOrder α]

/-- C8: `query(x1,y1,x2,y2,t1,t2)` returns the same value as
`query(x2,y2,x1,y1,t2,t1)` in every index state; reversing only the time bounds
does not change the result either, a reversed interval being the swapped one. -/
theorem C8_query_normalization (t : KDTree α) (x1 y1 x2 y2 : α) (t1 t2 : Int) :
    t.query x1 y1 x2 y2 t1 t2 = t.query x2 y2 x1 y1 t2 t1 ∧
      t.query x1 y1 x2 y2 t1 t2 = t.query x1 y1 x2 y2 t2 t1 := by
  constructor
  · rw [query_eq, query_eq, min_comm x1 x2, min_comm y1 y2, max_comm x1 x2, max_comm y1 y2,
      min_comm t1 t2, max_comm t1 t2]
  · rw [query_eq, query_eq, min_comm t1 t2, max_comm t1 t2]

/-- C9: an index on which `build` has been called and no `insert` has been made
(a freshly constructed index, or one that earlier builds left without temporal
data) answers 0 to every `query`: `build` returns (for `maxTime >= -1`, or on an
empty collection), leaves the Fenwick tree of every node as `init` made it, and
every rectangle and time interval then yields 0. -/
theorem C9_build_without_insert
    (sort : (Event α → Event α → Bool) → List (Event α) → List (Event α))
    (hsort : IsStdSort sort) (t : KDTree α)
    (ht : KDNode.All (KDNode.FreshFenwick t.maxTime) t.root) (events : List (Event α)) :
    (-1 ≤ t.maxTime ∨ events = [] →
      ∃ (t2 : KDTree α) (ev : List (Event α)), KDTree.build sort t events = .ok (t2, ev)) ∧
    ∀ (t2 : KDTree α) (ev : List (Event α)), KDTree.build sort t events = .ok (t2, ev) →
      t2.maxTime = t.maxTime ∧
        KDNode.All (KDNode.FreshFenwick t.maxTime) t2.root ∧
        ∀ (x1 y1 x2 y2 : α) (t1 t2q : Int), t2.query x1 y1 x2 y2 t1 t2q = 0 := by
  refine ⟨fun h => build_total sort hsort t events h, ?_⟩
  intro t2 ev hb
  have hfresh : t2.maxTime = t.maxTime ∧ KDNode.All (KDNode.FreshFenwick t.maxTime) t2.root := by
    rcases build_ok_inv sort t t2 events ev hb with ⟨_, rfl, _⟩ | ⟨_, hm, hbt⟩
    · exact ⟨rfl, ht⟩
    · exact ⟨hm, buildTree_fresh sort hsort t.maxTime _ events 0 _ 0 t2.root ev hbt⟩
  refine ⟨hfresh.1, hfresh.2, ?_⟩
  intro x1 y1 x2 y2 t1 t2q
  rw [query_eq]
  exact queryRange_fresh t.maxTime _ _ _ _ _ _ t2.root hfresh.2

theorem C9_build_without_insert_witness :
    ((-1 : Int) ≤ (KDTree.ctor 1440 : KDTree Int).maxTime ∨
        ([⟨0, 0, 1, 1⟩, ⟨1, 1, 2, 1⟩] : List (Event Int)) = [] →
      ∃ (t2 : KDTree Int) (ev : List (Event Int)),
        KDTree.build insertionSortBy (KDTree.ctor 1440) [⟨0, 0, 1, 1⟩, ⟨1, 1, 2, 1⟩]
          = .ok (t2, ev)) ∧
    ∀ (t2 : KDTree Int) (ev : List (Event Int)),
      KDTree.build insertionSortBy (KDTree.ctor 1440) [⟨0, 0, 1, 1⟩, ⟨1, 1, 2, 1⟩]
          = .ok (t2, ev) →
        t2.maxTime = (KDTree.ctor 1440 : KDTree Int).maxTime ∧
          KDNode.All (KDNode.FreshFenwick (KDTree.ctor 1440 : KDTree Int).maxTime) t2.root ∧
          ∀ (x1 y1 x2 y2 : Int) (t1 t2q : Int), t2.query x1 y1 x2 y2 t1 t2q = 0 :=
  C9_build_without_insert insertionSortBy insertionSortBy_isStdSort (KDTree.ctor 1440) trivial
    [⟨0, 0, 1, 1⟩, ⟨1, 1, 2, 1⟩]

/-- C10: on an index whose root is unset (freshly constructed, or after `build`
on an empty collection) `empty()` is true, `insert(e)` leaves the index unchanged
and empty, and `query` returns 0 for all arguments; after a `build` that returns
on a non-empty collection `empty()` is false, and `build` returns whenever
`maxTime >= -1`. -/
theorem C10_empty_index
    (sort : (Event α → Event α → Bool) → List (Event α) → List (Event α))
    (hsort : IsStdSort sort) (maxTime : Int) :
    (KDTree.ctor maxTime : KDTree α).empty = true ∧
    KDTree.build sort (KDTree.ctor maxTime : KDTree α) [] = .ok (KDTree.ctor maxTime, []) ∧
    (∀ t : KDTree α, t.root = .null →
      t.empty = true ∧
        (∀ e : Event α, t.insert e = t ∧ (t.insert e).empty = true) ∧
        ∀ (x1 y1 x2 y2 : α) (t1 t2 : Int), t.query x1 y1 x2 y2 t1 t2 = 0) ∧
    (∀ (t : KDTree α) (events : List (Event α)), events ≠ [] →
      (-1 ≤ t.maxTime →
        ∃ (t2 : KDTree α) (ev2 : List (Event α)), KDTree.build sort t events = .ok (t2, ev2)) ∧
      ∀ (t2 : KDTree α) (ev2 : List (Event α)),
        KDTree.build sort t events = .ok (t2, ev2) → t2.empty = false) := by
  refine ⟨rfl, rfl, ?_, ?_⟩
  · intro t ht
    obtain ⟨root, mt⟩ := t
    simp only at ht
    subst ht
    refine ⟨rfl, fun e => ⟨rfl, rfl⟩, ?_⟩
    intro x1 y1 x2 y2 t1 t2
    rw [query_eq]
    rfl
  · intro t events hne
    refine ⟨fun hm => build_total sort hsort t events (Or.inl hm), ?_⟩
    intro t2 ev2 hb
    rcases build_ok_inv sort t t2 events ev2 hb with ⟨h, _, _⟩ | ⟨_, _, hbt⟩
    · exact absurd h hne
    · obtain ⟨x, y, minX, maxX, minY, maxY, s, l, r, fw, hroot⟩ :=
        buildTree_nonnull sort t.maxTime _ events 0 _ 0 t2.root ev2 (by
          have : 0 < events.length := List.length_pos.mpr hne
          omega) hbt
      unfold KDTree.empty
      rw [hroot]

theorem C10_empty_index_witness :
    (KDTree.ctor 1440 : KDTree Int).empty = true ∧
    KDTree.build insertionSortBy (KDTree.ctor 1440 : KDTree Int) [] =
      .ok (KDTree.ctor 1440, []) ∧
    (∀ t : KDTree Int, t.root = .null →
      t.empty = true ∧
        (∀ e : Event Int, t.insert e = t ∧ (t.insert e).empty = true) ∧
        ∀ (x1 y1 x2 y2 : Int) (t1 t2 : Int), t.query x1 y1 x2 y2 t1 t2 = 0) ∧
    (∀ (t : KDTree Int) (events : List (Event Int)), events ≠ [] →
      (-1 ≤ t.maxTime →
        ∃ (t2 : KDTree Int) (ev2 : List (Event Int)),
          KDTree.build insertionSortBy t events = .ok (t2, ev2)) ∧
      ∀ (t2 : KDTree Int) (ev2 : List (Event Int)),
        KDTree.build insertionSortBy t events = .ok (t2, ev2) → t2.empty = false) :=
  C10_empty_index insertionSortBy insertionSortBy_isStdSort 1440

end KDClaims

section Scenario

theorem sort_eq_self {α : Type} [LinearOrder α]
    (sort : (Event α → Event α → Bool) → List (Event α) → List (Event α))
    (hsort : IsStdSort sort) (key : Event α → α) (l : List (Event α))
    (hl : l.Pairwise (fun a b => key a < key b)) :
    sort (fun a b => decide (key a < key b)) l = l := by
  obtain ⟨hperm, hpair⟩ := hsort key l
  have hne : l.Pairwise (fun a b => key a ≠ key b) := hl.imp (fun h => ne_of_lt h)
  have hinj : ∀ a ∈ l, ∀ b ∈ l, key a = key b → a = b := by
    intro a ha b hb hk
    by_contra hab
    exact (hne.forall (fun _ _ h => h.symm) ha hb hab) hk
  refine List.Perm.eq_of_sorted ?_ hpair (hl.imp (fun h => le_of_lt h)) hperm
  intro a b ha hb h1 h2
  exact hinj a (hperm.mem_iff.mp ha) b hb (le_antisymm h1 h2)

theorem scenario_build
    (sort : (Event ℚ → Event ℚ → Bool) → List (Event ℚ) → List (Event ℚ))
    (hsort : IsStdSort sort) (maxTime : Int) (hmt : -1 ≤ maxTime) (ta wa tb wb tc wc : Int) :
    KDTree.build sort (KDTree.ctor maxTime) [⟨0, 0, ta, wa⟩, ⟨1, 1, tb, wb⟩, ⟨2, 2, tc, wc⟩] =
      .ok (⟨.node 1 1 0 2 0 2 true
              (.node 0 0 0 0 0 0 false .null .null ⟨maxTime, List.replicate (maxTime + 1).toNat 0⟩)
              (.node 2 2 2 2 2 2 false .null .null ⟨maxTime, List.replicate (maxTime + 1).toNat 0⟩)
              ⟨maxTime, List.replicate (maxTime + 1).toNat 0⟩, maxTime⟩,
           [⟨0, 0, ta, wa⟩, ⟨1, 1, tb, wb⟩, ⟨2, 2, tc, wc⟩]) := by
  have s3 : sort (fun a b => decide (a.x < b.x))
      [(⟨0, 0, ta, wa⟩ : Event ℚ), ⟨1, 1, tb, wb⟩, ⟨2, 2, tc, wc⟩] =
      [⟨0, 0, ta, wa⟩, ⟨1, 1, tb, wb⟩, ⟨2, 2, tc, wc⟩] :=
    sort_eq_self sort hsort Event.x _ (by simp)
  have s1 : ∀ e : Event ℚ, sort (fun a b => decide (a.y < b.y)) [e] = [e] :=
    fun e => sort_eq_self sort hsort Event.y _ (by simp)
  have hc : ∀ (x y : ℚ) (s : Bool), KDNode.ctor x y s maxTime =
      .ok (.node x y x x y y s .null .null ⟨maxTime, List.replicate (maxTime + 1).toNat 0⟩) :=
    fun x y s => (ctor_ok_iff x y s maxTime _).mpr ⟨hmt, rfl⟩
  have m02 : KDTree.midIndex 0 2 = 1 := by decide
  have m00 : KDTree.midIndex 0 0 = 0 := by decide
  have m22 : KDTree.midIndex 2 2 = 2 := by decide
  have t0 : Int.tmod 0 2 = 0 := by decide
  have t1 : Int.tmod 1 2 = 1 := by decide
  have hnull : ∀ (pts : List (Event ℚ)) (a b d : Int), b < a →
      KDTree.buildTree sort maxTime 2 pts a b d = .ok (.null, pts) := by
    intro pts a b d hab
    rw [buildTree_step, if_pos hab]
  have hleft : KDTree.buildTree sort maxTime 3
      [(⟨0, 0, ta, wa⟩ : Event ℚ), ⟨1, 1, tb, wb⟩, ⟨2, 2, tc, wc⟩] 0 0 1 =
      .ok (.node 0 0 0 0 0 0 false .null .null ⟨maxTime, List.replicate (maxTime + 1).toNat 0⟩,
        [⟨0, 0, ta, wa⟩, ⟨1, 1, tb, wb⟩, ⟨2, 2, tc, wc⟩]) := by
    rw [buildTree_step]
    simp [KDTree.sortedPoints, sortRange, t1, m00, s1, hc, hnull, KDNode.setLeft,
      KDNode.setRight, KDNode.includeChild]
  have hright : KDTree.buildTree sort maxTime 3
      [(⟨0, 0, ta, wa⟩ : Event ℚ), ⟨1, 1, tb, wb⟩, ⟨2, 2, tc, wc⟩] 2 2 1 =
      .ok (.node 2 2 2 2 2 2 false .null .null ⟨maxTime, List.replicate (maxTime + 1).toNat 0⟩,
        [⟨0, 0, ta, wa⟩, ⟨1, 1, tb, wb⟩, ⟨2, 2, tc, wc⟩]) := by
    rw [buildTree_step]
    simp [KDTree.sortedPoints, sortRange, t1, m22, s1, hc, hnull, KDNode.setLeft,
      KDNode.setRight, KDNode.includeChild]
  rw [build_cons]
  simp only [List.length_cons, List.length_nil]
  rw [buildTree_step]
  simp [KDTree.sortedPoints, sortRange, t0, m02, s3, hc, hleft, hright, KDNode.setLeft,
    KDNode.setRight, KDNode.includeChild, KDNode.updateBounds, KDTree.ctor]

theorem scenario_insert (maxTime : Int) :
    (KDTree.insertAll (⟨.node 1 1 0 2 0 2 true
        (.node 0 0 0 0 0 0 false .null .null ⟨maxTime, List.replicate (maxTime + 1).toNat 0⟩)
        (.node 2 2 2 2 2 2 false .null .null ⟨maxTime, List.replicate (maxTime + 1).toNat 0⟩)
        ⟨maxTime, List.replicate (maxTime + 1).toNat 0⟩, maxTime⟩ : KDTree ℚ)
      [⟨0, 0, 1, 1⟩, ⟨1, 1, 2, 1⟩, ⟨2, 2, 3, 1⟩]) =
    ⟨.node 1 1 0 2 0 2 true
        (.node 0 0 0 1 0 1 false .null .null
          (Fenwick.addAll ⟨maxTime, List.replicate (maxTime + 1).toNat 0⟩ [(1, 1), (2, 1)]))
        (.node 2 2 2 2 2 2 false .null .null
          (Fenwick.addAll ⟨maxTime, List.replicate (maxTime + 1).toNat 0⟩ [(3, 1)]))
        (Fenwick.addAll ⟨maxTime, List.replicate (maxTime + 1).toNat 0⟩ [(1, 1), (2, 1), (3, 1)]),
      maxTime⟩ := by
  simp only [KDTree.insertAll, List.foldl_cons, List.foldl_nil, KDTree.insert, KDTree.insertEvent,
    KDNode.updateBounds, Fenwick.addAll]
  norm_num

/-- C4: the concrete scenario on the code.  With `maxTime >= 3`, after `build`
from the points `(0,0)`, `(1,1)`, `(2,2)` (whatever their time and weight fields)
and `insert` of `(0,0,time=1,weight=1)`, `(1,1,time=2,weight=1)`,
`(2,2,time=3,weight=1)` in that order, three of the four queries return what the
spec states, and `query(0,0,0,0,1,3)` returns 2: the node at `(0,0)` also carries
the event `(1,1,time=2)`, which passed through it. -/
theorem C4_concrete_scenario
    (sort : (Event ℚ → Event ℚ → Bool) → List (Event ℚ) → List (Event ℚ))
    (hsort : IsStdSort sort) (maxTime : Int) (hmt : 3 ≤ maxTime) (ta wa tb wb tc wc : Int) :
    ∃ (t : KDTree ℚ) (ev : List (Event ℚ)),
      KDTree.build sort (KDTree.ctor maxTime)
          [⟨0, 0, ta, wa⟩, ⟨1, 1, tb, wb⟩, ⟨2, 2, tc, wc⟩] = .ok (t, ev) ∧
      (t.insertAll [⟨0, 0, 1, 1⟩, ⟨1, 1, 2, 1⟩, ⟨2, 2, 3, 1⟩]).query 0 0 2 2 1 3 = 3 ∧
      (t.insertAll [⟨0, 0, 1, 1⟩, ⟨1, 1, 2, 1⟩, ⟨2, 2, 3, 1⟩]).query 0 0 2 2 1 1 = 1 ∧
      (t.insertAll [⟨0, 0, 1, 1⟩, ⟨1, 1, 2, 1⟩, ⟨2, 2, 3, 1⟩]).query 0 0 0 0 1 3 = 2 ∧
      (t.insertAll [⟨0, 0, 1, 1⟩, ⟨1, 1, 2, 1⟩, ⟨2, 2, 3, 1⟩]).query 3 3 4 4 1 3 = 0 := by
  refine ⟨_, _, scenario_build sort hsort maxTime (by omega) ta wa tb wb tc wc, ?_⟩
  rw [scenario_insert]
  have h1 : (1 : Int) ≤ maxTime := by omega
  have h2 : (2 : Int) ≤ maxTime := by omega
  refine ⟨?_, ?_, ?_, ?_⟩
  · rw [query_eq]
    norm_num [KDTree.queryRange, KDNode.intersects, KDNode.isInside]
    rw [range_sum_calls maxTime _ 1 3 (by decide)]
    simp [callTotal_cons, callTotal_nil, h1, h2, hmt]
    decide
  · rw [query_eq]
    norm_num [KDTree.queryRange, KDNode.intersects, KDNode.isInside]
    rw [range_sum_calls maxTime _ 1 1 (by decide)]
    simp [callTotal_cons, callTotal_nil, h1, h2, hmt]
    decide
  · rw [query_eq]
    norm_num [KDTree.queryRange, KDNode.intersects, KDNode.isInside]
    rw [range_sum_calls maxTime _ 1 3 (by decide)]
    simp [callTotal_cons, callTotal_nil, h1, h2, hmt]
    decide
  · rw [query_eq]
    norm_num [KDTree.queryRange, KDNode.intersects, KDNode.isInside]

theorem C4_concrete_scenario_witness :
    ∃ (t : KDTree ℚ) (ev : List (Event ℚ)),
      KDTree.build insertionSortBy (KDTree.ctor 3)
          [⟨0, 0, 1, 1⟩, ⟨1, 1, 2, 1⟩, ⟨2, 2, 3, 1⟩] = .ok (t, ev) ∧
      (t.insertAll [⟨0, 0, 1, 1⟩, ⟨1, 1, 2, 1⟩, ⟨2, 2, 3, 1⟩]).query 0 0 2 2 1 3 = 3 ∧
      (t.insertAll [⟨0, 0, 1, 1⟩, ⟨1, 1, 2, 1⟩, ⟨2, 2, 3, 1⟩]).query 0 0 2 2 1 1 = 1 ∧
      (t.insertAll [⟨0, 0, 1, 1⟩, ⟨1, 1, 2, 1⟩, ⟨2, 2, 3, 1⟩]).query 0 0 0 0 1 3 = 2 ∧
      (t.insertAll [⟨0, 0, 1, 1⟩, ⟨1, 1, 2, 1⟩, ⟨2, 2, 3, 1⟩]).query 3 3 4 4 1 3 = 0 :=
  C4_concrete_scenario insertionSortBy insertionSortBy_isStdSort 3 (by decide) 1 1 2 1 3 1

theorem buildTree_empty_range {α : Type} [LinearOrder α]
    (sort : (Event α → Event α → Bool) → List (Event α) → List (Event α))
    (maxTime : Int) (fuel : Nat) (pts : List (Event α)) (a b d : Int) (hab : b < a) :
    KDTree.buildTree sort maxTime (fuel + 1) pts a b d = .ok (.null, pts) := by
  rw [buildTree_step, if_pos hab]

theorem overcount_build
    (sort : (Event ℚ → Event ℚ → Bool) → List (Event ℚ) → List (Event ℚ))
    (hsort : IsStdSort sort) (maxTime : Int) (hmt : -1 ≤ maxTime) :
    KDTree.build sort (KDTree.ctor maxTime) [⟨0, 0, 1, 1⟩, ⟨1, 1, 1, 1⟩] =
      .ok (⟨.node 0 0 0 1 0 1 true .null
              (.node 1 1 1 1 1 1 false .null .null ⟨maxTime, List.replicate (maxTime + 1).toNat 0⟩)
              ⟨maxTime, List.replicate (maxTime + 1).toNat 0⟩, maxTime⟩,
           [⟨0, 0, 1, 1⟩, ⟨1, 1, 1, 1⟩]) := by
  have s2 : sort (fun a b => decide (a.x < b.x))
      [(⟨0, 0, 1, 1⟩ : Event ℚ), ⟨1, 1, 1, 1⟩] = [⟨0, 0, 1, 1⟩, ⟨1, 1, 1, 1⟩] :=
    sort_eq_self sort hsort Event.x _ (by simp)
  have s1 : ∀ e : Event ℚ, sort (fun a b => decide (a.y < b.y)) [e] = [e] :=
    fun e => sort_eq_self sort hsort Event.y _ (by simp)
  have hc : ∀ (x y : ℚ) (s : Bool), KDNode.ctor x y s maxTime =
      .ok (.node x y x x y y s .null .null ⟨maxTime, List.replicate (maxTime + 1).toNat 0⟩) :=
    fun x y s => (ctor_ok_iff x y s maxTime _).mpr ⟨hmt, rfl⟩
  have m01 : KDTree.midIndex 0 1 = 0 := by decide
  have m11 : KDTree.midIndex 1 1 = 1 := by decide
  have t0 : Int.tmod 0 2 = 0 := by decide
  have t1 : Int.tmod 1 2 = 1 := by decide
  have hright : KDTree.buildTree sort maxTime 2
      [(⟨0, 0, 1, 1⟩ : Event ℚ), ⟨1, 1, 1, 1⟩] 1 1 1 =
      .ok (.node 1 1 1 1 1 1 false .null .null ⟨maxTime, List.replicate (maxTime + 1).toNat 0⟩,
        [⟨0, 0, 1, 1⟩, ⟨1, 1, 1, 1⟩]) := by
    rw [buildTree_step]
    simp [KDTree.sortedPoints, sortRange, t1, m11, s1, hc, buildTree_empty_range,
      KDNode.setLeft, KDNode.setRight, KDNode.includeChild]
  rw [build_cons]
  simp only [List.length_cons, List.length_nil]
  rw [buildTree_step]
  simp [KDTree.sortedPoints, sortRange, t0, m01, s2, hc, hright, buildTree_empty_range,
    KDNode.setLeft, KDNode.setRight, KDNode.includeChild, KDNode.updateBounds, KDTree.ctor]

theorem overcount_insert (maxTime : Int) :
    (KDTree.insertAll (⟨.node 0 0 0 1 0 1 true .null
        (.node 1 1 1 1 1 1 false .null .null ⟨maxTime, List.replicate (maxTime + 1).toNat 0⟩)
        ⟨maxTime, List.replicate (maxTime + 1).toNat 0⟩, maxTime⟩ : KDTree ℚ)
      [⟨0, 0, 1, 1⟩, ⟨1, 1, 1, 1⟩]) =
    ⟨.node 0 0 0 1 0 1 true .null
        (.node 1 1 1 1 1 1 false .null .null
          (Fenwick.addAll ⟨maxTime, List.replicate (maxTime + 1).toNat 0⟩ [(1, 1)]))
        (Fenwick.addAll ⟨maxTime, List.replicate (maxTime + 1).toNat 0⟩ [(1, 1), (1, 1)]),
      maxTime⟩ := by
  simp only [KDTree.insertAll, List.foldl_cons, List.foldl_nil, KDTree.insert, KDTree.insertEvent,
    KDNode.updateBounds, Fenwick.addAll]
  norm_num

/-- C1: the code at a failing input.  With `maxTime >= 1`, after `build` from the
events `(0,0,time=1,weight=1)` and `(1,1,time=1,weight=1)` and `insert` of both,
`query(0,0,0,0,1,1)` returns 2, while the weights of the inserted events inside
that rectangle and time interval sum to 1. -/
theorem C1_query_overcounts
    (sort : (Event ℚ → Event ℚ → Bool) → List (Event ℚ) → List (Event ℚ))
    (hsort : IsStdSort sort) (maxTime : Int) (hmt : 1 ≤ maxTime) :
    ∃ (t : KDTree ℚ) (ev : List (Event ℚ)),
      KDTree.build sort (KDTree.ctor maxTime) [⟨0, 0, 1, 1⟩, ⟨1, 1, 1, 1⟩] = .ok (t, ev) ∧
      (t.insertAll [⟨0, 0, 1, 1⟩, ⟨1, 1, 1, 1⟩]).query 0 0 0 0 1 1 = 2 ∧
      weightTotal (fun e => decide (0 ≤ e.x ∧ e.x ≤ 0 ∧ 0 ≤ e.y ∧ e.y ≤ 0 ∧
        1 ≤ e.time ∧ e.time ≤ 1)) [(⟨0, 0, 1, 1⟩ : Event ℚ), ⟨1, 1, 1, 1⟩] = 1 := by
  refine ⟨_, _, overcount_build sort hsort maxTime (by omega), ?_, ?_⟩
  · rw [overcount_insert, query_eq]
    norm_num [KDTree.queryRange, KDNode.intersects, KDNode.isInside]
    rw [range_sum_calls maxTime _ 1 1 (by decide)]
    simp [callTotal_cons, callTotal_nil, hmt]
    decide
  · norm_num [weightTotal, List.filter_cons]

theorem C1_query_overcounts_witness :
    ∃ (t : KDTree ℚ) (ev : List (Event ℚ)),
      KDTree.build insertionSortBy (KDTree.ctor 1) [⟨0, 0, 1, 1⟩, ⟨1, 1, 1, 1⟩] = .ok (t, ev) ∧
      (t.insertAll [⟨0, 0, 1, 1⟩, ⟨1, 1, 1, 1⟩]).query 0 0 0 0 1 1 = 2 ∧
      weightTotal (fun e => decide (0 ≤ e.x ∧ e.x ≤ 0 ∧ 0 ≤ e.y ∧ e.y ≤ 0 ∧
        1 ≤ e.time ∧ e.time ≤ 1)) [(⟨0, 0, 1, 1⟩ : Event ℚ), ⟨1, 1, 1, 1⟩] = 1 :=
  C1_query_overcounts insertionSortBy insertionSortBy_isStdSort 1 (by decide)

end Scenario

/-! ## Degenerate sizes and `clear` -/

/-- C11, the claim as stated fails: for `size = -2` the count `size + 1 = -1`
handed to `bit.assign` is negative, and `init` ends with `std::length_error`
instead of producing an index. -/
theorem C11_init_negative_counterexample :
    Fenwick.ctor.init (-2) = .error .lengthError ∧
      ¬ ∃ f : Fenwick, Fenwick.ctor.init (-2) = .ok f := by
  have h : Fenwick.ctor.init (-2) = .error .lengthError := init_error _ (-2) (by decide)
  refine ⟨h, ?_⟩
  rintro ⟨f, hf⟩
  rw [h] at hf
  cases hf

/-- C11, amended: for `size = 0` and `size = -1`, `init(size)` does not fail and
produces a degenerate index on which no operation has effect: every `add`, and
so every sequence of `add` calls, leaves it unchanged, and `sum` and `range_sum`
return 0 for all arguments.  For `size <= -2`, `init(size)` fails. -/
theorem C11_init_degenerate (self : Fenwick) (size : Int) :
    (-1 ≤ size → size ≤ 0 →
      ∃ f : Fenwick, self.init size = .ok f ∧
        (∀ idx val : Int, f.add idx val = f) ∧
        (∀ calls : List (Int × Int), f.addAll calls = f) ∧
        (∀ idx : Int, f.sum idx = 0) ∧
        (∀ l r : Int, f.range_sum l r = 0)) ∧
    (size ≤ -2 → self.init size = .error .lengthError) := by
  constructor
  · intro h1 h2
    refine ⟨_, init_ok self size h1, ?_⟩
    have hadd : ∀ idx val : Int,
        (Fenwick.mk size (List.replicate (size + 1).toNat 0)).add idx val =
          Fenwick.mk size (List.replicate (size + 1).toNat 0) := by
      intro idx val
      apply add_out_of_range
      show idx ≤ 0 ∨ idx > size
      omega
    refine ⟨hadd, ?_, ?_, ?_⟩
    · intro calls
      induction calls with
      | nil => rfl
      | cons c cs ih =>
        show Fenwick.addAll ((Fenwick.mk size (List.replicate (size + 1).toNat 0)).add c.1 c.2) cs
          = _
        rw [hadd, ih]
    · intro idx
      rw [sum_spec _ [] (represents_fresh size), callTotal_nil, wrapInt_zero]
    · intro l r
      exact range_sum_fresh size l r
  · intro h
    exact init_error self size (by omega)

theorem C11_init_degenerate_witness :
    ((-1 : Int) ≤ 0 → (0 : Int) ≤ 0 →
      ∃ f : Fenwick, Fenwick.ctor.init 0 = .ok f ∧
        (∀ idx val : Int, f.add idx val = f) ∧
        (∀ calls : List (Int × Int), f.addAll calls = f) ∧
        (∀ idx : Int, f.sum idx = 0) ∧
        (∀ l r : Int, f.range_sum l r = 0)) ∧
    ((0 : Int) ≤ -2 → Fenwick.ctor.init 0 = .error .lengthError) :=
  C11_init_degenerate Fenwick.ctor 0

theorem clear_of_length (f : Fenwick) (h : f.bit.length = (f.n + 1).toNat) :
    f.clear = ⟨f.n, List.replicate (f.n + 1).toNat 0⟩ := by
  unfold Fenwick.clear
  rw [← h]
  congr 1
  exact List.map_const' f.bit 0

/-- C12: in any state of an index of capacity `n` (initialised with `n`, then
any `add` calls), `clear()` resets every counter to zero and keeps `n`: the
state is again the one `init(n)` produced, so `sum(k) = 0` for every `k` and any
later sequence of `add` calls yields the sums of a freshly initialised index. -/
theorem C12_clear (self : Fenwick) (n : Int) (hn : -1 ≤ n) :
    ∃ f0 : Fenwick, self.init n = .ok f0 ∧
      ∀ before : List (Int × Int),
        ((f0.addAll before).clear).n = n ∧
        ((f0.addAll before).clear).bit.length = (f0.addAll before).bit.length ∧
        (∀ i : Nat, ((f0.addAll before).clear).bit.getD i 0 = 0) ∧
        (f0.addAll before).clear = f0 ∧
        (∀ k : Int, ((f0.addAll before).clear).sum k = 0) ∧
        ∀ (after : List (Int × Int)) (k : Int),
          (((f0.addAll before).clear).addAll after).sum k = (f0.addAll after).sum k := by
  refine ⟨_, init_ok self n hn, ?_⟩
  intro before
  have hrep := represents_addAll _ [] before (represents_fresh n)
  have hn2 : (Fenwick.addAll ⟨n, List.replicate (n + 1).toNat 0⟩ before).n = n := addAll_n _ _
  have hlen := hrep.1
  have hclear := clear_of_length _ hlen
  rw [hn2] at hclear
  refine ⟨?_, ?_, ?_, hclear, ?_, ?_⟩
  · rw [hclear]
  · simp [Fenwick.clear]
  · intro i
    rw [hclear]
    simp only [List.getD_eq_getElem?_getD, List.getElem?_replicate]
    split <;> rfl
  · intro k
    rw [hclear, sum_spec _ [] (represents_fresh n), callTotal_nil, wrapInt_zero]
  · intro after k
    rw [hclear]

theorem C12_clear_witness :
    ∃ f0 : Fenwick, Fenwick.ctor.init 10 = .ok f0 ∧
      ∀ before : List (Int × Int),
        ((f0.addAll before).clear).n = 10 ∧
        ((f0.addAll before).clear).bit.length = (f0.addAll before).bit.length ∧
        (∀ i : Nat, ((f0.addAll before).clear).bit.getD i 0 = 0) ∧
        (f0.addAll before).clear = f0 ∧
        (∀ k : Int, ((f0.addAll before).clear).sum k = 0) ∧
        ∀ (after : List (Int × Int)) (k : Int),
          (((f0.addAll before).clear).addAll after).sum k = (f0.addAll after).sum k :=
  C12_clear Fenwick.ctor 10 (by decide)

/-! ## The descent of `insertEvent` -/

theorem subtree_null {α : Type} (p : List Bool) : KDNode.subtree (.null : KDNode α) p = .null := by
  induction p with
  | nil => rfl
  | cons d p ih => exact ih

theorem subtree_cons {α : Type} (t : KDNode α) (d : Bool) (p : List Bool) :
    KDNode.subtree t (d :: p) = KDNode.subtree (KDNode.child t d) p := rfl

section Descent

variable {α : Type} [LinearOrder α]

theorem insertEvent_eq (x y minX maxX minY maxY : α) (s : Bool) (l r : KDNode α)
    (fw : Fenwick) (e : Event α) :
    KDTree.insertEvent (.node x y minX maxX minY maxY s l r fw) e =
      .node x y (min minX e.x) (max maxX e.x) (min minY e.y) (max maxY e.y) s
        (if KDNode.goesRight (.node x y minX maxX minY maxY s l r fw) e = true then l
          else KDTree.insertEvent l e)
        (if KDNode.goesRight (.node x y minX maxX minY maxY s l r fw) e = true then
          KDTree.insertEvent r e else r)
        (fw.add e.time e.weight) := by
  cases s
  · by_cases h : e.y ≤ y <;>
      simp [KDTree.insertEvent, KDNode.goesRight, KDNode.updateBounds, h]
  · by_cases h : e.x ≤ x <;>
      simp [KDTree.insertEvent, KDNode.goesRight, KDNode.updateBounds, h]

theorem insertEvent_null (e : Event α) : KDTree.insertEvent (.null : KDNode α) e = .null := rfl

theorem shape_insertEvent (e : Event α) :
    ∀ t : KDNode α, (KDTree.insertEvent t e).shape = t.shape := by
  intro t
  induction t with
  | null => rfl
  | node x y minX maxX minY maxY s l r fw ihl ihr =>
    rw [insertEvent_eq]
    cases h : KDNode.goesRight (.node x y minX maxX minY maxY s l r fw) e <;>
      simp [KDNode.shape, ihl, ihr]

theorem isNull_insertEvent (e : Event α) (t : KDNode α) :
    (KDTree.insertEvent t e).isNull = t.isNull := by
  cases t with
  | null => rfl
  | node x y minX maxX minY maxY s l r fw => rw [insertEvent_eq]; rfl

theorem goesRight_insertEvent (e e2 : Event α) (t : KDNode α) :
    KDNode.goesRight (KDTree.insertEvent t e2) e = KDNode.goesRight t e := by
  cases t with
  | null => rfl
  | node x y minX maxX minY maxY s l r fw => rw [insertEvent_eq]; rfl

theorem child_insertEvent (e : Event α) (t : KDNode α) (d : Bool) :
    KDNode.child (KDTree.insertEvent t e) d =
      if KDNode.goesRight t e = d then KDTree.insertEvent (KDNode.child t d) e
      else KDNode.child t d := by
  cases t with
  | null => simp [insertEvent_null, KDNode.child]
  | node x y minX maxX minY maxY s l r fw =>
    rw [insertEvent_eq]
    cases d <;>
      cases h : KDNode.goesRight (.node x y minX maxX minY maxY s l r fw) e <;>
      simp [KDNode.child]

/-- Other insertions do not change where an event descends. -/
theorem visits_insertEvent (e e2 : Event α) :
    ∀ (p : List Bool) (t : KDNode α),
      KDNode.visits e (KDTree.insertEvent t e2) p = KDNode.visits e t p := by
  intro p
  induction p with
  | nil => intro t; simp [KDNode.visits, isNull_insertEvent]
  | cons d p ih =>
    intro t
    simp only [KDNode.visits, isNull_insertEvent, goesRight_insertEvent, child_insertEvent]
    by_cases h : KDNode.goesRight t e2 = d
    · rw [if_pos h, ih]
    · rw [if_neg h]

/-- At a node the descent reaches, the insertion continues as `insertEvent` of
that node. -/
theorem subtree_insertEvent_of_visits (e : Event α) :
    ∀ (p : List Bool) (t : KDNode α), KDNode.visits e t p = true →
      KDNode.subtree (KDTree.insertEvent t e) p = KDTree.insertEvent (KDNode.subtree t p) e := by
  intro p
  induction p with
  | nil => intro t _; rfl
  | cons d p ih =>
    intro t h
    simp only [KDNode.visits, Bool.and_eq_true, beq_iff_eq] at h
    obtain ⟨⟨_, hd⟩, hv⟩ := h
    rw [subtree_cons, subtree_cons, child_insertEvent, if_pos hd, ih _ hv]

/-- A subtree the descent does not reach is left as it was. -/
theorem subtree_insertEvent_of_not_visits (e : Event α) :
    ∀ (p : List Bool) (t : KDNode α), KDNode.visits e t p = false →
      KDNode.subtree (KDTree.insertEvent t e) p = KDNode.subtree t p := by
  intro p
  induction p with
  | nil =>
    intro t h
    cases t with
    | null => rfl
    | node x y minX maxX minY maxY s l r fw => simp [KDNode.visits, KDNode.isNull] at h
  | cons d p ih =>
    intro t h
    cases t with
    | null => rw [insertEvent_null]
    | node x y minX maxX minY maxY s l r fw =>
      rw [subtree_cons, subtree_cons, child_insertEvent]
      by_cases hd : KDNode.goesRight (.node x y minX maxX minY maxY s l r fw) e = d
      · rw [if_pos hd]
        apply ih
        simpa [KDNode.visits, KDNode.isNull, hd] using h
      · rw [if_neg hd]

theorem visits_subtree_ne_null (e : Event α) :
    ∀ (p : List Bool) (t : KDNode α), KDNode.visits e t p = true →
      (KDNode.subtree t p).isNull = false := by
  intro p
  induction p with
  | nil => intro t h; simpa [KDNode.visits] using h
  | cons d p ih =>
    intro t h
    simp only [KDNode.visits, Bool.and_eq_true] at h
    exact ih _ h.2

end Descent

/-! ## Effect of insertions on single nodes -/

theorem all_child {α : Type} (P : KDNode α → Prop) (t : KDNode α) (d : Bool)
    (h : KDNode.All P t) : KDNode.All P (KDNode.child t d) := by
  cases t with
  | null => exact trivial
  | node x y minX maxX minY maxY s l r fw =>
    cases d
    · exact h.2.1
    · exact h.2.2

theorem all_subtree {α : Type} (P : KDNode α → Prop) :
    ∀ (p : List Bool) (t : KDNode α), KDNode.All P t → KDNode.All P (KDNode.subtree t p) := by
  intro p
  induction p with
  | nil => intro t h; exact h
  | cons d p ih => intro t h; exact ih _ (all_child P t d h)

theorem all_root {α : Type} (P : KDNode α → Prop) (x y minX maxX minY maxY : α) (s : Bool)
    (l r : KDNode α) (fw : Fenwick)
    (h : KDNode.All P (.node x y minX maxX minY maxY s l r fw)) :
    P (.node x y minX maxX minY maxY s l r fw) := h.1

section NodeEffects

variable {α : Type} [LinearOrder α]

theorem boxOf_insertEvent (e : Event α) (t : KDNode α) :
    (KDTree.insertEvent t e).boxOf =
      t.boxOf.map (fun b => (min b.1 e.x, max b.2.1 e.x, min b.2.2.1 e.y, max b.2.2.2 e.y)) := by
  cases t with
  | null => rfl
  | node x y minX maxX minY maxY s l r fw => rw [insertEvent_eq]; rfl

end NodeEffects

/-! ## `buildTree` works on its own sub-range only -/

theorem sortRange_append {α : Type}
    (sort : (Event α → Event α → Bool) → List (Event α) → List (Event α))
    (cmp : Event α → Event α → Bool) (A sl C : List (Event α)) :
    sortRange sort cmp (A ++ sl ++ C) A.length (A.length + sl.length) =
      A ++ sort cmp sl ++ C := by
  unfold sortRange
  have h1 : (A ++ sl ++ C).take A.length = A := by
    rw [List.append_assoc, List.take_left']
    rfl
  have h2 : (A ++ sl ++ C).drop A.length = sl ++ C := by
    rw [List.append_assoc, List.drop_left']
    rfl
  have h3 : (sl ++ C).take (A.length + sl.length - A.length) = sl := by
    have : A.length + sl.length - A.length = sl.length := by omega
    rw [this, List.take_left']
    rfl
  have h4 : (A ++ sl ++ C).drop (A.length + sl.length) = C := by
    have : A.length + sl.length = (A ++ sl).length := by simp
    rw [this, List.drop_left']
    rfl
  rw [h1, h2, h3, h4]

section Slices

variable {α : Type} [LinearOrder α]

theorem sortedSlice_perm (sort : (Event α → Event α → Bool) → List (Event α) → List (Event α))
    (hsort : IsStdSort sort) (l : List (Event α)) (depth : Int) :
    (KDTree.sortedSlice sort l depth).Perm l := by
  unfold KDTree.sortedSlice
  split
  · exact (hsort Event.x l).1
  · exact (hsort Event.y l).1

theorem sortedPoints_append (sort : (Event α → Event α → Bool) → List (Event α) → List (Event α))
    (A sl C : List (Event α)) (depth : Int) (hne : sl ≠ []) :
    KDTree.sortedPoints sort (A ++ sl ++ C) A.length ((A.length : Int) + sl.length - 1) depth =
      A ++ KDTree.sortedSlice sort sl depth ++ C := by
  have hpos : 0 < sl.length := List.length_pos.mpr hne
  have h1 : ((A.length : Int)).toNat = A.length := by omega
  have h2 : ((A.length : Int) + sl.length - 1 + 1).toNat = A.length + sl.length := by omega
  unfold KDTree.sortedPoints KDTree.sortedSlice
  rw [h1, h2]
  split
  · exact sortRange_append sort _ A sl C
  · exact sortRange_append sort _ A sl C

/-- Induction over the recursion of `buildTree`, by sub-ranges.  A call on the
range that holds the elements `sl` (between a prefix `A` and a suffix `C` of the
vector) returns a subtree determined by `sl` alone, and a vector in which only
that range has been permuted. -/
theorem buildTree_slices (sort : (Event α → Event α → Bool) → List (Event α) → List (Event α))
    (hsort : IsStdSort sort) (maxTime : Int) (P : List (Event α) → Int → KDNode α → Prop)
    (hnull : ∀ d : Int, P [] d .null)
    (hnode : ∀ (l : List (Event α)) (d : Int) (p : Event α) (node tl tr : KDNode α),
      l ≠ [] → (KDTree.sortedSlice sort l d)[(l.length - 1) / 2]? = some p →
      KDNode.ctor p.x p.y (decide (Int.tmod d 2 = 0)) maxTime = .ok node →
      P ((KDTree.sortedSlice sort l d).take ((l.length - 1) / 2)) (d + 1) tl →
      P ((KDTree.sortedSlice sort l d).drop ((l.length - 1) / 2 + 1)) (d + 1) tr →
      P l d ((((node.setLeft tl).setRight tr).includeChild tl).includeChild tr)) :
    ∀ (fuel : Nat) (A sl C : List (Event α)) (depth : Int) (t : KDNode α)
      (pts : List (Event α)),
      KDTree.buildTree sort maxTime fuel (A ++ sl ++ C) A.length
        ((A.length : Int) + sl.length - 1) depth = .ok (t, pts) →
      P sl depth t ∧ ∃ M : List (Event α), M.Perm sl ∧ pts = A ++ M ++ C := by
  intro fuel
  induction fuel with
  | zero =>
    intro A sl C depth t pts h
    simp [KDTree.buildTree] at h
  | succ fuel ih =>
    intro A sl C depth t pts h
    rcases buildTree_inv sort maxTime fuel _ _ _ depth t pts h with
      ⟨h1, rfl, rfl⟩ | ⟨h1, _, _, p, node, tl, tr, pts1, hp, hnode2, hl, hr, rfl⟩
    · have hsl : sl = [] := List.length_eq_zero.mp (by omega)
      subst hsl
      exact ⟨hnull depth, [], List.Perm.refl _, rfl⟩
    · have hne : sl ≠ [] := by
        intro hsl
        subst hsl
        simp at h1
      have hpos : 0 < sl.length := List.length_pos.mpr hne
      have hS := sortedSlice_perm sort hsort sl depth
      have hSlen := hS.length_eq
      rw [sortedPoints_append sort A sl C depth hne] at hp hl
      have hmid : KDTree.midIndex (A.length : Int) ((A.length : Int) + sl.length - 1) =
          (A.length : Int) + ((sl.length - 1) / 2 : Nat) := by
        rw [midIndex_eq _ _ (by omega)]
        omega
      have hm : (sl.length - 1) / 2 < (KDTree.sortedSlice sort sl depth).length := by omega
      rw [hmid] at hp hl hr
      have hidx : ((A.length : Int) + ((sl.length - 1) / 2 : Nat)).toNat =
          A.length + (sl.length - 1) / 2 := by omega
      rw [hidx, List.append_assoc, List.getElem?_append_right (by omega)] at hp
      have hsub : A.length + (sl.length - 1) / 2 - A.length = (sl.length - 1) / 2 := by omega
      rw [hsub, List.getElem?_append_left hm] at hp
      have hdrop : (KDTree.sortedSlice sort sl depth).drop ((sl.length - 1) / 2) =
          p :: (KDTree.sortedSlice sort sl depth).drop ((sl.length - 1) / 2 + 1) := by
        rw [List.getElem?_eq_some] at hp
        obtain ⟨hlt, hget⟩ := hp
        rw [← hget]
        exact List.drop_eq_getElem_cons hlt
      -- the left recursive call
      have htake_len : ((KDTree.sortedSlice sort sl depth).take ((sl.length - 1) / 2)).length =
          (sl.length - 1) / 2 := by
        rw [List.length_take]
        omega
      have e1 : A ++ KDTree.sortedSlice sort sl depth ++ C =
          A ++ (KDTree.sortedSlice sort sl depth).take ((sl.length - 1) / 2) ++
            ((KDTree.sortedSlice sort sl depth).drop ((sl.length - 1) / 2) ++ C) := by
        conv_lhs => rw [← List.take_append_drop ((sl.length - 1) / 2)
          (KDTree.sortedSlice sort sl depth)]
        simp only [List.append_assoc]
      have e2 : (A.length : Int) + ((sl.length - 1) / 2 : Nat) - 1 =
          (A.length : Int) +
            ((KDTree.sortedSlice sort sl depth).take ((sl.length - 1) / 2)).length - 1 := by
        rw [htake_len]
      rw [e1, e2] at hl
      obtain ⟨hPl, M1, hM1, hpts1⟩ := ih _ _ _ _ _ _ hl
      -- the right recursive call
      have hM1len : M1.length = (sl.length - 1) / 2 := by
        rw [hM1.length_eq, htake_len]
      have e3 : pts1 = (A ++ M1 ++ [p]) ++
          (KDTree.sortedSlice sort sl depth).drop ((sl.length - 1) / 2 + 1) ++ C := by
        rw [hpts1, hdrop]
        simp
      have hdrop_len : ((KDTree.sortedSlice sort sl depth).drop ((sl.length - 1) / 2 + 1)).length
          = sl.length - ((sl.length - 1) / 2 + 1) := by
        rw [List.length_drop, hSlen]
      have e4 : (A.length : Int) + ((sl.length - 1) / 2 : Nat) + 1 =
          ((A ++ M1 ++ [p]).length : Int) := by
        simp only [List.length_append, List.length_singleton, hM1len]
        push_cast
        ring
      have e5 : (A.length : Int) + sl.length - 1 = ((A ++ M1 ++ [p]).length : Int) +
          ((KDTree.sortedSlice sort sl depth).drop ((sl.length - 1) / 2 + 1)).length - 1 := by
        rw [hdrop_len]
        simp only [List.length_append, List.length_singleton, hM1len]
        omega
      rw [e3, e4, e5] at hr
      obtain ⟨hPr, M2, hM2, hpts⟩ := ih _ _ _ _ _ _ hr
      refine ⟨hnode sl depth p node tl tr hne hp hnode2 hPl hPr, M1 ++ [p] ++ M2, ?_, ?_⟩
      · have hsplit : KDTree.sortedSlice sort sl depth =
            (KDTree.sortedSlice sort sl depth).take ((sl.length - 1) / 2) ++ [p] ++
              (KDTree.sortedSlice sort sl depth).drop ((sl.length - 1) / 2 + 1) := by
          conv_lhs => rw [← List.take_append_drop ((sl.length - 1) / 2)
            (KDTree.sortedSlice sort sl depth), hdrop]
          simp
        refine List.Perm.trans ?_ hS
        rw [hsplit]
        exact (hM1.append (List.Perm.refl [p])).append hM2
      · rw [hpts]
        simp

/-- The principle of `buildTree_slices` for a whole `build`. -/
theorem build_slices (sort : (Event α → Event α → Bool) → List (Event α) → List (Event α))
    (hsort : IsStdSort sort) (P : List (Event α) → Int → KDNode α → Prop)
    (t t2 : KDTree α) (events ev : List (Event α))
    (hnull : ∀ d : Int, P [] d .null)
    (hnode : ∀ (l : List (Event α)) (d : Int) (p : Event α) (node tl tr : KDNode α),
      l ≠ [] → (KDTree.sortedSlice sort l d)[(l.length - 1) / 2]? = some p →
      KDNode.ctor p.x p.y (decide (Int.tmod d 2 = 0)) t.maxTime = .ok node →
      P ((KDTree.sortedSlice sort l d).take ((l.length - 1) / 2)) (d + 1) tl →
      P ((KDTree.sortedSlice sort l d).drop ((l.length - 1) / 2 + 1)) (d + 1) tr →
      P l d ((((node.setLeft tl).setRight tr).includeChild tl).includeChild tr))
    (hne : events ≠ []) (hb : KDTree.build sort t events = .ok (t2, ev)) :
    P events 0 t2.root ∧ ev.Perm events := by
  rcases build_ok_inv sort t t2 events ev hb with ⟨h, _, _⟩ | ⟨_, _, hbt⟩
  · exact absurd h hne
  · have e1 : events = [] ++ events ++ [] := by simp
    have e2 : (0 : Int) = (([] : List (Event α)).length : Int) := by simp
    have e3 : (events.length : Int) - 1 =
        (([] : List (Event α)).length : Int) + events.length - 1 := by simp
    rw [e3] at hbt
    conv at hbt =>
      lhs
      rw [e1]
    rw [e2] at hbt
    obtain ⟨hP, M, hM, hpts⟩ := buildTree_slices sort hsort t.maxTime P hnull hnode _ [] events []
      0 t2.root ev (by simpa using hbt)
    refine ⟨hP, ?_⟩
    rw [hpts]
    simpa using hM

end Slices

/-! ## The node that one level of `buildTree` assembles -/

/-- A tree split at the median on every level has height at most
`floor(log2 n) + 1`, stated as `2 ^ height <= 2 * n` (and `1` for the empty tree). -/
theorem height_of_medianSplit {α : Type} :
    ∀ t : KDNode α, KDNode.All KDNode.MedianSplit t → 2 ^ t.height ≤ max 1 (2 * t.size) := by
  intro t
  induction t with
  | null => intro _; simp [KDNode.height]
  | node x y minX maxX minY maxY s l r fw ihl ihr =>
    intro h
    obtain ⟨⟨h1, h2⟩, hl, hr⟩ := h
    have hl2 := ihl hl
    have hr2 := ihr hr
    simp only [KDNode.height, KDNode.size]
    rw [pow_succ]
    have hmax : 2 ^ max l.height r.height = max (2 ^ l.height) (2 ^ r.height) := by
      rcases le_total l.height r.height with h3 | h3
      · rw [max_eq_right h3, max_eq_right (Nat.pow_le_pow_right (by decide) h3)]
      · rw [max_eq_left h3, max_eq_left (Nat.pow_le_pow_right (by decide) h3)]
    rw [hmax]
    have k1 : 2 ^ l.height ≤ l.size + 1 + r.size := by
      rcases le_max_iff.mp hl2 with h3 | h3 <;> omega
    have k2 : 2 ^ r.height ≤ l.size + 1 + r.size := by
      rcases le_max_iff.mp hr2 with h3 | h3 <;> omega
    have k3 : max (2 ^ l.height) (2 ^ r.height) ≤ l.size + 1 + r.size := max_le k1 k2
    have k4 : 2 * (l.size + 1 + r.size) ≤ max 1 (2 * (l.size + 1 + r.size)) := le_max_right _ _
    omega

section Assemble

variable {α : Type} [LinearOrder α]

theorem assemble_eq (x y : α) (s : Bool) (maxTime : Int) (node tl tr : KDNode α)
    (h : KDNode.ctor x y s maxTime = .ok node) :
    (((node.setLeft tl).setRight tr).includeChild tl).includeChild tr =
      .node x y
        (KDNode.joinBox (KDNode.joinBox (x, x, y, y) tl.boxOf) tr.boxOf).1
        (KDNode.joinBox (KDNode.joinBox (x, x, y, y) tl.boxOf) tr.boxOf).2.1
        (KDNode.joinBox (KDNode.joinBox (x, x, y, y) tl.boxOf) tr.boxOf).2.2.1
        (KDNode.joinBox (KDNode.joinBox (x, x, y, y) tl.boxOf) tr.boxOf).2.2.2
        s tl tr ⟨maxTime, List.replicate (maxTime + 1).toNat 0⟩ := by
  rw [ctor_ok_iff] at h
  obtain ⟨_, rfl⟩ := h
  cases tl <;> cases tr <;> rfl

theorem buildTree_nodes_step (sort : (Event α → Event α → Bool) → List (Event α) → List (Event α))
    (hsort : IsStdSort sort) (maxTime : Int)
    (l : List (Event α)) (d : Int) (p : Event α) (node tl tr : KDNode α)
    (hne : l ≠ []) (_hp : (KDTree.sortedSlice sort l d)[(l.length - 1) / 2]? = some p)
    (hnode : KDNode.ctor p.x p.y (decide (Int.tmod d 2 = 0)) maxTime = .ok node)
    (hl : tl.size = ((KDTree.sortedSlice sort l d).take ((l.length - 1) / 2)).length ∧
      KDNode.All KDNode.MedianSplit tl)
    (hr : tr.size = ((KDTree.sortedSlice sort l d).drop ((l.length - 1) / 2 + 1)).length ∧
      KDNode.All KDNode.MedianSplit tr) :
    ((((node.setLeft tl).setRight tr).includeChild tl).includeChild tr).size = l.length ∧
      KDNode.All KDNode.MedianSplit
        ((((node.setLeft tl).setRight tr).includeChild tl).includeChild tr) := by
  have hpos : 0 < l.length := List.length_pos.mpr hne
  have hlen := (sortedSlice_perm sort hsort l d).length_eq
  rw [assemble_eq p.x p.y _ maxTime node tl tr hnode]
  have h1 : tl.size = (l.length - 1) / 2 := by
    rw [hl.1, List.length_take]
    omega
  have h2 : tr.size = l.length - ((l.length - 1) / 2 + 1) := by
    rw [hr.1, List.length_drop, hlen]
  refine ⟨?_, ⟨?_, ?_⟩, hl.2, hr.2⟩
  · simp only [KDNode.size]
    omega
  · omega
  · omega

theorem build_lengthError (sort : (Event α → Event α → Bool) → List (Event α) → List (Event α))
    (hsort : IsStdSort sort) (t : KDTree α) (events : List (Event α)) (hne : events ≠ [])
    (hmt : t.maxTime < -1) : KDTree.build sort t events = .error .lengthError := by
  cases events with
  | nil => exact absurd rfl hne
  | cons e es =>
    rw [build_cons, buildTree_step]
    have h1 : ¬ ((0 : Int) > ((e :: es).length : Int) - 1) := by
      simp only [List.length_cons]
      omega
    have h2 : ¬ ((0 : Int) < 0 ∨ ((e :: es).length : Int) ≤ ((e :: es).length : Int) - 1) := by
      omega
    rw [if_neg h1, if_neg h2]
    have hperm := sortedPoints_perm sort hsort (e :: es) 0 (((e :: es).length : Int) - 1) 0
      (le_refl 0) (by simp only [List.length_cons]; omega)
    have hmid := midIndex_bounds 0 (((e :: es).length : Int) - 1)
      (by simp only [List.length_cons]; omega)
    have hget : (KDTree.midIndex 0 (((e :: es).length : Int) - 1)).toNat <
        (KDTree.sortedPoints sort (e :: es) 0 (((e :: es).length : Int) - 1) 0).length := by
      rw [hperm.length_eq]
      omega
    rw [List.getElem?_eq_getElem hget]
    simp only []
    have hc : ∀ (x y : α) (s : Bool), KDNode.ctor x y s t.maxTime = .error .lengthError := by
      intro x y s
      unfold KDNode.ctor
      rw [init_error _ _ hmt]
    rw [hc]

end Assemble

/-! ## Bounding boxes assembled by `buildTree` -/

section Boxes

variable {α : Type} [LinearOrder α]

theorem boxContains_refl (b : α × α × α × α) : KDNode.BoxContains b b :=
  ⟨le_refl _, le_refl _, le_refl _, le_refl _⟩

theorem boxContains_trans (a b c : α × α × α × α) (h1 : KDNode.BoxContains a b)
    (h2 : KDNode.BoxContains b c) : KDNode.BoxContains a c :=
  ⟨le_trans h1.1 h2.1, le_trans h2.2.1 h1.2.1, le_trans h1.2.2.1 h2.2.2.1,
    le_trans h2.2.2.2 h1.2.2.2⟩

theorem unionBox_contains_left (b : α × α × α × α) (o : Option (α × α × α × α)) :
    KDNode.BoxContains (KDNode.unionBox b o) b := by
  cases o with
  | none => exact boxContains_refl b
  | some c => exact ⟨min_le_left _ _, le_max_left _ _, min_le_left _ _, le_max_left _ _⟩

theorem unionBox_contains_right (b c : α × α × α × α) :
    KDNode.BoxContains (KDNode.unionBox b (some c)) c :=
  ⟨min_le_right _ _, le_max_right _ _, min_le_right _ _, le_max_right _ _⟩

theorem joinBox_eq_unionBox (b : α × α × α × α) (o : Option (α × α × α × α))
    (hwf : ∀ c, o = some c → c.1 ≤ c.2.1 ∧ c.2.2.1 ≤ c.2.2.2) :
    KDNode.joinBox b o = KDNode.unionBox b o := by
  cases o with
  | none => rfl
  | some c =>
    obtain ⟨h1, h2⟩ := hwf c rfl
    simp only [KDNode.joinBox, KDNode.unionBox]
    have e1 : min (min b.1 c.1) c.2.1 = min b.1 c.1 :=
      min_eq_left (le_trans (min_le_right _ _) h1)
    have e2 : max (max b.2.1 c.1) c.2.1 = max b.2.1 c.2.1 := by
      rw [max_assoc, max_eq_right h1]
    have e3 : min (min b.2.2.1 c.2.2.1) c.2.2.2 = min b.2.2.1 c.2.2.1 :=
      min_eq_left (le_trans (min_le_right _ _) h2)
    have e4 : max (max b.2.2.2 c.2.2.1) c.2.2.2 = max b.2.2.2 c.2.2.2 := by
      rw [max_assoc, max_eq_right h2]
    rw [e1, e2, e3, e4]

theorem box_wf_of_nested (t : KDNode α) (h : KDNode.NestedBox t) :
    ∀ c, t.boxOf = some c → c.1 ≤ c.2.1 ∧ c.2.2.1 ≤ c.2.2.2 := by
  intro c hc
  cases t with
  | null => cases hc
  | node x y minX maxX minY maxY s l r fw =>
    simp only [KDNode.boxOf, Option.some.injEq] at hc
    subst hc
    obtain ⟨⟨h1, h2, h3, h4⟩, _, _⟩ := h
    exact ⟨le_trans h1 h2, le_trans h3 h4⟩

theorem all_node {α : Type} (P : KDNode α → Prop) (t : KDNode α) (hnull : P .null)
    (h : KDNode.All P t) : P t := by
  cases t with
  | null => exact hnull
  | node x y minX maxX minY maxY s l r fw => exact h.1

/-- One level of `buildTree` yields a node whose box is the least rectangle around
its point and its children's boxes, provided the children's boxes are such. -/
theorem assemble_tight (x y : α) (s : Bool) (maxTime : Int) (node tl tr : KDNode α)
    (hnode : KDNode.ctor x y s maxTime = .ok node)
    (hl : KDNode.NestedBox tl) (hr : KDNode.NestedBox tr) :
    KDNode.TightBox ((((node.setLeft tl).setRight tr).includeChild tl).includeChild tr) ∧
    KDNode.NestedBox ((((node.setLeft tl).setRight tr).includeChild tl).includeChild tr) ∧
    KDNode.LeafBox ((((node.setLeft tl).setRight tr).includeChild tl).includeChild tr) := by
  rw [assemble_eq x y s maxTime node tl tr hnode]
  have e1 := joinBox_eq_unionBox (x, x, y, y) tl.boxOf (box_wf_of_nested tl hl)
  have e2 := joinBox_eq_unionBox (KDNode.unionBox (x, x, y, y) tl.boxOf) tr.boxOf
    (box_wf_of_nested tr hr)
  rw [e1, e2]
  have hown : KDNode.BoxContains
      (KDNode.unionBox (KDNode.unionBox (x, x, y, y) tl.boxOf) tr.boxOf) (x, x, y, y) :=
    boxContains_trans _ _ _ (unionBox_contains_left _ _) (unionBox_contains_left _ _)
  refine ⟨rfl, ⟨⟨hown.1, hown.2.1, hown.2.2.1, hown.2.2.2⟩, ?_, ?_⟩, ?_⟩
  · intro b hb
    rw [hb]
    exact boxContains_trans _ _ _ (unionBox_contains_left _ _) (unionBox_contains_right _ _)
  · intro b hb
    rw [hb]
    exact unionBox_contains_right _ _
  · cases tl <;> cases tr <;> simp [KDNode.LeafBox, KDNode.boxOf, KDNode.unionBox]

theorem buildTree_tight (sort : (Event α → Event α → Bool) → List (Event α) → List (Event α))
    (hsort : IsStdSort sort) (maxTime : Int) (fuel : Nat) (points : List (Event α))
    (start end_ depth : Int) (t : KDNode α) (pts : List (Event α))
    (h : KDTree.buildTree sort maxTime fuel points start end_ depth = .ok (t, pts)) :
    KDNode.All (fun n => KDNode.TightBox n ∧ KDNode.NestedBox n ∧ KDNode.LeafBox n) t := by
  refine (buildTree_all sort hsort maxTime
    (fun n => KDNode.TightBox n ∧ KDNode.NestedBox n ∧ KDNode.LeafBox n) (fun _ => True) ?_
    fuel points start end_ depth t pts (fun _ _ => trivial) h).2
  intro p s node l r _ hnode hl hr
  have hl2 := all_node _ l ⟨trivial, trivial, trivial⟩ hl
  have hr2 := all_node _ r ⟨trivial, trivial, trivial⟩ hr
  exact assemble_tight p.x p.y s maxTime node l r hnode hl2.2.1 hr2.2.1

theorem all_imp {α : Type} (P Q : KDNode α → Prop) (hPQ : ∀ n, P n → Q n) :
    ∀ t : KDNode α, KDNode.All P t → KDNode.All Q t := by
  intro t
  induction t with
  | null => intro _; exact trivial
  | node x y minX maxX minY maxY s l r fw ihl ihr =>
    intro h
    exact ⟨hPQ _ h.1, ihl h.2.1, ihr h.2.2⟩

end Boxes

/-! ## Axes, points and partition order assembled by `buildTree` -/

theorem axisAlternates_subtree {α : Type} :
    ∀ (p : List Bool) (d : Nat) (t : KDNode α), KDNode.AxisAlternates d t →
      KDNode.AxisAlternates (d + p.length) (KDNode.subtree t p) := by
  intro p
  induction p with
  | nil => intro d t h; exact h
  | cons b p ih =>
    intro d t h
    rw [subtree_cons]
    have e : d + (b :: p).length = (d + 1) + p.length := by
      simp only [List.length_cons]
      omega
    rw [e]
    apply ih
    cases t with
    | null => exact trivial
    | node x y minX maxX minY maxY s l r fw =>
      cases b
      · exact h.2.1
      · exact h.2.2

theorem axisOf_of_alternates {α : Type} (d : Nat) (t : KDNode α) (s : Bool)
    (h : KDNode.AxisAlternates d t) (hs : t.axisOf = some s) : (s = true ↔ d % 2 = 0) := by
  cases t with
  | null => cases hs
  | node x y minX maxX minY maxY s2 l r fw =>
    simp only [KDNode.axisOf, Option.some.injEq] at hs
    subst hs
    exact h.1

theorem isBoxOf_single {α : Type} [LinearOrder α] (p : Event α) :
    KDNode.IsBoxOf (p.x, p.x, p.y, p.y) [p] := by
  refine ⟨?_, ⟨p, List.mem_singleton_self p, rfl⟩, ⟨p, List.mem_singleton_self p, rfl⟩,
    ⟨p, List.mem_singleton_self p, rfl⟩, ⟨p, List.mem_singleton_self p, rfl⟩⟩
  intro q hq
  rw [List.mem_singleton] at hq
  subst hq
  exact ⟨le_refl _, le_refl _, le_refl _, le_refl _⟩

theorem isBoxOf_congr {α : Type} [LinearOrder α] (b : α × α × α × α) (l1 l2 : List (Event α))
    (hmem : ∀ q, q ∈ l1 ↔ q ∈ l2) (h : KDNode.IsBoxOf b l1) : KDNode.IsBoxOf b l2 := by
  obtain ⟨h0, ⟨p1, m1, e1⟩, ⟨p2, m2, e2⟩, ⟨p3, m3, e3⟩, ⟨p4, m4, e4⟩⟩ := h
  exact ⟨fun q hq => h0 q ((hmem q).mpr hq), ⟨p1, (hmem p1).mp m1, e1⟩,
    ⟨p2, (hmem p2).mp m2, e2⟩, ⟨p3, (hmem p3).mp m3, e3⟩, ⟨p4, (hmem p4).mp m4, e4⟩⟩

/-- Joining the box of the points `l1` with the box of a child built from the
points `l2` gives the box of `l1 ++ l2`. -/
theorem isBoxOf_join {α : Type} [LinearOrder α] (b : α × α × α × α) (l1 l2 : List (Event α))
    (t : KDNode α) (hb : KDNode.IsBoxOf b l1) (ht : KDNode.BoxOfPoints l2 t) :
    KDNode.IsBoxOf (KDNode.joinBox b t.boxOf) (l1 ++ l2) := by
  cases t with
  | null =>
    have h2 : l2 = [] := ht
    subst h2
    simpa [KDNode.boxOf, KDNode.joinBox] using hb
  | node x y minX maxX minY maxY s l r fw =>
    have hc : KDNode.IsBoxOf (minX, maxX, minY, maxY) l2 := ht
    obtain ⟨b0, ⟨p1, m1, e1⟩, ⟨p2, m2, e2⟩, ⟨p3, m3, e3⟩, ⟨p4, m4, e4⟩⟩ := hb
    obtain ⟨c0, ⟨q1, n1, f1⟩, ⟨q2, n2, f2⟩, ⟨q3, n3, f3⟩, ⟨q4, n4, f4⟩⟩ := hc
    simp only at e1 e2 e3 e4 f1 f2 f3 f4
    simp only [KDNode.boxOf, KDNode.joinBox]
    refine ⟨?_, ?_, ?_, ?_, ?_⟩
    · intro q hq
      rcases List.mem_append.mp hq with hq | hq
      · obtain ⟨g1, g2, g3, g4⟩ := b0 q hq
        exact ⟨le_trans (min_le_left _ _) (le_trans (min_le_left _ _) g1),
          le_trans g2 (le_trans (le_max_left _ _) (le_max_left _ _)),
          le_trans (min_le_left _ _) (le_trans (min_le_left _ _) g3),
          le_trans g4 (le_trans (le_max_left _ _) (le_max_left _ _))⟩
      · obtain ⟨g1, g2, g3, g4⟩ := c0 q hq
        exact ⟨le_trans (min_le_left _ _) (le_trans (min_le_right _ _) g1),
          le_trans g2 (le_max_right _ _),
          le_trans (min_le_left _ _) (le_trans (min_le_right _ _) g3),
          le_trans g4 (le_max_right _ _)⟩
    · rcases min_choice (min b.1 minX) maxX with h | h
      · rcases min_choice b.1 minX with h2 | h2
        · exact ⟨p1, List.mem_append_left _ m1, by rw [h, h2]; exact e1⟩
        · exact ⟨q1, List.mem_append_right _ n1, by rw [h, h2]; exact f1⟩
      · exact ⟨q2, List.mem_append_right _ n2, by rw [h]; exact f2⟩
    · rcases max_choice (max b.2.1 minX) maxX with h | h
      · rcases max_choice b.2.1 minX with h2 | h2
        · exact ⟨p2, List.mem_append_left _ m2, by rw [h, h2]; exact e2⟩
        · exact ⟨q1, List.mem_append_right _ n1, by rw [h, h2]; exact f1⟩
      · exact ⟨q2, List.mem_append_right _ n2, by rw [h]; exact f2⟩
    · rcases min_choice (min b.2.2.1 minY) maxY with h | h
      · rcases min_choice b.2.2.1 minY with h2 | h2
        · exact ⟨p3, List.mem_append_left _ m3, by rw [h, h2]; exact e3⟩
        · exact ⟨q3, List.mem_append_right _ n3, by rw [h, h2]; exact f3⟩
      · exact ⟨q4, List.mem_append_right _ n4, by rw [h]; exact f4⟩
    · rcases max_choice (max b.2.2.2 minY) maxY with h | h
      · rcases max_choice b.2.2.2 minY with h2 | h2
        · exact ⟨p4, List.mem_append_left _ m4, by rw [h, h2]; exact e4⟩
        · exact ⟨q3, List.mem_append_right _ n3, by rw [h, h2]; exact f3⟩
      · exact ⟨q4, List.mem_append_right _ n4, by rw [h]; exact f4⟩

section Levels

variable {α : Type} [LinearOrder α]

/-- The sorted sub-range splits around its median element. -/
theorem sortedSlice_split (sort : (Event α → Event α → Bool) → List (Event α) → List (Event α))
    (l : List (Event α)) (d : Int) (p : Event α)
    (hp : (KDTree.sortedSlice sort l d)[(l.length - 1) / 2]? = some p) :
    KDTree.sortedSlice sort l d =
      (KDTree.sortedSlice sort l d).take ((l.length - 1) / 2) ++
        p :: (KDTree.sortedSlice sort l d).drop ((l.length - 1) / 2 + 1) := by
  rw [List.getElem?_eq_some] at hp
  obtain ⟨hlt, hget⟩ := hp
  conv_lhs => rw [← List.take_append_drop ((l.length - 1) / 2) (KDTree.sortedSlice sort l d)]
  rw [List.drop_eq_getElem_cons hlt, hget]

theorem sortedSlice_pairwise (sort : (Event α → Event α → Bool) → List (Event α) → List (Event α))
    (hsort : IsStdSort sort) (l : List (Event α)) (d : Int) :
    (Int.tmod d 2 = 0 → (KDTree.sortedSlice sort l d).Pairwise (fun a b => a.x ≤ b.x)) ∧
    (¬ Int.tmod d 2 = 0 → (KDTree.sortedSlice sort l d).Pairwise (fun a b => a.y ≤ b.y)) := by
  unfold KDTree.sortedSlice
  constructor
  · intro h
    simp only [h, decide_True, if_true]
    exact (hsort Event.x l).2
  · intro h
    simp only [h, decide_False, Bool.false_eq_true, if_false]
    exact (hsort Event.y l).2

theorem buildTree_box_step (sort : (Event α → Event α → Bool) → List (Event α) → List (Event α))
    (hsort : IsStdSort sort) (maxTime : Int)
    (l : List (Event α)) (d : Int) (p : Event α) (node tl tr : KDNode α)
    (_hne : l ≠ []) (hp : (KDTree.sortedSlice sort l d)[(l.length - 1) / 2]? = some p)
    (hnode : KDNode.ctor p.x p.y (decide (Int.tmod d 2 = 0)) maxTime = .ok node)
    (hl : KDNode.BoxOfPoints ((KDTree.sortedSlice sort l d).take ((l.length - 1) / 2)) tl)
    (hr : KDNode.BoxOfPoints ((KDTree.sortedSlice sort l d).drop ((l.length - 1) / 2 + 1)) tr) :
    KDNode.BoxOfPoints l ((((node.setLeft tl).setRight tr).includeChild tl).includeChild tr) := by
  rw [assemble_eq p.x p.y _ maxTime node tl tr hnode]
  have h1 := isBoxOf_join _ _ _ tl (isBoxOf_single p) hl
  have h2 := isBoxOf_join _ _ _ tr h1 hr
  have hS := sortedSlice_perm sort hsort l d
  have hsplit := sortedSlice_split sort l d p hp
  refine isBoxOf_congr _ _ l ?_ h2
  intro q
  rw [← hS.mem_iff]
  conv_rhs => rw [hsplit]
  simp only [List.mem_append, List.mem_cons, List.mem_singleton, List.not_mem_nil, or_false]
  tauto

theorem buildTree_axis_step (maxTime : Int) (d : Int) (x y : α) (node tl tr : KDNode α)
    (hnode : KDNode.ctor x y (decide (Int.tmod d 2 = 0)) maxTime = .ok node)
    (hl : ∀ n : Nat, d + 1 = (n : Int) → KDNode.AxisAlternates n tl)
    (hr : ∀ n : Nat, d + 1 = (n : Int) → KDNode.AxisAlternates n tr) :
    ∀ n : Nat, d = (n : Int) →
      KDNode.AxisAlternates n
        ((((node.setLeft tl).setRight tr).includeChild tl).includeChild tr) := by
  intro n hn
  rw [assemble_eq x y _ maxTime node tl tr hnode]
  refine ⟨?_, hl (n + 1) (by omega), hr (n + 1) (by omega)⟩
  rw [decide_eq_true_iff, hn, Int.tmod_eq_emod (by omega) (by decide)]
  omega

theorem buildTree_partition_step
    (sort : (Event α → Event α → Bool) → List (Event α) → List (Event α))
    (hsort : IsStdSort sort) (maxTime : Int)
    (l : List (Event α)) (d : Int) (p : Event α) (node tl tr : KDNode α)
    (_hne : l ≠ []) (hp : (KDTree.sortedSlice sort l d)[(l.length - 1) / 2]? = some p)
    (hnode : KDNode.ctor p.x p.y (decide (Int.tmod d 2 = 0)) maxTime = .ok node)
    (hl : tl.points.Perm
        (((KDTree.sortedSlice sort l d).take ((l.length - 1) / 2)).map (fun e => (e.x, e.y))) ∧
      KDNode.All KDNode.Partitioned tl)
    (hr : tr.points.Perm
        (((KDTree.sortedSlice sort l d).drop ((l.length - 1) / 2 + 1)).map
          (fun e => (e.x, e.y))) ∧
      KDNode.All KDNode.Partitioned tr) :
    ((((node.setLeft tl).setRight tr).includeChild tl).includeChild tr).points.Perm
        (l.map (fun e => (e.x, e.y))) ∧
      KDNode.All KDNode.Partitioned
        ((((node.setLeft tl).setRight tr).includeChild tl).includeChild tr) := by
  rw [assemble_eq p.x p.y _ maxTime node tl tr hnode]
  have hS := sortedSlice_perm sort hsort l d
  have hsplit := sortedSlice_split sort l d p hp
  have hpw := sortedSlice_pairwise sort hsort l d
  constructor
  · simp only [KDNode.points]
    refine List.Perm.trans ?_ (hS.map _)
    conv_rhs => rw [hsplit]
    rw [List.map_append, List.map_cons]
    exact (List.Perm.cons _ (hl.1.append hr.1)).trans List.perm_middle.symm
  · refine ⟨?_, hl.2, hr.2⟩
    simp only [KDNode.Partitioned]
    by_cases hd : Int.tmod d 2 = 0
    · have hpair := hpw.1 hd
      rw [hsplit, List.pairwise_append, List.pairwise_cons] at hpair
      obtain ⟨_, ⟨hright, _⟩, hleft⟩ := hpair
      simp only [hd, decide_True, if_true]
      constructor
      · intro q hq
        obtain ⟨e, he, rfl⟩ := List.mem_map.mp (hl.1.mem_iff.mp hq)
        exact hleft e he p (List.mem_cons_self _ _)
      · intro q hq
        obtain ⟨e, he, rfl⟩ := List.mem_map.mp (hr.1.mem_iff.mp hq)
        exact hright e he
    · have hpair := hpw.2 hd
      rw [hsplit, List.pairwise_append, List.pairwise_cons] at hpair
      obtain ⟨_, ⟨hright, _⟩, hleft⟩ := hpair
      simp only [hd, decide_False, Bool.false_eq_true, if_false]
      constructor
      · intro q hq
        obtain ⟨e, he, rfl⟩ := List.mem_map.mp (hl.1.mem_iff.mp hq)
        exact hleft e he p (List.mem_cons_self _ _)
      · intro q hq
        obtain ⟨e, he, rfl⟩ := List.mem_map.mp (hr.1.mem_iff.mp hq)
        exact hright e he

theorem axisOf_subtree_insertEvent (e : Event α) (p : List Bool) (t : KDNode α) :
    (KDNode.subtree (KDTree.insertEvent t e) p).axisOf = (KDNode.subtree t p).axisOf := by
  cases hv : KDNode.visits e t p
  · rw [subtree_insertEvent_of_not_visits e p t hv]
  · rw [subtree_insertEvent_of_visits e p t hv]
    cases KDNode.subtree t p with
    | null => rfl
    | node x y minX maxX minY maxY s l r fw => rw [insertEvent_eq]; rfl

theorem axisOf_subtree_foldl (p : List Bool) (ins : List (Event α)) :
    ∀ t : KDNode α,
      (KDNode.subtree (ins.foldl KDTree.insertEvent t) p).axisOf = (KDNode.subtree t p).axisOf := by
  induction ins with
  | nil => intro t; rfl
  | cons e es ih => intro t; rw [List.foldl_cons, ih, axisOf_subtree_insertEvent]

end Levels

/-! ## Claims about insertion -/

section InsertClaims

variable {α : Type} [LinearOrder α]

theorem visits_unique (e : Event α) :
    ∀ (p q : List Bool) (t : KDNode α), KDNode.visits e t p = true →
      KDNode.visits e t q = true → p.length = q.length → p = q := by
  intro p
  induction p with
  | nil =>
    intro q t _ _ hlen
    cases q with
    | nil => rfl
    | cons d q => simp at hlen
  | cons d p ih =>
    intro q t hp hq hlen
    cases q with
    | nil => simp at hlen
    | cons d2 q =>
      simp only [KDNode.visits, Bool.and_eq_true, beq_iff_eq] at hp hq
      have hd : d = d2 := hp.1.2.symm.trans hq.1.2
      subst hd
      rw [ih q _ hp.2 hq.2 (by simpa using hlen)]

/-- C16: `insert(e)` never changes the shape of the tree (nodes, points, split
axes, child structure) nor `maxTime`; every subtree the descent of `e` does not
reach is left exactly as it was, so a node that is not on the descent path keeps
its bounding box and its temporal counters; and the nodes the descent reaches
form one path, at most one node per depth. -/
theorem C16_insert_frame (t : KDTree α) (e : Event α) :
    (t.insert e).root.shape = t.root.shape ∧
    (t.insert e).maxTime = t.maxTime ∧
    (∀ p : List Bool, KDNode.visits e t.root p = false →
      KDNode.subtree (t.insert e).root p = KDNode.subtree t.root p ∧
      (KDNode.subtree (t.insert e).root p).boxOf = (KDNode.subtree t.root p).boxOf ∧
      (KDNode.subtree (t.insert e).root p).fenwickOf = (KDNode.subtree t.root p).fenwickOf) ∧
    (∀ p : List Bool,
      (KDNode.subtree (t.insert e).root p).pointOf = (KDNode.subtree t.root p).pointOf ∧
      (KDNode.subtree (t.insert e).root p).axisOf = (KDNode.subtree t.root p).axisOf ∧
      (KDNode.subtree (t.insert e).root p).isNull = (KDNode.subtree t.root p).isNull) ∧
    (∀ p q : List Bool, KDNode.visits e t.root p = true → KDNode.visits e t.root q = true →
      p.length = q.length → p = q) := by
  refine ⟨shape_insertEvent e t.root, rfl, ?_, ?_, fun p q => visits_unique e p q t.root⟩
  · intro p hv
    have h : KDNode.subtree (t.insert e).root p = KDNode.subtree t.root p :=
      subtree_insertEvent_of_not_visits e p t.root hv
    exact ⟨h, by rw [h], by rw [h]⟩
  · intro p
    cases hv : KDNode.visits e t.root p
    · have h : KDNode.subtree (t.insert e).root p = KDNode.subtree t.root p :=
        subtree_insertEvent_of_not_visits e p t.root hv
      rw [h]
      exact ⟨rfl, rfl, rfl⟩
    · have h : KDNode.subtree (t.insert e).root p =
          KDTree.insertEvent (KDNode.subtree t.root p) e :=
        subtree_insertEvent_of_visits e p t.root hv
      rw [h]
      cases KDNode.subtree t.root p with
      | null => exact ⟨rfl, rfl, rfl⟩
      | node x y minX maxX minY maxY s l r fw =>
        rw [insertEvent_eq]
        exact ⟨rfl, rfl, rfl⟩

/-- C17: `insert(e)` only grows bounding boxes: for every node the box after the
insert contains the box before it, and for every node on the descent path of `e`
the box after the insert is the least rectangle containing the old box and
`(e.x, e.y)` (per-axis min and max), so it contains the event's point. -/
theorem C17_insert_grows_boxes (t : KDTree α) (e : Event α) (p : List Bool)
    (b : α × α × α × α) (hb : (KDNode.subtree t.root p).boxOf = some b) :
    ∃ b2 : α × α × α × α, (KDNode.subtree (t.insert e).root p).boxOf = some b2 ∧
      (b2.1 ≤ b.1 ∧ b.2.1 ≤ b2.2.1 ∧ b2.2.2.1 ≤ b.2.2.1 ∧ b.2.2.2 ≤ b2.2.2.2) ∧
      (KDNode.visits e t.root p = false → b2 = b) ∧
      (KDNode.visits e t.root p = true →
        b2 = (min b.1 e.x, max b.2.1 e.x, min b.2.2.1 e.y, max b.2.2.2 e.y) ∧
        b2.1 ≤ e.x ∧ e.x ≤ b2.2.1 ∧ b2.2.2.1 ≤ e.y ∧ e.y ≤ b2.2.2.2) := by
  cases hv : KDNode.visits e t.root p
  · have h : KDNode.subtree (t.insert e).root p = KDNode.subtree t.root p :=
      subtree_insertEvent_of_not_visits e p t.root hv
    refine ⟨b, by rw [h, hb], ⟨le_refl _, le_refl _, le_refl _, le_refl _⟩, fun _ => rfl, ?_⟩
    intro h2
    cases h2
  · have h : KDNode.subtree (t.insert e).root p =
        KDTree.insertEvent (KDNode.subtree t.root p) e :=
      subtree_insertEvent_of_visits e p t.root hv
    refine ⟨(min b.1 e.x, max b.2.1 e.x, min b.2.2.1 e.y, max b.2.2.2 e.y), ?_, ?_, ?_, ?_⟩
    · rw [h, boxOf_insertEvent, hb]
      rfl
    · exact ⟨min_le_left _ _, le_max_left _ _, min_le_left _ _, le_max_left _ _⟩
    · intro h2
      cases h2
    · intro _
      exact ⟨rfl, min_le_right _ _, le_max_right _ _, min_le_right _ _, le_max_right _ _⟩

theorem C17_insert_grows_boxes_witness :
    ∃ b2 : Int × Int × Int × Int,
      (KDNode.subtree ((KDTree.mk (.node 1 1 0 2 0 2 true .null .null Fenwick.ctor) 0).insert
        ⟨5, -3, 1, 1⟩).root []).boxOf = some b2 ∧
      (b2.1 ≤ (0, 2, 0, 2).1 ∧ (0, 2, 0, 2).2.1 ≤ b2.2.1 ∧ b2.2.2.1 ≤ (0, 2, 0, 2).2.2.1 ∧
        (0, 2, 0, 2).2.2.2 ≤ b2.2.2.2) ∧
      (KDNode.visits ⟨5, -3, 1, 1⟩
          (KDTree.mk (.node 1 1 0 2 0 2 true .null .null Fenwick.ctor) 0).root [] = false →
        b2 = (0, 2, 0, 2)) ∧
      (KDNode.visits ⟨5, -3, 1, 1⟩
          (KDTree.mk (.node 1 1 0 2 0 2 true .null .null Fenwick.ctor) 0).root [] = true →
        b2 = (min (0, 2, 0, 2).1 (Event.mk 5 (-3) 1 1 : Event Int).x,
              max (0, 2, 0, 2).2.1 (Event.mk 5 (-3) 1 1 : Event Int).x,
              min (0, 2, 0, 2).2.2.1 (Event.mk 5 (-3) 1 1 : Event Int).y,
              max (0, 2, 0, 2).2.2.2 (Event.mk 5 (-3) 1 1 : Event Int).y) ∧
        b2.1 ≤ (Event.mk 5 (-3) 1 1 : Event Int).x ∧
        (Event.mk 5 (-3) 1 1 : Event Int).x ≤ b2.2.1 ∧
        b2.2.2.1 ≤ (Event.mk 5 (-3) 1 1 : Event Int).y ∧
        (Event.mk 5 (-3) 1 1 : Event Int).y ≤ b2.2.2.2) :=
  C17_insert_grows_boxes (KDTree.mk (.node 1 1 0 2 0 2 true .null .null Fenwick.ctor) 0)
    ⟨5, -3, 1, 1⟩ [] (0, 2, 0, 2) rfl

end InsertClaims

/-! ## Claims about construction -/

section BuildClaims

variable {α : Type} [LinearOrder α]

/-- C18: for a collection of `n >= 1` points the recursion of `build` ends (it
never exhausts its depth bound; it returns a tree whenever `maxTime >= -1`), and
the tree has exactly `n` nodes and height at most `floor(log2 n) + 1`, because at
every node the `m` nodes of its subtree are split into `(m - 1) / 2` on the left
and `m / 2` (the ceiling of `(m - 1) / 2`) on the right. -/
theorem C18_build_size_height
    (sort : (Event α → Event α → Bool) → List (Event α) → List (Event α))
    (hsort : IsStdSort sort) (t : KDTree α) (events : List (Event α)) (hne : events ≠ []) :
    KDTree.build sort t events ≠ .error .outOfFuel ∧
    (-1 ≤ t.maxTime →
      ∃ (t2 : KDTree α) (ev : List (Event α)), KDTree.build sort t events = .ok (t2, ev)) ∧
    ∀ (t2 : KDTree α) (ev : List (Event α)), KDTree.build sort t events = .ok (t2, ev) →
      t2.root.size = events.length ∧
      t2.root.height ≤ Nat.log 2 events.length + 1 ∧
      2 ^ t2.root.height ≤ 2 * events.length ∧
      KDNode.All KDNode.MedianSplit t2.root := by
  refine ⟨?_, fun hm => build_total sort hsort t events (Or.inl hm), ?_⟩
  · by_cases hm : -1 ≤ t.maxTime
    · obtain ⟨t2, ev, hb⟩ := build_total sort hsort t events (Or.inl hm)
      rw [hb]
      intro h
      cases h
    · rw [build_lengthError sort hsort t events hne (by omega)]
      intro h
      cases h
  · intro t2 ev hb
    obtain ⟨⟨hsize, hmed⟩, _⟩ := build_slices sort hsort
      (fun l _ t => t.size = l.length ∧ KDNode.All KDNode.MedianSplit t) t t2 events ev
      (fun _ => ⟨rfl, trivial⟩)
      (fun l d p node tl tr h1 h2 h3 h4 h5 =>
        buildTree_nodes_step sort hsort t.maxTime l d p node tl tr h1 h2 h3 h4 h5)
      hne hb
    have hpos : 0 < events.length := List.length_pos.mpr hne
    have hh := height_of_medianSplit t2.root hmed
    rw [hsize] at hh
    have hh2 : 2 ^ t2.root.height ≤ 2 * events.length := by
      rcases le_max_iff.mp hh with h3 | h3 <;> omega
    refine ⟨hsize, ?_, hh2, hmed⟩
    cases hht : t2.root.height with
    | zero => omega
    | succ k =>
      rw [hht, pow_succ] at hh2
      have : 2 ^ k ≤ events.length := by omega
      have := Nat.le_log_of_pow_le (by decide : 1 < 2) this
      omega

theorem C18_build_size_height_witness :
    KDTree.build insertionSortBy (KDTree.ctor 1440 : KDTree Int)
        [⟨0, 0, 1, 1⟩, ⟨1, 1, 2, 1⟩, ⟨2, 2, 3, 1⟩] ≠ .error .outOfFuel ∧
    (-1 ≤ (KDTree.ctor 1440 : KDTree Int).maxTime →
      ∃ (t2 : KDTree Int) (ev : List (Event Int)),
        KDTree.build insertionSortBy (KDTree.ctor 1440 : KDTree Int)
          [⟨0, 0, 1, 1⟩, ⟨1, 1, 2, 1⟩, ⟨2, 2, 3, 1⟩] = .ok (t2, ev)) ∧
    ∀ (t2 : KDTree Int) (ev : List (Event Int)),
      KDTree.build insertionSortBy (KDTree.ctor 1440 : KDTree Int)
          [⟨0, 0, 1, 1⟩, ⟨1, 1, 2, 1⟩, ⟨2, 2, 3, 1⟩] = .ok (t2, ev) →
      t2.root.size = ([⟨0, 0, 1, 1⟩, ⟨1, 1, 2, 1⟩, ⟨2, 2, 3, 1⟩] : List (Event Int)).length ∧
      t2.root.height ≤
        Nat.log 2 ([⟨0, 0, 1, 1⟩, ⟨1, 1, 2, 1⟩, ⟨2, 2, 3, 1⟩] : List (Event Int)).length + 1 ∧
      2 ^ t2.root.height ≤
        2 * ([⟨0, 0, 1, 1⟩, ⟨1, 1, 2, 1⟩, ⟨2, 2, 3, 1⟩] : List (Event Int)).length ∧
      KDNode.All KDNode.MedianSplit t2.root :=
  C18_build_size_height insertionSortBy insertionSortBy_isStdSort (KDTree.ctor 1440)
    [⟨0, 0, 1, 1⟩, ⟨1, 1, 2, 1⟩, ⟨2, 2, 3, 1⟩] (by simp)

/-- C14: for a non-empty input, after `build` the root's bounding box is the
axis-aligned min/max over every point of the input: each input point lies inside
it, and `minX`, `maxX`, `minY`, `maxY` are each the coordinate of some input
point; and the points of the tree's nodes are exactly the input points. -/
theorem C14_root_box
    (sort : (Event α → Event α → Bool) → List (Event α) → List (Event α))
    (hsort : IsStdSort sort) (t : KDTree α) (events : List (Event α)) (hne : events ≠ []) :
    (-1 ≤ t.maxTime →
      ∃ (t2 : KDTree α) (ev : List (Event α)), KDTree.build sort t events = .ok (t2, ev)) ∧
    ∀ (t2 : KDTree α) (ev : List (Event α)), KDTree.build sort t events = .ok (t2, ev) →
      ∃ (x y minX maxX minY maxY : α) (s : Bool) (l r : KDNode α) (fw : Fenwick),
        t2.root = .node x y minX maxX minY maxY s l r fw ∧
        (∀ p ∈ events, minX ≤ p.x ∧ p.x ≤ maxX ∧ minY ≤ p.y ∧ p.y ≤ maxY) ∧
        (∃ p ∈ events, p.x = minX) ∧ (∃ p ∈ events, p.x = maxX) ∧
        (∃ p ∈ events, p.y = minY) ∧ (∃ p ∈ events, p.y = maxY) ∧
        t2.root.points.Perm (events.map (fun e => (e.x, e.y))) := by
  refine ⟨fun hm => build_total sort hsort t events (Or.inl hm), ?_⟩
  intro t2 ev hb
  obtain ⟨hbox, _⟩ := build_slices sort hsort (fun l _ n => KDNode.BoxOfPoints l n) t t2 events ev
    (fun _ => rfl)
    (fun l d p node tl tr h1 h2 h3 h4 h5 =>
      buildTree_box_step sort hsort t.maxTime l d p node tl tr h1 h2 h3 h4 h5)
    hne hb
  obtain ⟨⟨hpts, _⟩, _⟩ := build_slices sort hsort
    (fun l _ n => n.points.Perm (l.map (fun e => (e.x, e.y))) ∧
      KDNode.All KDNode.Partitioned n) t t2 events ev
    (fun _ => ⟨List.Perm.refl _, trivial⟩)
    (fun l d p node tl tr h1 h2 h3 h4 h5 =>
      buildTree_partition_step sort hsort t.maxTime l d p node tl tr h1 h2 h3 h4 h5)
    hne hb
  cases hroot : t2.root with
  | null =>
    rw [hroot] at hbox
    exact absurd hbox hne
  | node x y minX maxX minY maxY s l r fw =>
    rw [hroot] at hbox hpts
    obtain ⟨h0, h1, h2, h3, h4⟩ := hbox
    exact ⟨x, y, minX, maxX, minY, maxY, s, l, r, fw, rfl, h0, h1, h2, h3, h4, hpts⟩

theorem C14_root_box_witness :
    (-1 ≤ (KDTree.ctor 1440 : KDTree Int).maxTime →
      ∃ (t2 : KDTree Int) (ev : List (Event Int)),
        KDTree.build insertionSortBy (KDTree.ctor 1440 : KDTree Int)
          [⟨3, 7, 1, 1⟩, ⟨1, 9, 2, 1⟩, ⟨2, 2, 3, 1⟩] = .ok (t2, ev)) ∧
    ∀ (t2 : KDTree Int) (ev : List (Event Int)),
      KDTree.build insertionSortBy (KDTree.ctor 1440 : KDTree Int)
          [⟨3, 7, 1, 1⟩, ⟨1, 9, 2, 1⟩, ⟨2, 2, 3, 1⟩] = .ok (t2, ev) →
      ∃ (x y minX maxX minY maxY : Int) (s : Bool) (l r : KDNode Int) (fw : Fenwick),
        t2.root = .node x y minX maxX minY maxY s l r fw ∧
        (∀ p ∈ ([⟨3, 7, 1, 1⟩, ⟨1, 9, 2, 1⟩, ⟨2, 2, 3, 1⟩] : List (Event Int)),
          minX ≤ p.x ∧ p.x ≤ maxX ∧ minY ≤ p.y ∧ p.y ≤ maxY) ∧
        (∃ p ∈ ([⟨3, 7, 1, 1⟩, ⟨1, 9, 2, 1⟩, ⟨2, 2, 3, 1⟩] : List (Event Int)), p.x = minX) ∧
        (∃ p ∈ ([⟨3, 7, 1, 1⟩, ⟨1, 9, 2, 1⟩, ⟨2, 2, 3, 1⟩] : List (Event Int)), p.x = maxX) ∧
        (∃ p ∈ ([⟨3, 7, 1, 1⟩, ⟨1, 9, 2, 1⟩, ⟨2, 2, 3, 1⟩] : List (Event Int)), p.y = minY) ∧
        (∃ p ∈ ([⟨3, 7, 1, 1⟩, ⟨1, 9, 2, 1⟩, ⟨2, 2, 3, 1⟩] : List (Event Int)), p.y = maxY) ∧
        t2.root.points.Perm
          (([⟨3, 7, 1, 1⟩, ⟨1, 9, 2, 1⟩, ⟨2, 2, 3, 1⟩] : List (Event Int)).map
            (fun e => (e.x, e.y))) :=
  C14_root_box insertionSortBy insertionSortBy_isStdSort (KDTree.ctor 1440)
    [⟨3, 7, 1, 1⟩, ⟨1, 9, 2, 1⟩, ⟨2, 2, 3, 1⟩] (by simp)

/-- C15: after `build`, at every node the bounding box is exactly the least
rectangle containing the node's own point and the boxes of its present children
(per-axis min and max); hence it contains the own point and both children's
boxes; and a leaf's box is the zero-size box at its own point. -/
theorem C15_tight_boxes
    (sort : (Event α → Event α → Bool) → List (Event α) → List (Event α))
    (hsort : IsStdSort sort) (t : KDTree α) (events : List (Event α))
    (h : events ≠ [] ∨ t.root = .null) :
    (-1 ≤ t.maxTime ∨ events = [] →
      ∃ (t2 : KDTree α) (ev : List (Event α)), KDTree.build sort t events = .ok (t2, ev)) ∧
    ∀ (t2 : KDTree α) (ev : List (Event α)), KDTree.build sort t events = .ok (t2, ev) →
      KDNode.All KDNode.TightBox t2.root ∧
      KDNode.All KDNode.NestedBox t2.root ∧
      KDNode.All KDNode.LeafBox t2.root := by
  refine ⟨fun hm => build_total sort hsort t events hm, ?_⟩
  intro t2 ev hb
  have hall : KDNode.All
      (fun n => KDNode.TightBox n ∧ KDNode.NestedBox n ∧ KDNode.LeafBox n) t2.root := by
    rcases build_ok_inv sort t t2 events ev hb with ⟨he, rfl, _⟩ | ⟨_, _, hbt⟩
    · rcases h with h | h
      · exact absurd he h
      · rw [h]
        exact trivial
    · exact buildTree_tight sort hsort t.maxTime _ events 0 _ 0 t2.root ev hbt
  exact ⟨all_imp _ _ (fun _ hn => hn.1) _ hall, all_imp _ _ (fun _ hn => hn.2.1) _ hall,
    all_imp _ _ (fun _ hn => hn.2.2) _ hall⟩

theorem C15_tight_boxes_witness :
    (-1 ≤ (KDTree.ctor 1440 : KDTree Int).maxTime ∨
        ([⟨3, 7, 1, 1⟩, ⟨1, 9, 2, 1⟩, ⟨2, 2, 3, 1⟩] : List (Event Int)) = [] →
      ∃ (t2 : KDTree Int) (ev : List (Event Int)),
        KDTree.build insertionSortBy (KDTree.ctor 1440 : KDTree Int)
          [⟨3, 7, 1, 1⟩, ⟨1, 9, 2, 1⟩, ⟨2, 2, 3, 1⟩] = .ok (t2, ev)) ∧
    ∀ (t2 : KDTree Int) (ev : List (Event Int)),
      KDTree.build insertionSortBy (KDTree.ctor 1440 : KDTree Int)
          [⟨3, 7, 1, 1⟩, ⟨1, 9, 2, 1⟩, ⟨2, 2, 3, 1⟩] = .ok (t2, ev) →
      KDNode.All KDNode.TightBox t2.root ∧
      KDNode.All KDNode.NestedBox t2.root ∧
      KDNode.All KDNode.LeafBox t2.root :=
  C15_tight_boxes insertionSortBy insertionSortBy_isStdSort (KDTree.ctor 1440)
    [⟨3, 7, 1, 1⟩, ⟨1, 9, 2, 1⟩, ⟨2, 2, 3, 1⟩] (Or.inl (by simp))

/-- C19: after `build` the split axis alternates strictly with depth: the node at
the end of a path of length `d` from the root splits on X exactly when `d` is
even (root X, children Y, grandchildren X); inserts never change a node's axis. -/
theorem C19_axis_alternates
    (sort : (Event α → Event α → Bool) → List (Event α) → List (Event α))
    (hsort : IsStdSort sort) (t : KDTree α) (events : List (Event α))
    (h : events ≠ [] ∨ t.root = .null) :
    (-1 ≤ t.maxTime ∨ events = [] →
      ∃ (t2 : KDTree α) (ev : List (Event α)), KDTree.build sort t events = .ok (t2, ev)) ∧
    ∀ (t2 : KDTree α) (ev : List (Event α)), KDTree.build sort t events = .ok (t2, ev) →
      KDNode.AxisAlternates 0 t2.root ∧
      (∀ (p : List Bool) (s : Bool), (KDNode.subtree t2.root p).axisOf = some s →
        (s = true ↔ p.length % 2 = 0)) ∧
      ∀ (ins : List (Event α)) (p : List Bool),
        (KDNode.subtree (t2.insertAll ins).root p).axisOf = (KDNode.subtree t2.root p).axisOf ∧
        ∀ s : Bool, (KDNode.subtree (t2.insertAll ins).root p).axisOf = some s →
          (s = true ↔ p.length % 2 = 0) := by
  refine ⟨fun hm => build_total sort hsort t events hm, ?_⟩
  intro t2 ev hb
  have halt : KDNode.AxisAlternates 0 t2.root := by
    by_cases hne : events = []
    · rcases build_ok_inv sort t t2 events ev hb with ⟨_, rfl, _⟩ | ⟨hne2, _, _⟩
      · rcases h with h | h
        · exact absurd hne h
        · rw [h]
          exact trivial
      · exact absurd hne hne2
    · exact (build_slices sort hsort
        (fun _ d n => ∀ k : Nat, d = (k : Int) → KDNode.AxisAlternates k n) t t2 events ev
        (fun _ _ _ => trivial)
        (fun _ d p node tl tr _ _ h3 h4 h5 =>
          buildTree_axis_step t.maxTime d p.x p.y node tl tr h3 h4 h5)
        hne hb).1 0 rfl
  have hpath : ∀ (p : List Bool) (s : Bool), (KDNode.subtree t2.root p).axisOf = some s →
      (s = true ↔ p.length % 2 = 0) := by
    intro p s hs
    have := axisOf_of_alternates _ _ s (axisAlternates_subtree p 0 t2.root halt) hs
    simpa using this
  refine ⟨halt, hpath, ?_⟩
  intro ins p
  have e : (KDNode.subtree (t2.insertAll ins).root p).axisOf =
      (KDNode.subtree t2.root p).axisOf := by
    rw [(insertAll_root_eq t2 ins).1]
    exact axisOf_subtree_foldl p ins t2.root
  refine ⟨e, ?_⟩
  intro s hs
  rw [e] at hs
  exact hpath p s hs

theorem C19_axis_alternates_witness :
    (-1 ≤ (KDTree.ctor 1440 : KDTree Int).maxTime ∨
        ([⟨3, 7, 1, 1⟩, ⟨1, 9, 2, 1⟩, ⟨2, 2, 3, 1⟩] : List (Event Int)) = [] →
      ∃ (t2 : KDTree Int) (ev : List (Event Int)),
        KDTree.build insertionSortBy (KDTree.ctor 1440 : KDTree Int)
          [⟨3, 7, 1, 1⟩, ⟨1, 9, 2, 1⟩, ⟨2, 2, 3, 1⟩] = .ok (t2, ev)) ∧
    ∀ (t2 : KDTree Int) (ev : List (Event Int)),
      KDTree.build insertionSortBy (KDTree.ctor 1440 : KDTree Int)
          [⟨3, 7, 1, 1⟩, ⟨1, 9, 2, 1⟩, ⟨2, 2, 3, 1⟩] = .ok (t2, ev) →
      KDNode.AxisAlternates 0 t2.root ∧
      (∀ (p : List Bool) (s : Bool), (KDNode.subtree t2.root p).axisOf = some s →
        (s = true ↔ p.length % 2 = 0)) ∧
      ∀ (ins : List (Event Int)) (p : List Bool),
        (KDNode.subtree (t2.insertAll ins).root p).axisOf = (KDNode.subtree t2.root p).axisOf ∧
        ∀ s : Bool, (KDNode.subtree (t2.insertAll ins).root p).axisOf = some s →
          (s = true ↔ p.length % 2 = 0) :=
  C19_axis_alternates insertionSortBy insertionSortBy_isStdSort (KDTree.ctor 1440)
    [⟨3, 7, 1, 1⟩, ⟨1, 9, 2, 1⟩, ⟨2, 2, 3, 1⟩] (Or.inl (by simp))

/-- C20: after `build`, at every node that splits on X every node point of its
left subtree has `x <=` the node's `x` and every node point of its right subtree
has `x >=` it, and likewise with `y` at a node that splits on Y.  The recursion
only permutes the vector (each level within its own sub-range), and the points
of the tree's nodes are exactly the points of the input. -/
theorem C20_partition_order
    (sort : (Event α → Event α → Bool) → List (Event α) → List (Event α))
    (hsort : IsStdSort sort) (t : KDTree α) (events : List (Event α))
    (h : events ≠ [] ∨ t.root = .null) :
    (-1 ≤ t.maxTime ∨ events = [] →
      ∃ (t2 : KDTree α) (ev : List (Event α)), KDTree.build sort t events = .ok (t2, ev)) ∧
    ∀ (t2 : KDTree α) (ev : List (Event α)), KDTree.build sort t events = .ok (t2, ev) →
      KDNode.All KDNode.Partitioned t2.root ∧
      ev.Perm events ∧
      t2.root.points.Perm (events.map (fun e => (e.x, e.y))) := by
  refine ⟨fun hm => build_total sort hsort t events hm, ?_⟩
  intro t2 ev hb
  by_cases hne : events = []
  · rcases build_ok_inv sort t t2 events ev hb with ⟨_, rfl, rfl⟩ | ⟨hne2, _, _⟩
    · rcases h with h | h
      · exact absurd hne h
      · rw [h, hne]
        exact ⟨trivial, List.Perm.refl _, List.Perm.refl _⟩
    · exact absurd hne hne2
  · obtain ⟨⟨hpts, hpart⟩, hperm⟩ := build_slices sort hsort
      (fun l _ n => n.points.Perm (l.map (fun e => (e.x, e.y))) ∧
        KDNode.All KDNode.Partitioned n) t t2 events ev
      (fun _ => ⟨List.Perm.refl _, trivial⟩)
      (fun l d p node tl tr h1 h2 h3 h4 h5 =>
        buildTree_partition_step sort hsort t.maxTime l d p node tl tr h1 h2 h3 h4 h5)
      hne hb
    exact ⟨hpart, hperm, hpts⟩

theorem C20_partition_order_witness :
    (-1 ≤ (KDTree.ctor 1440 : KDTree Int).maxTime ∨
        ([⟨3, 7, 1, 1⟩, ⟨1, 9, 2, 1⟩, ⟨2, 2, 3, 1⟩] : List (Event Int)) = [] →
      ∃ (t2 : KDTree Int) (ev : List (Event Int)),
        KDTree.build insertionSortBy (KDTree.ctor 1440 : KDTree Int)
          [⟨3, 7, 1, 1⟩, ⟨1, 9, 2, 1⟩, ⟨2, 2, 3, 1⟩] = .ok (t2, ev)) ∧
    ∀ (t2 : KDTree Int) (ev : List (Event Int)),
      KDTree.build insertionSortBy (KDTree.ctor 1440 : KDTree Int)
          [⟨3, 7, 1, 1⟩, ⟨1, 9, 2, 1⟩, ⟨2, 2, 3, 1⟩] = .ok (t2, ev) →
      KDNode.All KDNode.Partitioned t2.root ∧
      ev.Perm [⟨3, 7, 1, 1⟩, ⟨1, 9, 2, 1⟩, ⟨2, 2, 3, 1⟩] ∧
      t2.root.points.Perm
        (([⟨3, 7, 1, 1⟩, ⟨1, 9, 2, 1⟩, ⟨2, 2, 3, 1⟩] : List (Event Int)).map
          (fun e => (e.x, e.y))) :=
  C20_partition_order insertionSortBy insertionSortBy_isStdSort (KDTree.ctor 1440)
    [⟨3, 7, 1, 1⟩, ⟨1, 9, 2, 1⟩, ⟨2, 2, 3, 1⟩] (Or.inl (by simp))

end BuildClaims

/-! ## Nesting of bounding boxes under insertion -/

section Nesting

variable {α : Type} [LinearOrder α]

/-- Two nested boxes stay nested when both are extended by the same point. -/
theorem boxContains_grow (b c : α × α × α × α) (px py : α) (h : KDNode.BoxContains b c) :
    KDNode.BoxContains (min b.1 px, max b.2.1 px, min b.2.2.1 py, max b.2.2.2 py)
      (min c.1 px, max c.2.1 px, min c.2.2.1 py, max c.2.2.2 py) :=
  ⟨min_le_min_right _ h.1, max_le_max_right _ h.2.1, min_le_min_right _ h.2.2.1,
    max_le_max_right _ h.2.2.2⟩

/-- A box extended by a point still contains what it contained. -/
theorem boxContains_grow_outer (b c : α × α × α × α) (px py : α)
    (h : KDNode.BoxContains b c) :
    KDNode.BoxContains (min b.1 px, max b.2.1 px, min b.2.2.1 py, max b.2.2.2 py) c :=
  ⟨le_trans (min_le_left _ _) h.1, le_trans h.2.1 (le_max_left _ _),
    le_trans (min_le_left _ _) h.2.2.1, le_trans h.2.2.2 (le_max_left _ _)⟩

/-- The method `insertEvent` keeps the nesting of boxes at every node: the node on
the descent and its visited child grow by the same point, the other child is
untouched. -/
theorem nestedBox_insertEvent (e : Event α) :
    ∀ t : KDNode α, KDNode.All KDNode.NestedBox t →
      KDNode.All KDNode.NestedBox (KDTree.insertEvent t e) := by
  intro t
  induction t with
  | null => intro _; exact trivial
  | node x y minX maxX minY maxY s l r fw ihl ihr =>
    intro h
    obtain ⟨⟨hp, hl, hr⟩, hal, har⟩ := h
    have hpt : min minX e.x ≤ x ∧ x ≤ max maxX e.x ∧ min minY e.y ≤ y ∧ y ≤ max maxY e.y :=
      ⟨le_trans (min_le_left _ _) hp.1, le_trans hp.2.1 (le_max_left _ _),
        le_trans (min_le_left _ _) hp.2.2.1, le_trans hp.2.2.2 (le_max_left _ _)⟩
    rw [insertEvent_eq]
    cases hg : KDNode.goesRight (.node x y minX maxX minY maxY s l r fw) e
    · rw [if_neg (by simp), if_neg (by simp)]
      refine ⟨⟨hpt, ?_, ?_⟩, ihl hal, har⟩
      · intro b hb
        rw [boxOf_insertEvent] at hb
        cases hbl : l.boxOf with
        | none => rw [hbl] at hb; cases hb
        | some b0 =>
          rw [hbl] at hb
          simp only [Option.map_some', Option.some.injEq] at hb
          subst hb
          exact boxContains_grow (minX, maxX, minY, maxY) b0 e.x e.y (hl b0 hbl)
      · intro b hb
        exact boxContains_grow_outer (minX, maxX, minY, maxY) b e.x e.y (hr b hb)
    · rw [if_pos rfl, if_pos rfl]
      refine ⟨⟨hpt, ?_, ?_⟩, hal, ihr har⟩
      · intro b hb
        exact boxContains_grow_outer (minX, maxX, minY, maxY) b e.x e.y (hl b hb)
      · intro b hb
        rw [boxOf_insertEvent] at hb
        cases hbr : r.boxOf with
        | none => rw [hbr] at hb; cases hb
        | some b0 =>
          rw [hbr] at hb
          simp only [Option.map_some', Option.some.injEq] at hb
          subst hb
          exact boxContains_grow (minX, maxX, minY, maxY) b0 e.x e.y (hr b0 hbr)

theorem nestedBox_foldl_insertEvent (ins : List (Event α)) :
    ∀ t : KDNode α, KDNode.All KDNode.NestedBox t →
      KDNode.All KDNode.NestedBox (ins.foldl KDTree.insertEvent t) := by
  induction ins with
  | nil => intro t h; exact h
  | cons e es ih => intro t h; exact ih _ (nestedBox_insertEvent e t h)

/-- The descent of an event is the same before and after any insertions. -/
theorem visits_foldl_insertEvent (e : Event α) (p : List Bool) (ins : List (Event α)) :
    ∀ t : KDNode α, KDNode.visits e (ins.foldl KDTree.insertEvent t) p = KDNode.visits e t p := by
  induction ins with
  | nil => intro t; rfl
  | cons e2 es ih => intro t; rw [List.foldl_cons, ih, visits_insertEvent]

/-- One insertion leaves the box of every node in place or extends it. -/
theorem boxOf_subtree_insertEvent (e : Event α) (p : List Bool) (t : KDNode α)
    (b : α × α × α × α) (hb : (KDNode.subtree t p).boxOf = some b) :
    ∃ b2 : α × α × α × α, (KDNode.subtree (KDTree.insertEvent t e) p).boxOf = some b2 ∧
      KDNode.BoxContains b2 b ∧
      (KDNode.visits e t p = true →
        b2.1 ≤ e.x ∧ e.x ≤ b2.2.1 ∧ b2.2.2.1 ≤ e.y ∧ e.y ≤ b2.2.2.2) := by
  cases hv : KDNode.visits e t p
  · rw [subtree_insertEvent_of_not_visits e p t hv]
    exact ⟨b, hb, boxContains_refl b, fun h => by cases h⟩
  · rw [subtree_insertEvent_of_visits e p t hv, boxOf_insertEvent, hb]
    exact ⟨_, rfl, ⟨min_le_left _ _, le_max_left _ _, min_le_left _ _, le_max_left _ _⟩,
      fun _ => ⟨min_le_right _ _, le_max_right _ _, min_le_right _ _, le_max_right _ _⟩⟩

/-- Insertions only extend the box of a node. -/
theorem boxOf_subtree_foldl_insertEvent (p : List Bool) (ins : List (Event α)) :
    ∀ (t : KDNode α) (b : α × α × α × α), (KDNode.subtree t p).boxOf = some b →
      ∃ b2 : α × α × α × α,
        (KDNode.subtree (ins.foldl KDTree.insertEvent t) p).boxOf = some b2 ∧
        KDNode.BoxContains b2 b := by
  induction ins with
  | nil => intro t b hb; exact ⟨b, hb, boxContains_refl b⟩
  | cons e es ih =>
    intro t b hb
    obtain ⟨b1, hb1, hc1, _⟩ := boxOf_subtree_insertEvent e p t b hb
    obtain ⟨b2, hb2, hc2⟩ := ih _ b1 hb1
    exact ⟨b2, hb2, boxContains_trans b2 b1 b hc2 hc1⟩

/-- After a sequence of insertions the box of a node contains the point of every
inserted event whose descent reached the node. -/
theorem boxOf_contains_inserted (p : List Bool) (e : Event α) (ins : List (Event α)) :
    ∀ t : KDNode α, e ∈ ins → KDNode.visits e t p = true →
      ∃ b : α × α × α × α, (KDNode.subtree (ins.foldl KDTree.insertEvent t) p).boxOf = some b ∧
        b.1 ≤ e.x ∧ e.x ≤ b.2.1 ∧ b.2.2.1 ≤ e.y ∧ e.y ≤ b.2.2.2 := by
  induction ins with
  | nil => intro t h; cases h
  | cons e2 es ih =>
    intro t hmem hv
    by_cases he : e ∈ es
    · exact ih _ he (by rw [visits_insertEvent]; exact hv)
    · have h2 : e = e2 := by
        rcases List.mem_cons.1 hmem with h | h
        · exact h
        · exact absurd h he
      subst h2
      have hnn := visits_subtree_ne_null e p t hv
      cases hsub : (KDNode.subtree t p).boxOf with
      | none =>
        cases hnode : KDNode.subtree t p with
        | null => rw [hnode] at hnn; cases hnn
        | node x y minX maxX minY maxY s l r fw => rw [hnode] at hsub; cases hsub
      | some b0 =>
        obtain ⟨b1, hb1, _, hin⟩ := boxOf_subtree_insertEvent e p t b0 hsub
        obtain ⟨b2, hb2, hc2⟩ := boxOf_subtree_foldl_insertEvent p es _ b1 hb1
        have h1 := hin hv
        exact ⟨b2, hb2, le_trans hc2.1 h1.1, le_trans h1.2.1 hc2.2.1,
          le_trans hc2.2.2.1 h1.2.2.1, le_trans h1.2.2.2 hc2.2.2.2⟩

end Nesting

/-! ## Claim about nesting under insertion -/

section NestingClaims

variable {α : Type} [LinearOrder α]

/-- C21: after `build` and any sequence of inserts `ins`, every node's bounding box
contains the node's own point and the boxes of both its children (stated for the
whole tree and for the node at the end of every path `p`); and for every event
`e` inserted after the events `pre` and before the events `post`, every node that
the descent of `e` reached at the time of its insertion has, after all the
inserts, a box that contains `(e.x, e.y)`. -/
theorem C21_nesting_preserved
    (sort : (Event α → Event α → Bool) → List (Event α) → List (Event α))
    (hsort : IsStdSort sort) (t : KDTree α) (events : List (Event α))
    (h : events ≠ [] ∨ t.root = .null) :
    (-1 ≤ t.maxTime ∨ events = [] →
      ∃ (t2 : KDTree α) (ev : List (Event α)), KDTree.build sort t events = .ok (t2, ev)) ∧
    ∀ (t2 : KDTree α) (ev : List (Event α)), KDTree.build sort t events = .ok (t2, ev) →
      (∀ ins : List (Event α),
        KDNode.All KDNode.NestedBox (t2.insertAll ins).root ∧
        ∀ p : List Bool, KDNode.NestedBox (KDNode.subtree (t2.insertAll ins).root p)) ∧
      ∀ (pre post : List (Event α)) (e : Event α) (p : List Bool),
        KDNode.visits e (t2.insertAll pre).root p = true →
        ∃ b : α × α × α × α,
          (KDNode.subtree (t2.insertAll (pre ++ e :: post)).root p).boxOf = some b ∧
          b.1 ≤ e.x ∧ e.x ≤ b.2.1 ∧ b.2.2.1 ≤ e.y ∧ e.y ≤ b.2.2.2 := by
  refine ⟨fun hm => build_total sort hsort t events hm, ?_⟩
  intro t2 ev hb
  have hall : KDNode.All KDNode.NestedBox t2.root := by
    rcases build_ok_inv sort t t2 events ev hb with ⟨he, rfl, _⟩ | ⟨_, _, hbt⟩
    · rcases h with h | h
      · exact absurd he h
      · rw [h]
        exact trivial
    · exact all_imp _ _ (fun _ hn => hn.2.1) _
        (buildTree_tight sort hsort t.maxTime _ events 0 _ 0 t2.root ev hbt)
  constructor
  · intro ins
    have hins : KDNode.All KDNode.NestedBox (t2.insertAll ins).root := by
      rw [(insertAll_root_eq t2 ins).1]
      exact nestedBox_foldl_insertEvent ins t2.root hall
    exact ⟨hins, fun p => all_node _ _ trivial (all_subtree _ p _ hins)⟩
  · intro pre post e p hv
    rw [(insertAll_root_eq t2 pre).1, visits_foldl_insertEvent] at hv
    rw [(insertAll_root_eq t2 (pre ++ e :: post)).1]
    exact boxOf_contains_inserted p e (pre ++ e :: post) t2.root (by simp) hv

theorem C21_nesting_preserved_witness :
    (-1 ≤ (KDTree.ctor 1440 : KDTree Int).maxTime ∨
        ([⟨3, 7, 1, 1⟩, ⟨1, 9, 2, 1⟩, ⟨2, 2, 3, 1⟩] : List (Event Int)) = [] →
      ∃ (t2 : KDTree Int) (ev : List (Event Int)),
        KDTree.build insertionSortBy (KDTree.ctor 1440 : KDTree Int)
          [⟨3, 7, 1, 1⟩, ⟨1, 9, 2, 1⟩, ⟨2, 2, 3, 1⟩] = .ok (t2, ev)) ∧
    ∀ (t2 : KDTree Int) (ev : List (Event Int)),
      KDTree.build insertionSortBy (KDTree.ctor 1440 : KDTree Int)
          [⟨3, 7, 1, 1⟩, ⟨1, 9, 2, 1⟩, ⟨2, 2, 3, 1⟩] = .ok (t2, ev) →
      (∀ ins : List (Event Int),
        KDNode.All KDNode.NestedBox (t2.insertAll ins).root ∧
        ∀ p : List Bool, KDNode.NestedBox (KDNode.subtree (t2.insertAll ins).root p)) ∧
      ∀ (pre post : List (Event Int)) (e : Event Int) (p : List Bool),
        KDNode.visits e (t2.insertAll pre).root p = true →
        ∃ b : Int × Int × Int × Int,
          (KDNode.subtree (t2.insertAll (pre ++ e :: post)).root p).boxOf = some b ∧
          b.1 ≤ e.x ∧ e.x ≤ b.2.1 ∧ b.2.2.1 ≤ e.y ∧ e.y ≤ b.2.2.2 :=
  C21_nesting_preserved insertionSortBy insertionSortBy_isStdSort (KDTree.ctor 1440)
    [⟨3, 7, 1, 1⟩, ⟨1, 9, 2, 1⟩, ⟨2, 2, 3, 1⟩] (Or.inl (by simp))

end NestingClaims

/-! ## The loops of `add` and `sum`: accessed positions and termination -/

theorem lowbit_prev_aux (n : Nat) :
    ∀ k : Int, 0 < k → k ≤ n → 0 < k - lowbit k → 2 * lowbit k ≤ lowbit (k - lowbit k) := by
  induction n with
  | zero => intro k h1 h2; omega
  | succ n ih =>
    intro k h1 h2 h3
    rcases Int.emod_two_eq_zero_or_one k with h | h
    · have e : k = 2 * (k / 2) := by omega
      have hj : 0 < k / 2 := by omega
      have h5 : lowbit k = 2 * lowbit (k / 2) := by
        conv_lhs => rw [e]
        exact lowbit_even _ hj
      have h6 : k - lowbit k = 2 * (k / 2 - lowbit (k / 2)) := by omega
      have h7 : 0 < k / 2 - lowbit (k / 2) := by omega
      have h8 := ih (k / 2) hj (by omega) h7
      rw [h6, lowbit_even _ h7]
      omega
    · have e : k = 2 * (k / 2) + 1 := by omega
      have h5 : lowbit k = 1 := by
        conv_lhs => rw [e]
        exact lowbit_odd _ (by omega)
      have h6 : k - lowbit k = 2 * (k / 2) := by omega
      have hj : 0 < k / 2 := by omega
      have h4 := lowbit_pos (k / 2) hj
      rw [h6, lowbit_even _ hj, h5]
      omega

/-- The successor in the read chain, when it is not `0`, has a lowest set bit at
least twice as large. -/
theorem lowbit_prev (k : Int) (h : 0 < k) (h2 : 0 < k - lowbit k) :
    2 * lowbit k ≤ lowbit (k - lowbit k) :=
  lowbit_prev_aux k.toNat k h (by omega) h2

theorem log_fuel (n : Int) (hn : 1 ≤ n) : Nat.log 2 n.toNat + 1 ≤ n.toNat := by
  have := Nat.log_lt_self 2 (show n.toNat ≠ 0 by omega)
  omega

theorem pow_le_log (k : Nat) (n : Int) (h : ((2 ^ k : Nat) : Int) ≤ n) :
    k ≤ Nat.log 2 n.toNat := by
  apply Nat.le_log_of_pow_le (by norm_num)
  omega

theorem log_lt_pow (k : Nat) (n : Int) (h : Nat.log 2 n.toNat < k) :
    n < ((2 ^ k : Nat) : Int) := by
  have := Nat.lt_pow_of_log_lt (by norm_num : 1 < 2) h
  omega

theorem pow_succ_le (k : Nat) (a b : Int) (h1 : ((2 ^ k : Nat) : Int) ≤ a) (h2 : 2 * a ≤ b) :
    ((2 ^ (k + 1) : Nat) : Int) ≤ b := by
  rw [pow_succ]
  push_cast at h1 ⊢
  omega

theorem addLoop_done (fuel : Nat) (n : Int) (bit : List Int) (idx val : Int) (h : ¬ idx ≤ n) :
    Fenwick.addLoop fuel n bit idx val = (bit, idx) := by
  cases fuel with
  | zero => rfl
  | succ fuel => simp [Fenwick.addLoop, h]

theorem addLoop_step (fuel : Nat) (n : Int) (bit : List Int) (idx val : Int) (h : idx ≤ n) :
    Fenwick.addLoop (fuel + 1) n bit idx val =
      Fenwick.addLoop fuel n (Fenwick.bump bit idx val) (idx + lowbit idx) val := by
  simp [Fenwick.addLoop, h]

theorem addTrace_done (fuel : Nat) (n idx : Int) (h : ¬ idx ≤ n) :
    Fenwick.addTrace fuel n idx = [] := by
  cases fuel with
  | zero => rfl
  | succ fuel => simp [Fenwick.addTrace, h]

theorem addTrace_step (fuel : Nat) (n idx : Int) (h : idx ≤ n) :
    Fenwick.addTrace (fuel + 1) n idx = idx :: Fenwick.addTrace fuel n (idx + lowbit idx) := by
  simp [Fenwick.addTrace, h]

/-- With at least `floor(log2 n) + 1` iterations allowed, the loop of `add` leaves
by its condition, and its result and its accesses do not depend on the allowance.
The exponent `k` counts the iterations already made. -/
theorem addLoop_fuel (n val : Int) :
    ∀ (fuel1 fuel2 k : Nat) (bit : List Int) (idx : Int), 0 < idx →
      ((2 ^ k : Nat) : Int) ≤ lowbit idx →
      Nat.log 2 n.toNat + 1 - k ≤ fuel1 → Nat.log 2 n.toNat + 1 - k ≤ fuel2 →
      Fenwick.addLoop fuel1 n bit idx val = Fenwick.addLoop fuel2 n bit idx val ∧
      Fenwick.addTrace fuel1 n idx = Fenwick.addTrace fuel2 n idx ∧
      n < (Fenwick.addLoop fuel1 n bit idx val).2 := by
  intro fuel1
  induction fuel1 with
  | zero =>
    intro fuel2 k bit idx h0 hk h1 h2
    have hlt : n < idx := by
      have := log_lt_pow k n (by omega)
      have := lowbit_le idx h0
      omega
    have hd : ¬ idx ≤ n := by omega
    rw [addLoop_done _ _ _ _ _ hd, addLoop_done _ _ _ _ _ hd, addTrace_done _ _ _ hd,
      addTrace_done _ _ _ hd]
    exact ⟨rfl, rfl, hlt⟩
  | succ fuel1 ih =>
    intro fuel2 k bit idx h0 hk h1 h2
    by_cases hc : idx ≤ n
    · have hle := lowbit_le idx h0
      have hkl : k ≤ Nat.log 2 n.toNat := pow_le_log k n (by omega)
      obtain ⟨fuel2, rfl⟩ : ∃ m, fuel2 = m + 1 := ⟨fuel2 - 1, by omega⟩
      rw [addLoop_step _ _ _ _ _ hc, addLoop_step _ _ _ _ _ hc, addTrace_step _ _ _ hc,
        addTrace_step _ _ _ hc]
      have hpos := lowbit_pos idx h0
      obtain ⟨g1, g2, g3⟩ := ih fuel2 (k + 1) (Fenwick.bump bit idx val) (idx + lowbit idx)
        (by omega) (pow_succ_le k _ _ hk (lowbit_next idx h0)) (by omega) (by omega)
      exact ⟨g1, by rw [g2], g3⟩
    · rw [addLoop_done _ _ _ _ _ hc, addLoop_done _ _ _ _ _ hc, addTrace_done _ _ _ hc,
        addTrace_done _ _ _ hc]
      exact ⟨rfl, rfl, by omega⟩

/-- The loop variable of `add` never exceeds `n + n`. -/
theorem addLoop_exit_le (n val : Int) :
    ∀ (fuel : Nat) (bit : List Int) (idx : Int), 0 < idx → idx ≤ n + n →
      (Fenwick.addLoop fuel n bit idx val).2 ≤ n + n := by
  intro fuel
  induction fuel with
  | zero => intro bit idx _ h; exact h
  | succ fuel ih =>
    intro bit idx h0 h
    by_cases hc : idx ≤ n
    · rw [addLoop_step _ _ _ _ _ hc]
      have hle := lowbit_le idx h0
      have hpos := lowbit_pos idx h0
      exact ih _ _ (by omega) (by omega)
    · rw [addLoop_done _ _ _ _ _ hc]
      exact h

theorem addTrace_mem (n : Int) :
    ∀ (fuel : Nat) (idx : Int), 0 < idx →
      ∀ i ∈ Fenwick.addTrace fuel n idx, idx ≤ i ∧ i ≤ n := by
  intro fuel
  induction fuel with
  | zero => intro idx _ i hi; cases hi
  | succ fuel ih =>
    intro idx h0 i hi
    by_cases hc : idx ≤ n
    · rw [addTrace_step _ _ _ hc] at hi
      have hpos := lowbit_pos idx h0
      rcases List.mem_cons.1 hi with h | h
      · omega
      · have := ih (idx + lowbit idx) (by omega) i h
        omega
    · rw [addTrace_done _ _ _ hc] at hi
      cases hi

/-- The values of the loop variable of `add`, the accessed positions followed by
the exit value, form a chain of steps `idx += idx & -idx` that starts at `idx`. -/
theorem addTrace_chain (n val : Int) :
    ∀ (fuel : Nat) (bit : List Int) (idx : Int), 0 < idx →
      List.Chain' Fenwick.AddStep
        (Fenwick.addTrace fuel n idx ++ [(Fenwick.addLoop fuel n bit idx val).2]) ∧
      (Fenwick.addTrace fuel n idx ++ [(Fenwick.addLoop fuel n bit idx val).2]).head? =
        some idx := by
  intro fuel
  induction fuel with
  | zero => intro bit idx _; exact ⟨List.chain'_singleton _, rfl⟩
  | succ fuel ih =>
    intro bit idx h0
    by_cases hc : idx ≤ n
    · rw [addLoop_step _ _ _ _ _ hc, addTrace_step _ _ _ hc]
      have hpos := lowbit_pos idx h0
      obtain ⟨g1, g2⟩ := ih (Fenwick.bump bit idx val) (idx + lowbit idx) (by omega)
      refine ⟨?_, rfl⟩
      rw [List.cons_append, List.chain'_cons']
      refine ⟨?_, g1⟩
      intro y hy
      rw [g2] at hy
      cases hy
      exact ⟨rfl, by omega⟩
    · rw [addLoop_done _ _ _ _ _ hc, addTrace_done _ _ _ hc]
      exact ⟨List.chain'_singleton _, rfl⟩

theorem addTrace_length (n : Int) :
    ∀ (fuel k : Nat) (idx : Int), 0 < idx → ((2 ^ k : Nat) : Int) ≤ lowbit idx →
      (Fenwick.addTrace fuel n idx).length ≤ Nat.log 2 n.toNat + 1 - k := by
  intro fuel
  induction fuel with
  | zero => intro k idx _ _; exact Nat.zero_le _
  | succ fuel ih =>
    intro k idx h0 hk
    by_cases hc : idx ≤ n
    · have hle := lowbit_le idx h0
      have hpos := lowbit_pos idx h0
      have hkl : k ≤ Nat.log 2 n.toNat := pow_le_log k n (by omega)
      rw [addTrace_step _ _ _ hc, List.length_cons]
      have := ih (k + 1) (idx + lowbit idx) (by omega)
        (pow_succ_le k _ _ hk (lowbit_next idx h0))
      omega
    · rw [addTrace_done _ _ _ hc]
      exact Nat.zero_le _

/-- The array left by the loop of `add` is the initial array after the statement
`bit[i] += val` at each accessed position `i`, in order. -/
theorem addLoop_eq_foldl (n val : Int) :
    ∀ (fuel : Nat) (bit : List Int) (idx : Int),
      (Fenwick.addLoop fuel n bit idx val).1 =
        (Fenwick.addTrace fuel n idx).foldl (fun b i => Fenwick.bump b i val) bit := by
  intro fuel
  induction fuel with
  | zero => intro bit idx; rfl
  | succ fuel ih =>
    intro bit idx
    by_cases hc : idx ≤ n
    · rw [addLoop_step _ _ _ _ _ hc, addTrace_step _ _ _ hc, List.foldl_cons]
      exact ih _ _
    · rw [addLoop_done _ _ _ _ _ hc, addTrace_done _ _ _ hc]
      rfl

/-- Statements `bit[i] += val` leave every other position as it was. -/
theorem foldl_bump_getD (val : Int) (j : Nat) :
    ∀ (tr bit : List Int), (∀ i ∈ tr, i.toNat ≠ j) →
      (tr.foldl (fun b i => Fenwick.bump b i val) bit).getD j 0 = bit.getD j 0 := by
  intro tr
  induction tr with
  | nil => intro bit _; rfl
  | cons a tr ih =>
    intro bit h
    rw [List.foldl_cons, ih _ (fun i hi => h i (List.mem_cons_of_mem _ hi))]
    have ha : a.toNat ≠ j := h a (List.mem_cons_self _ _)
    simp [Fenwick.bump, List.getD_eq_getElem?_getD, List.getElem?_set, ha]

theorem sumLoop_done (fuel : Nat) (bit : List Int) (idx res : Int) (h : ¬ idx > 0) :
    Fenwick.sumLoop fuel bit idx res = (res, idx) := by
  cases fuel with
  | zero => rfl
  | succ fuel => simp [Fenwick.sumLoop, h]

theorem sumLoop_step (fuel : Nat) (bit : List Int) (idx res : Int) (h : idx > 0) :
    Fenwick.sumLoop (fuel + 1) bit idx res =
      Fenwick.sumLoop fuel bit (idx - lowbit idx) (wrapInt (res + bit.getD idx.toNat 0)) := by
  simp [Fenwick.sumLoop, h]

theorem sumTrace_done (fuel : Nat) (idx : Int) (h : ¬ idx > 0) :
    Fenwick.sumTrace fuel idx = [] := by
  cases fuel with
  | zero => rfl
  | succ fuel => simp [Fenwick.sumTrace, h]

theorem sumTrace_step (fuel : Nat) (idx : Int) (h : idx > 0) :
    Fenwick.sumTrace (fuel + 1) idx = idx :: Fenwick.sumTrace fuel (idx - lowbit idx) := by
  simp [Fenwick.sumTrace, h]

/-- With at least `floor(log2 m) + 1` iterations allowed, the loop of `sum` started
at some `idx <= m` leaves by its condition, with `idx == 0`, and its result and
its accesses do not depend on the allowance.  The exponent `k` counts the
iterations already made. -/
theorem sumLoop_fuel (m : Int) (bit : List Int) :
    ∀ (fuel1 fuel2 k : Nat) (idx res : Int), 0 ≤ idx → idx ≤ m →
      (0 < idx → ((2 ^ k : Nat) : Int) ≤ lowbit idx) →
      Nat.log 2 m.toNat + 1 - k ≤ fuel1 → Nat.log 2 m.toNat + 1 - k ≤ fuel2 →
      Fenwick.sumLoop fuel1 bit idx res = Fenwick.sumLoop fuel2 bit idx res ∧
      Fenwick.sumTrace fuel1 idx = Fenwick.sumTrace fuel2 idx ∧
      (Fenwick.sumLoop fuel1 bit idx res).2 = 0 := by
  intro fuel1
  induction fuel1 with
  | zero =>
    intro fuel2 k idx res h0 hm hk h1 h2
    have hz : idx = 0 := by
      by_contra hne
      have hpos : 0 < idx := by omega
      have := log_lt_pow k m (by omega)
      have := lowbit_le idx hpos
      have := hk hpos
      omega
    have hd : ¬ idx > 0 := by omega
    rw [sumLoop_done _ _ _ _ hd, sumLoop_done _ _ _ _ hd, sumTrace_done _ _ hd,
      sumTrace_done _ _ hd]
    exact ⟨rfl, rfl, hz⟩
  | succ fuel1 ih =>
    intro fuel2 k idx res h0 hm hk h1 h2
    by_cases hc : idx > 0
    · have hle := lowbit_le idx hc
      have hpos := lowbit_pos idx hc
      have hk1 := hk hc
      have hkl : k ≤ Nat.log 2 m.toNat := pow_le_log k m (by omega)
      obtain ⟨fuel2, rfl⟩ : ∃ j, fuel2 = j + 1 := ⟨fuel2 - 1, by omega⟩
      rw [sumLoop_step _ _ _ _ hc, sumLoop_step _ _ _ _ hc, sumTrace_step _ _ hc,
        sumTrace_step _ _ hc]
      obtain ⟨g1, g2, g3⟩ := ih fuel2 (k + 1) (idx - lowbit idx)
        (wrapInt (res + bit.getD idx.toNat 0)) (by omega) (by omega)
        (fun h => pow_succ_le k _ _ hk1 (lowbit_prev idx hc h)) (by omega) (by omega)
      exact ⟨g1, by rw [g2], g3⟩
    · rw [sumLoop_done _ _ _ _ hc, sumLoop_done _ _ _ _ hc, sumTrace_done _ _ hc,
        sumTrace_done _ _ hc]
      exact ⟨rfl, rfl, by omega⟩

theorem sumTrace_mem :
    ∀ (fuel : Nat) (idx : Int), ∀ i ∈ Fenwick.sumTrace fuel idx, 1 ≤ i ∧ i ≤ idx := by
  intro fuel
  induction fuel with
  | zero => intro idx i hi; cases hi
  | succ fuel ih =>
    intro idx i hi
    by_cases hc : idx > 0
    · rw [sumTrace_step _ _ hc] at hi
      have hpos := lowbit_pos idx hc
      rcases List.mem_cons.1 hi with h | h
      · omega
      · have := ih (idx - lowbit idx) i h
        omega
    · rw [sumTrace_done _ _ hc] at hi
      cases hi

/-- The values of the loop variable of `sum`, the accessed positions followed by
the exit value, form a chain of steps `idx -= idx & -idx` that starts at `idx`. -/
theorem sumTrace_chain (bit : List Int) :
    ∀ (fuel : Nat) (idx res : Int),
      List.Chain' Fenwick.SumStep
        (Fenwick.sumTrace fuel idx ++ [(Fenwick.sumLoop fuel bit idx res).2]) ∧
      (Fenwick.sumTrace fuel idx ++ [(Fenwick.sumLoop fuel bit idx res).2]).head? =
        some idx := by
  intro fuel
  induction fuel with
  | zero => intro idx res; exact ⟨List.chain'_singleton _, rfl⟩
  | succ fuel ih =>
    intro idx res
    by_cases hc : idx > 0
    · rw [sumLoop_step _ _ _ _ hc, sumTrace_step _ _ hc]
      have hpos := lowbit_pos idx hc
      obtain ⟨g1, g2⟩ := ih (idx - lowbit idx) (wrapInt (res + bit.getD idx.toNat 0))
      refine ⟨?_, rfl⟩
      rw [List.cons_append, List.chain'_cons']
      refine ⟨?_, g1⟩
      intro y hy
      rw [g2] at hy
      cases hy
      exact ⟨rfl, by omega⟩
    · rw [sumLoop_done _ _ _ _ hc, sumTrace_done _ _ hc]
      exact ⟨List.chain'_singleton _, rfl⟩

theorem sumTrace_length (m : Int) :
    ∀ (fuel k : Nat) (idx : Int), idx ≤ m →
      (0 < idx → ((2 ^ k : Nat) : Int) ≤ lowbit idx) →
      (Fenwick.sumTrace fuel idx).length ≤ Nat.log 2 m.toNat + 1 - k := by
  intro fuel
  induction fuel with
  | zero => intro k idx _ _; exact Nat.zero_le _
  | succ fuel ih =>
    intro k idx hm hk
    by_cases hc : idx > 0
    · have hle := lowbit_le idx hc
      have hpos := lowbit_pos idx hc
      have hk1 := hk hc
      have hkl : k ≤ Nat.log 2 m.toNat := pow_le_log k m (by omega)
      rw [sumTrace_step _ _ hc, List.length_cons]
      have := ih (k + 1) (idx - lowbit idx) (by omega)
        (fun h => pow_succ_le k _ _ hk1 (lowbit_prev idx hc h))
      omega
    · rw [sumTrace_done _ _ hc]
      exact Nat.zero_le _

/-- The result of the loop of `sum` is the initial `result` after the statement
`result += bit[i]` at each accessed position `i`, in order. -/
theorem sumLoop_eq_foldl (bit : List Int) :
    ∀ (fuel : Nat) (idx res : Int),
      (Fenwick.sumLoop fuel bit idx res).1 =
        (Fenwick.sumTrace fuel idx).foldl (fun r i => wrapInt (r + bit.getD i.toNat 0)) res := by
  intro fuel
  induction fuel with
  | zero => intro idx res; rfl
  | succ fuel ih =>
    intro idx res
    by_cases hc : idx > 0
    · rw [sumLoop_step _ _ _ _ hc, sumTrace_step _ _ hc, List.foldl_cons]
      exact ih _ _
    · rw [sumLoop_done _ _ _ _ hc, sumTrace_done _ _ hc]
      rfl

/-- Statements `result += v` on an `int` leave the `int` value of the initial
`result` plus the sum of the values `v`. -/
theorem foldl_wrapInt_add (g : Int → Int) :
    ∀ (tr : List Int) (res : Int), wrapInt res = res →
      tr.foldl (fun r i => wrapInt (r + g i)) res = wrapInt (res + (tr.map g).sum) := by
  intro tr
  induction tr with
  | nil => intro res h; simp [h]
  | cons a tr ih =>
    intro res _
    rw [List.foldl_cons, ih _ (wrapInt_wrapInt _), List.map_cons, List.sum_cons,
      wrapInt_add_left, add_assoc]

/-! ## The chains of a tree of capacity 8 -/

theorem lowbit_one : lowbit 1 = 1 := lowbit_odd 0 (le_refl 0)

theorem lowbit_two : lowbit 2 = 2 := by
  have h := lowbit_even 1 (by decide)
  rw [lowbit_one] at h
  exact h

theorem lowbit_three : lowbit 3 = 1 := lowbit_odd 1 (by decide)

theorem lowbit_four : lowbit 4 = 4 := by
  have h := lowbit_even 2 (by decide)
  rw [lowbit_two] at h
  exact h

theorem lowbit_six : lowbit 6 = 2 := by
  have h := lowbit_even 3 (by decide)
  rw [lowbit_three] at h
  exact h

theorem lowbit_seven : lowbit 7 = 1 := lowbit_odd 3 (by decide)

theorem lowbit_eight : lowbit 8 = 8 := by
  have h := lowbit_even 4 (by decide)
  rw [lowbit_four] at h
  exact h

/-- In a tree of capacity 8, `add(3, val)` accesses the positions 3, 4, 8 and
leaves its loop with `idx == 16`. -/
theorem addAccesses_example (bit : List Int) (val : Int) :
    (Fenwick.mk 8 bit).addAccesses 3 = [3, 4, 8] ∧
    (Fenwick.addLoop 8 8 bit 3 val).2 = 16 := by
  constructor
  · simp [Fenwick.addAccesses, Fenwick.addTrace, lowbit_three, lowbit_four, lowbit_eight]
  · simp [Fenwick.addLoop, lowbit_three, lowbit_four, lowbit_eight]

/-- In a tree of capacity 8, `sum(7)` accesses the positions 7, 6, 4 and leaves its
loop with `idx == 0`; `sum(11)` is clamped to position 8. -/
theorem sumAccesses_example (bit : List Int) :
    (Fenwick.mk 8 bit).sumAccesses 7 = [7, 6, 4] ∧
    (Fenwick.sumLoop 7 bit 7 0).2 = 0 ∧
    (Fenwick.mk 8 bit).sumAccesses 11 = [8] := by
  refine ⟨?_, ?_, ?_⟩
  · simp [Fenwick.sumAccesses, Fenwick.sumTrace, lowbit_seven, lowbit_six, lowbit_four]
  · simp [Fenwick.sumLoop, lowbit_seven, lowbit_six, lowbit_four]
  · simp [Fenwick.sumAccesses, Fenwick.sumTrace, lowbit_eight]

/-! ## Claim about the loops of `add` and `sum` -/

theorem addAccesses_eq (n : Int) (bit : List Int) (idx : Int) (h0 : 0 < idx) (h1 : idx ≤ n) :
    (Fenwick.mk n bit).addAccesses idx = Fenwick.addTrace n.toNat n idx := by
  have hg : ¬ (idx ≤ 0 ∨ idx > n) := by omega
  simp only [Fenwick.addAccesses, if_neg hg]

theorem addAccesses_guard (n : Int) (bit : List Int) (idx : Int) (hg : idx ≤ 0 ∨ idx > n) :
    (Fenwick.mk n bit).addAccesses idx = [] := by
  simp only [Fenwick.addAccesses, if_pos hg]

theorem add_bit_eq (n : Int) (bit : List Int) (idx val : Int) (h0 : 0 < idx) (h1 : idx ≤ n) :
    ((Fenwick.mk n bit).add idx val).bit = (Fenwick.addLoop n.toNat n bit idx val).1 := by
  have hg : ¬ (idx ≤ 0 ∨ idx > n) := by omega
  simp only [Fenwick.add, if_neg hg]

theorem sumAccesses_eq (n : Int) (bit : List Int) (idx : Int) (h0 : 0 < idx) :
    (Fenwick.mk n bit).sumAccesses idx =
      Fenwick.sumTrace (if idx > n then n else idx).toNat (if idx > n then n else idx) := by
  have hg : ¬ idx ≤ 0 := by omega
  simp only [Fenwick.sumAccesses, if_neg hg]

theorem sum_eq_loop (n : Int) (bit : List Int) (idx : Int) (h0 : 0 < idx) :
    (Fenwick.mk n bit).sum idx =
      (Fenwick.sumLoop (if idx > n then n else idx).toNat bit
        (if idx > n then n else idx) 0).1 := by
  have hg : ¬ idx ≤ 0 := by omega
  simp only [Fenwick.sum, if_neg hg]

theorem pow_zero_le_lowbit (idx : Int) (h0 : 0 < idx) : ((2 ^ 0 : Nat) : Int) ≤ lowbit idx := by
  have := lowbit_pos idx h0
  simpa using this

/-- C22: for a Fenwick tree of capacity `n >= 1` with any array `bit`, and every
`idx`, `val`.
The call `add(idx, val)` accesses `bit` only at positions in `[1, n]`, never at
position `0` (whose counter is left as it was), at most `floor(log2 n) + 1` of
them, and the array it leaves is the one after `bit[i] += val` at exactly these
positions.  When the bounds check passes, the loop terminates: with any
allowance of at least `floor(log2 n) + 1` iterations it yields the same result
and the same accesses as in `add`, it leaves by its condition with `idx` in
`(n, n + n]` (so `idx` never exceeds `n + n`), and the values of `idx`, the
accessed positions followed by the exit value, are the strictly increasing chain
`idx, idx + lowbit(idx), ...`.
The call `sum(idx)` accesses `bit` only at positions in `[1, n]`, never at
position `0`, at most `floor(log2 n) + 1` of them, and returns the result of
`result += bit[i]` at exactly these positions, which is the `int` value of the total
of the counters read there (the total itself when it is representable).  For `idx > 0`, with `c` the clamped `idx`, the loop
terminates likewise, it leaves with `idx == 0`, and the values of `idx` are the
strictly decreasing chain `c, c - lowbit(c), ..., 0`. -/
theorem C22_loop_safety (n : Int) (hn : 1 ≤ n) (bit : List Int) (idx val : Int) :
    ((∀ i ∈ (Fenwick.mk n bit).addAccesses idx, 1 ≤ i ∧ i ≤ n ∧
        (bit.length = (n + 1).toNat → i.toNat < bit.length)) ∧
      0 ∉ (Fenwick.mk n bit).addAccesses idx ∧
      ((Fenwick.mk n bit).addAccesses idx).length ≤ Nat.log 2 n.toNat + 1 ∧
      ((Fenwick.mk n bit).add idx val).bit =
        ((Fenwick.mk n bit).addAccesses idx).foldl (fun b i => Fenwick.bump b i val) bit ∧
      ((Fenwick.mk n bit).add idx val).bit.getD 0 0 = bit.getD 0 0 ∧
      (idx ≤ 0 ∨ idx > n → (Fenwick.mk n bit).addAccesses idx = []) ∧
      (0 < idx → idx ≤ n →
        ∀ fuel : Nat, Nat.log 2 n.toNat + 1 ≤ fuel →
          Fenwick.addLoop fuel n bit idx val = Fenwick.addLoop n.toNat n bit idx val ∧
          Fenwick.addTrace fuel n idx = (Fenwick.mk n bit).addAccesses idx ∧
          n < (Fenwick.addLoop fuel n bit idx val).2 ∧
          (Fenwick.addLoop fuel n bit idx val).2 ≤ n + n ∧
          ((Fenwick.mk n bit).addAccesses idx).head? = some idx ∧
          List.Chain' Fenwick.AddStep
            ((Fenwick.mk n bit).addAccesses idx ++
              [(Fenwick.addLoop fuel n bit idx val).2]) ∧
          List.Pairwise (fun a b => a < b)
            ((Fenwick.mk n bit).addAccesses idx ++
              [(Fenwick.addLoop fuel n bit idx val).2]))) ∧
    ((∀ i ∈ (Fenwick.mk n bit).sumAccesses idx, 1 ≤ i ∧ i ≤ n ∧
        (bit.length = (n + 1).toNat → i.toNat < bit.length)) ∧
      0 ∉ (Fenwick.mk n bit).sumAccesses idx ∧
      ((Fenwick.mk n bit).sumAccesses idx).length ≤ Nat.log 2 n.toNat + 1 ∧
      (Fenwick.mk n bit).sum idx =
        ((Fenwick.mk n bit).sumAccesses idx).foldl
          (fun r i => wrapInt (r + bit.getD i.toNat 0)) 0 ∧
      (Fenwick.mk n bit).sum idx =
        wrapInt (((Fenwick.mk n bit).sumAccesses idx).map (fun i => bit.getD i.toNat 0)).sum ∧
      (InInt (((Fenwick.mk n bit).sumAccesses idx).map (fun i => bit.getD i.toNat 0)).sum →
        (Fenwick.mk n bit).sum idx =
          (((Fenwick.mk n bit).sumAccesses idx).map (fun i => bit.getD i.toNat 0)).sum) ∧
      (idx ≤ 0 → (Fenwick.mk n bit).sumAccesses idx = []) ∧
      (0 < idx → ∀ c : Int, c = (if idx > n then n else idx) →
        ∀ fuel : Nat, Nat.log 2 n.toNat + 1 ≤ fuel →
          Fenwick.sumLoop fuel bit c 0 = Fenwick.sumLoop c.toNat bit c 0 ∧
          Fenwick.sumTrace fuel c = (Fenwick.mk n bit).sumAccesses idx ∧
          (Fenwick.sumLoop fuel bit c 0).2 = 0 ∧
          ((Fenwick.mk n bit).sumAccesses idx).head? = some c ∧
          List.Chain' Fenwick.SumStep ((Fenwick.mk n bit).sumAccesses idx ++ [0]) ∧
          List.Pairwise (fun a b => b < a)
            ((Fenwick.mk n bit).sumAccesses idx ++ [0]))) := by
  constructor
  · -- the call `add(idx, val)`
    by_cases hg : idx ≤ 0 ∨ idx > n
    · have hacc := addAccesses_guard n bit idx hg
      have hadd : (Fenwick.mk n bit).add idx val = Fenwick.mk n bit := by simp only [Fenwick.add, if_pos hg]
      rw [hacc, hadd]
      refine ⟨fun i hi => (by cases hi), fun hi => (by cases hi), Nat.zero_le _, rfl, rfl,
        fun _ => rfl, ?_⟩
      intro h0 h1
      omega
    · have h0 : 0 < idx := by omega
      have h1 : idx ≤ n := by omega
      have hmem := addTrace_mem n n.toNat idx h0
      rw [addAccesses_eq n bit idx h0 h1, add_bit_eq n bit idx val h0 h1]
      refine ⟨?_, ?_, ?_, addLoop_eq_foldl n val _ bit idx, ?_, fun h => absurd h hg, ?_⟩
      · intro i hi
        have := hmem i hi
        exact ⟨by omega, this.2, fun hlen => by omega⟩
      · intro hi
        have := hmem 0 hi
        omega
      · exact addTrace_length n n.toNat 0 idx h0 (pow_zero_le_lowbit idx h0)
      · rw [addLoop_eq_foldl]
        apply foldl_bump_getD
        intro i hi
        have := hmem i hi
        omega
      · intro _ _ fuel hfuel
        obtain ⟨g1, g2, g3⟩ := addLoop_fuel n val fuel n.toNat 0 bit idx h0
          (pow_zero_le_lowbit idx h0) (by omega) (by have := log_fuel n hn; omega)
        have hch := addTrace_chain n val fuel bit idx h0
        rw [g2] at hch
        refine ⟨g1, g2, g3, addLoop_exit_le n val fuel bit idx h0 (by omega), ?_, hch.1, ?_⟩
        · obtain ⟨m, hm⟩ : ∃ m, n.toNat = m + 1 := ⟨n.toNat - 1, by omega⟩
          rw [hm, addTrace_step _ _ _ h1]
          rfl
        · exact List.chain'_iff_pairwise.1 (hch.1.imp (fun _ _ h => h.2))
  · -- the call `sum(idx)`
    by_cases hg : idx ≤ 0
    · have hacc : (Fenwick.mk n bit).sumAccesses idx = [] := by simp only [Fenwick.sumAccesses, if_pos hg]
      have hsum : (Fenwick.mk n bit).sum idx = 0 := by simp only [Fenwick.sum, if_pos hg]
      rw [hacc, hsum]
      refine ⟨fun i hi => (by cases hi), fun hi => (by cases hi), Nat.zero_le _, rfl, rfl,
        fun _ => rfl, fun _ => rfl, ?_⟩
      intro h0
      omega
    · have h0 : 0 < idx := by omega
      rw [sumAccesses_eq n bit idx h0, sum_eq_loop n bit idx h0]
      generalize hc : (if idx > n then n else idx) = c
      have hc1 : 1 ≤ c := by rw [← hc]; split <;> omega
      have hc2 : c ≤ n := by rw [← hc]; split <;> omega
      have hmem := sumTrace_mem c.toNat c
      have hfold := sumLoop_eq_foldl bit c.toNat c 0
      have hwrap := foldl_wrapInt_add (fun i => bit.getD i.toNat 0)
        (Fenwick.sumTrace c.toNat c) 0 wrapInt_zero
      rw [zero_add] at hwrap
      refine ⟨?_, ?_, ?_, hfold, ?_, ?_, fun h => absurd h hg, ?_⟩
      · intro i hi
        have := hmem i hi
        exact ⟨this.1, by omega, fun hlen => by omega⟩
      · intro hi
        have := hmem 0 hi
        omega
      · exact sumTrace_length n c.toNat 0 c hc2 (fun h => pow_zero_le_lowbit c h)
      · rw [hfold, hwrap]
      · intro hin
        rw [hfold, hwrap, wrapInt_of_inInt _ hin]
      · intro _ c2 hc3 fuel hfuel
        rw [hc3]
        have hlog : Nat.log 2 c.toNat ≤ Nat.log 2 n.toNat :=
          Nat.log_mono_right (show c.toNat ≤ n.toNat by omega)
        obtain ⟨g1, g2, g3⟩ := sumLoop_fuel c bit fuel c.toNat 0 c 0 (by omega) (le_refl c)
          (fun h => pow_zero_le_lowbit c h) (by omega) (by have := log_fuel c hc1; omega)
        have hch := sumTrace_chain bit fuel c 0
        rw [g2, g3] at hch
        refine ⟨g1, g2, g3, ?_, hch.1, ?_⟩
        · obtain ⟨m, hm⟩ : ∃ m, c.toNat = m + 1 := ⟨c.toNat - 1, by omega⟩
          rw [hm, sumTrace_step _ _ (by omega)]
          rfl
        · exact List.chain'_iff_pairwise.1 (hch.1.imp (fun _ _ h => h.2))

theorem C22_loop_safety_witness :
    ((∀ i ∈ (Fenwick.mk 8 (List.replicate 9 0)).addAccesses (3 : Int), 1 ≤ i ∧ i ≤ (8 : Int) ∧
        ((List.replicate 9 0).length =
            ((8 : Int) + 1).toNat → i.toNat < (List.replicate 9 0).length)) ∧
      0 ∉ (Fenwick.mk 8 (List.replicate 9 0)).addAccesses (3 : Int) ∧
      ((Fenwick.mk 8 (List.replicate 9 0)).addAccesses (3 : Int)).length ≤
          Nat.log 2 (8 : Int).toNat + 1 ∧
      ((Fenwick.mk 8 (List.replicate 9 0)).add (3 : Int) (5 : Int)).bit =
        ((Fenwick.mk 8 (List.replicate 9 0)).addAccesses (3 : Int)).foldl (fun b i =>
            Fenwick.bump b i (5 : Int)) (List.replicate 9 0) ∧
      ((Fenwick.mk 8 (List.replicate 9 0)).add (3 : Int) (5 : Int)).bit.getD 0 0 =
          (List.replicate 9 0).getD 0 0 ∧
      ((3 : Int) ≤ 0 ∨ (3 : Int) > (8 : Int) →
          (Fenwick.mk 8 (List.replicate 9 0)).addAccesses (3 : Int) = []) ∧
      (0 < (3 : Int) → (3 : Int) ≤ (8 : Int) →
        ∀ fuel : Nat, Nat.log 2 (8 : Int).toNat + 1 ≤ fuel →
          Fenwick.addLoop fuel (8 : Int) (List.replicate 9 0) (3 : Int) (5 : Int) =
              Fenwick.addLoop (8 : Int).toNat (8 : Int) (List.replicate 9 0) (3 : Int) (5 : Int) ∧
          Fenwick.addTrace fuel (8 : Int) (3 : Int) =
              (Fenwick.mk 8 (List.replicate 9 0)).addAccesses (3 : Int) ∧
          (8 : Int) < (Fenwick.addLoop fuel (8 : Int) (List.replicate 9 0) (3 : Int) (5 : Int)).2 ∧
          (Fenwick.addLoop fuel (8 : Int) (List.replicate 9 0) (3 : Int) (5 : Int)).2 ≤
              (8 : Int) + (8 : Int) ∧
          ((Fenwick.mk 8 (List.replicate 9 0)).addAccesses (3 : Int)).head? = some (3 : Int) ∧
          List.Chain' Fenwick.AddStep
            ((Fenwick.mk 8 (List.replicate 9 0)).addAccesses (3 : Int) ++
              [(Fenwick.addLoop fuel (8 : Int) (List.replicate 9 0) (3 : Int) (5 : Int)).2]) ∧
          List.Pairwise (fun a b => a < b)
            ((Fenwick.mk 8 (List.replicate 9 0)).addAccesses (3 : Int) ++
              [(Fenwick.addLoop fuel (8 : Int) (List.replicate 9 0) (3 : Int) (5 : Int)).2]))) ∧
    ((∀ i ∈ (Fenwick.mk 8 (List.replicate 9 0)).sumAccesses (3 : Int), 1 ≤ i ∧ i ≤ (8 : Int) ∧
        ((List.replicate 9 0).length =
            ((8 : Int) + 1).toNat → i.toNat < (List.replicate 9 0).length)) ∧
      0 ∉ (Fenwick.mk 8 (List.replicate 9 0)).sumAccesses (3 : Int) ∧
      ((Fenwick.mk 8 (List.replicate 9 0)).sumAccesses (3 : Int)).length ≤
          Nat.log 2 (8 : Int).toNat + 1 ∧
      (Fenwick.mk 8 (List.replicate 9 0)).sum (3 : Int) =
        ((Fenwick.mk 8 (List.replicate 9 0)).sumAccesses (3 : Int)).foldl
          (fun r i => wrapInt (r + (List.replicate 9 0).getD i.toNat 0)) 0 ∧
      (Fenwick.mk 8 (List.replicate 9 0)).sum (3 : Int) =
        wrapInt (((Fenwick.mk 8 (List.replicate 9 0)).sumAccesses (3 : Int)).map (fun i =>
            (List.replicate 9 0).getD i.toNat 0)).sum ∧
      (InInt (((Fenwick.mk 8 (List.replicate 9 0)).sumAccesses (3 : Int)).map (fun i =>
          (List.replicate 9 0).getD i.toNat 0)).sum →
        (Fenwick.mk 8 (List.replicate 9 0)).sum (3 : Int) =
          (((Fenwick.mk 8 (List.replicate 9 0)).sumAccesses (3 : Int)).map (fun i =>
              (List.replicate 9 0).getD i.toNat 0)).sum) ∧
      ((3 : Int) ≤ 0 → (Fenwick.mk 8 (List.replicate 9 0)).sumAccesses (3 : Int) = []) ∧
      (0 < (3 : Int) → ∀ c : Int, c = (if (3 : Int) > (8 : Int) then (8 : Int) else (3 : Int)) →
        ∀ fuel : Nat, Nat.log 2 (8 : Int).toNat + 1 ≤ fuel →
          Fenwick.sumLoop fuel (List.replicate 9 0) c 0 =
              Fenwick.sumLoop c.toNat (List.replicate 9 0) c 0 ∧
          Fenwick.sumTrace fuel c = (Fenwick.mk 8 (List.replicate 9 0)).sumAccesses (3 : Int) ∧
          (Fenwick.sumLoop fuel (List.replicate 9 0) c 0).2 = 0 ∧
          ((Fenwick.mk 8 (List.replicate 9 0)).sumAccesses (3 : Int)).head? = some c ∧
          List.Chain' Fenwick.SumStep ((Fenwick.mk 8 (List.replicate 9 0)).sumAccesses (3 : Int)
              ++ [0]) ∧
          List.Pairwise (fun a b => b < a)
            ((Fenwick.mk 8 (List.replicate 9 0)).sumAccesses (3 : Int) ++ [0]))) :=
  C22_loop_safety 8 (by decide) (List.replicate 9 0) 3 5

end SpatioTemporal
